import Mathlib

/-!
# iosphotobackup: a shallow embedding of `main.go`

The program copies (or moves) the media files of a mounted iOS device into a
target directory in two phases:

* `dcim` walks `{mount}/DCIM`, pruning every directory that is neither the root
  nor named `*APPLE`, and transfers every non-directory it visits;
* `mutations` lists `{mount}/PhotoData/Mutations/DCIM/*APPLE/*`, and for each
  asset folder transfers its rendered `jpg` (else `mov`) under a name that is
  not yet taken in the target directory.

The embedding passes the outside world explicitly: `World` carries the
filesystem as the program can observe it together with everything the program
has emitted so far.  Library functions of Go (`path/filepath`, `strings`,
`os`, `os/exec`) are modelled after their documentation.
-/

namespace IosPhotoBackup

/-! ## `path/filepath` and `strings` on Unix -/

/-- The elements of a path: the pieces between consecutive `/`. -/
def splitSlash : List Char → List (List Char)
  | [] => [[]]
  | c :: cs =>
    if c = '/' then [] :: splitSlash cs
    else
      match splitSlash cs with
      | [] => [[c]]
      | e :: es => (c :: e) :: es

/-- One element of `filepath.Clean`: empty and `.` elements are dropped, `..`
removes the preceding element when there is one that is not itself `..`, is
dropped at the top of a rooted path and is kept otherwise. -/
def cleanStep (rooted : Bool) (stack : List (List Char)) (e : List Char) : List (List Char) :=
  if e = [] ∨ e = ['.'] then stack
  else if e = ['.', '.'] then
    match stack.getLast? with
    | none => if rooted then stack else stack ++ [e]
    | some top => if top = ['.', '.'] then stack ++ [e] else stack.dropLast
  else stack ++ [e]

/-- The elements joined by single slashes. -/
def joinSlash : List (List Char) → List Char
  | [] => []
  | [e] => e
  | e :: es => e ++ '/' :: joinSlash es

/-- The text of a cleaned path with the given elements. -/
def renderPath (rooted : Bool) (stack : List (List Char)) : List Char :=
  (if rooted then ['/'] else []) ++ joinSlash stack

/-- Go `filepath.Clean`: the shortest path equivalent to `path` by purely
lexical processing; the empty result is written `.`. -/
def Clean (path : String) : String :=
  let rooted : Bool := path.data.head? = some '/'
  let body := renderPath rooted ((splitSlash path.data).foldl (cleanStep rooted) [])
  if body = [] then "." else String.mk body

/-- Go `filepath.Join(a, b)`: leading empty elements are ignored, the rest is
joined with `/` and cleaned; all empty gives the empty string. -/
def Join (a b : String) : String :=
  if a ≠ "" then Clean (a ++ "/" ++ b)
  else if b ≠ "" then Clean b
  else ""

/-- Go `filepath.Base`: the last element of the path, trailing slashes removed
first; `.` for the empty path and `/` for a path of slashes only. -/
def Base (path : String) : String :=
  if path = "" then "."
  else
    let stripped := path.data.reverse.dropWhile (· = '/')
    let last := (stripped.takeWhile (· ≠ '/')).reverse
    if last = [] then "/" else String.mk last

/-- Go `filepath.Dir`: everything up to the last slash, cleaned. -/
def Dir (path : String) : String :=
  Clean (String.mk (path.data.reverse.dropWhile (· ≠ '/')).reverse)

/-- Go `strings.HasSuffix`. -/
def HasSuffix (s suffix : String) : Bool := suffix.data.isSuffixOf s.data

/-- Go `strings.ToUpper`, on ASCII text (the program only passes `jpg` and
`mov`). -/
def ToUpper (s : String) : String := String.mk (s.data.map Char.toUpper)

/-- A name as a directory listing returns it: not empty, without `/`, and
neither `.` nor `..`. -/
def isPlain (name : String) : Bool :=
  name ≠ "" && !name.data.contains '/' && name ≠ "." && name ≠ ".."

/-- An extension on which `ToUpper` above is Go's: letters and digits of
ASCII, at least one. -/
def validExt (ext : String) : Bool :=
  ext ≠ "" && ext.data.all Char.isAlphanum

/-! ## Errors -/

/-- The errors of the `os` package that the program can meet. -/
inductive OsError
  | notExist
  | permission
  | io
  deriving DecidableEq, Repr

/-- Go `error` values as built by the program with `github.com/pkg/errors`. -/
inductive GoError
  | new (msg : String)
  | os (e : OsError)
  | exit (status : Nat)
  | wrapf (cause : GoError) (format : String) (args : List String)
  | withStack (cause : GoError)
  deriving DecidableEq, Repr

/-! ## The world -/

/-- What a directory listing gives. -/
inductive Listing
  | names (ns : List String)
  | fail (e : OsError)
  deriving DecidableEq, Repr

/-- The filesystem as `os.Stat`, `os.Open` and `Readdirnames` show it.  A path
missing from a table does not exist; `none` in `statTable` is a successful
`Stat`. -/
structure FS where
  statTable : List (String × Option OsError)
  dirTable : List (String × Listing)
  deriving DecidableEq, Repr

/-- The error of `os.Stat(path)`: `none` is Go's `nil`. -/
def FS.stat (fs : FS) (path : String) : Option OsError :=
  match fs.statTable.lookup path with
  | some r => r
  | none => some OsError.notExist

/-- The outcome of `os.Open(path)` followed by `Readdirnames(0)`. -/
def FS.readdir (fs : FS) (path : String) : Listing :=
  match fs.dirTable.lookup path with
  | some r => r
  | none => Listing.fail OsError.notExist

/-- The filesystem together with a record of what the program has done so far,
oldest first: `stdout` and `stderr` are the text printed, `procs` the commands
run through `os/exec`, `stats` the paths given to `os.Stat` with the error
returned, `listed` the directories opened and read with the outcome, `walked`
the directories read by `filepath.Walk`, `requested` the calls of `app.exec`. -/
structure World where
  fs : FS
  stdout : String
  stderr : String
  procs : List (String × List String)
  stats : List (String × Option OsError)
  listed : List (String × Listing)
  walked : List String
  requested : List (String × List String)
  deriving DecidableEq, Repr

/-- An external command run to completion: the filesystem it leaves, its
combined output and its error. -/
abbrev Proc := FS → String → List String → FS × String × Option GoError

/-- A stand-in for the commands `cp --no-clobber` and `mv --no-clobber`, used in
the examples only, as far as `os.Stat` can observe them: a destination on
which `os.Stat` succeeds is left alone and reported with status 1 (the status
of a skipped destination depends on the version of coreutils), otherwise the
destination comes into existence and, for `mv`, the source goes away.  The
source and the directory of the destination are not examined.  The theorems
below hold for every `Proc`, and the examples run this one only on a
destination that is absent. -/
def coreutils : Proc := fun fs cmd args =>
  match args with
  | [_, src, dst] =>
    if fs.stat dst = none then (fs, "", some (GoError.exit 1))
    else if cmd = "mv" then
      ({ fs with statTable := (dst, none) :: (src, some OsError.notExist) :: fs.statTable }, "", none)
    else ({ fs with statTable := (dst, none) :: fs.statTable }, "", none)
  | _ => (fs, "", some (GoError.exit 1))

/-- The program's `os.Stat(path)`: the error, with the probe recorded. -/
def osStat (path : String) (w : World) : Option OsError × World :=
  (w.fs.stat path, { w with stats := w.stats ++ [(path, w.fs.stat path)] })

/-- The program's `os.Open(path)` and `Readdirnames(0)`: the outcome, with the
read recorded. -/
def osReaddir (path : String) (w : World) : Listing × World :=
  (w.fs.readdir path, { w with listed := w.listed ++ [(path, w.fs.readdir path)] })

/-- The world after `filepath.Walk` read the names of the directory `path`. -/
def World.reading (w : World) (path : String) : World :=
  { w with walked := w.walked ++ [path] }

/-! ## The program -/

/-- The run configuration. -/
structure app where
  Mount : String
  Target : String
  Delete : Bool
  DryRun : Bool
  deriving DecidableEq, Repr

/-- The line a dry run prints for a command: the command, each argument after
a blank, a newline. -/
def reportLine (cmd : String) (args : List String) : String :=
  args.foldl (fun s arg => s ++ " " ++ arg) cmd ++ "\n"

/-- Method `exec`: print the command in a dry run, run it otherwise and wrap
its error with its output. -/
def app.exec (P : Proc) (a : app) (cmd : String) (args : List String) (w : World) :
    World × Option GoError :=
  let w := { w with requested := w.requested ++ [(cmd, args)] }
  if a.DryRun then
    ({ w with stdout := w.stdout ++ reportLine cmd args }, none)
  else
    match P w.fs cmd args with
    | (fs, out, some err) =>
      ({ w with fs := fs, procs := w.procs ++ [(cmd, args)] }, some (GoError.wrapf err "%s" [out]))
    | (fs, _, none) =>
      ({ w with fs := fs, procs := w.procs ++ [(cmd, args)] }, none)

/-- Method `cpOrMv`. -/
def app.cpOrMv (P : Proc) (a : app) (src target : String) (w : World) : World × Option GoError :=
  if a.Delete then
    a.exec P "mv" ["--no-clobber", src, target] w
  else
    a.exec P "cp" ["--no-clobber", src, target] w

/-- What `filepath.Walk` finds at a path: a non-directory, a directory with its
entries in the order `Walk` visits them, a directory that cannot be read, or
an entry on which `Lstat` fails. -/
inductive Node
  | file
  | dir (entries : List (String × Node))
  | unreadable (e : OsError)
  | lstatFail (e : OsError)
  deriving Repr

/-- Whether `Lstat` reports a directory. -/
def Node.isDir : Node → Bool
  | .dir _ => true
  | .unreadable _ => true
  | _ => false

/-- Whether the loop of `walk` goes on after `SkipDir` from this entry: it does
for a directory and for an entry whose `Lstat` failed, and returns `SkipDir`
for any other entry. -/
def Node.skips : Node → Bool
  | .file => false
  | _ => true

/-- What a `filepath.WalkFunc` returns: `nil`, `filepath.SkipDir` or another
error. -/
inductive WalkSignal
  | ok
  | skipDir
  | fail (e : GoError)
  deriving DecidableEq, Repr

/-- A `filepath.WalkFunc`: the path, `info.IsDir()` and the error handed in. -/
abbrev WalkFunc := String → Bool → Option OsError → World → World × WalkSignal

mutual
/-- The recursive `walk` of `path/filepath`: a non-directory is handed to the
function; the names of a directory are read, the directory is handed to the
function together with the read error, and it is entered when both are `nil`.
An entry whose `Lstat` failed is handed to the function with that error. -/
def walk (fn : WalkFunc) (path : String) : Node → World → World × WalkSignal
  | .file, w => fn path false none w
  | .lstatFail e, w => fn path false (some e) w
  | .unreadable e, w => fn path true (some e) (w.reading path)
  | .dir entries, w =>
    match fn path true none (w.reading path) with
    | (w, .ok) => walkEntries fn path entries w
    | r => r
/-- The loop of `walk` over the names of a directory: an error other than
`SkipDir` ends the walk, `SkipDir` from a non-directory ends the directory. -/
def walkEntries (fn : WalkFunc) (path : String) : List (String × Node) → World → World × WalkSignal
  | [], w => (w, .ok)
  | (name, node) :: rest, w =>
    match walk fn (Join path name) node w with
    | (w, .ok) => walkEntries fn path rest w
    | (w, .skipDir) => if node.skips then walkEntries fn path rest w else (w, .skipDir)
    | (w, .fail err) => (w, .fail err)
end

/-- Go `filepath.Walk`: `SkipDir` from the root ends the walk without error. -/
def Walk (root : String) (node : Node) (fn : WalkFunc) (w : World) : World × Option GoError :=
  match walk fn root node w with
  | (w, .fail e) => (w, some e)
  | (w, _) => (w, none)

/-- The function literal that `dcim` passes to `filepath.Walk`. -/
def app.dcimFn (P : Proc) (a : app) (root : String) : WalkFunc := fun path isDir err w =>
  match err with
  | some e => (w, .fail (GoError.wrapf (GoError.os e) "for file %q" [path]))
  | none =>
    if isDir then
      if path = root ∨ HasSuffix path "APPLE" then (w, .ok)
      else ({ w with stderr := w.stderr ++ "Skipping: " ++ path ++ "\n" }, .skipDir)
    else
      let target := Join a.Target (Base path)
      match a.cpOrMv P path target w with
      | (w, none) => (w, .ok)
      | (w, some e) => (w, .fail e)

/-- Method `dcim`; `tree` is what the walk finds at `{mount}/DCIM`. -/
def app.dcim (P : Proc) (a : app) (tree : Node) (w : World) : World × Option GoError :=
  let root := Join a.Mount "DCIM"
  Walk root tree (a.dcimFn P root) w

/-- The struct `mutSrcTarget`. -/
structure mutSrcTarget where
  src : String
  target : String
  deriving DecidableEq, Repr

/-- The `for` loop of `mutSrcTarget`: `i` counts the probes, `target` is the
name under test; `none` when the fuel runs out. -/
def app.probe (a : app) (name ext : String) : Nat → Nat → String → World → Option (String × World)
  | 0, _, _, _ => none
  | fuel + 1, i, target, w =>
    let i := i + 1
    match osStat target w with
    | (none, w) =>
      let newName := name ++ "-v" ++ toString i
      a.probe name ext fuel i (Join a.Target (newName ++ "." ++ ToUpper ext)) w
    | (some _, w) => some (target, w)

/-- Method `mutSrcTarget`: the pair of Go results, `none` when the loop is out
of fuel. -/
def app.mutSrcTarget (fuel : Nat) (a : app) (dir ext : String) (w : World) :
    Option (World × Option mutSrcTarget × Option GoError) :=
  let src := Join dir ("Adjustments/FullSizeRender." ++ ext)
  match osStat src w with
  | (some _, w) => some (w, none, none)
  | (none, w) =>
    let name := Base dir
    let target := Join a.Target (name ++ "." ++ ToUpper ext)
    match a.probe name ext fuel 0 target w with
    | none => none
    | some (target, w) => some (w, some { src := src, target := target }, none)

/-- The body of the loop of `mutationsDir`, for one name of the listing. -/
def app.mutationsDirEntry (P : Proc) (fuel : Nat) (a : app) (dcim name : String) (w : World) :
    Option (World × Option GoError) :=
  let nameDir := Join dcim name
  match a.mutSrcTarget fuel nameDir "jpg" w with
  | none => none
  | some (w, _, some err) => some (w, some err)
  | some (w, some srcTarget, none) =>
    some (a.cpOrMv P srcTarget.src srcTarget.target w)
  | some (w, none, none) =>
    match a.mutSrcTarget fuel nameDir "mov" w with
    | none => none
    | some (w, _, some err) => some (w, some err)
    | some (w, some srcTarget, none) =>
      some (a.cpOrMv P srcTarget.src srcTarget.target w)
    | some (w, none, none) => some (w, none)

/-- The loop of `mutationsDir` over the listing. -/
def app.mutationsDirLoop (P : Proc) (fuel : Nat) (a : app) (dcim : String) :
    List String → World → Option (World × Option GoError)
  | [], w => some (w, none)
  | name :: rest, w =>
    match a.mutationsDirEntry P fuel dcim name w with
    | none => none
    | some (w, some err) => some (w, some err)
    | some (w, none) => a.mutationsDirLoop P fuel dcim rest w

/-- Method `mutationsDir`. -/
def app.mutationsDir (P : Proc) (fuel : Nat) (a : app) (dcim : String) (w : World) :
    Option (World × Option GoError) :=
  match osReaddir dcim w with
  | (.fail e, w) => some (w, some (GoError.withStack (GoError.os e)))
  | (.names names, w) => a.mutationsDirLoop P fuel dcim names w

/-- The loop of `mutations` over the listing. -/
def app.mutationsLoop (P : Proc) (fuel : Nat) (a : app) (dcim : String) :
    List String → World → Option (World × Option GoError)
  | [], w => some (w, none)
  | name :: rest, w =>
    if !HasSuffix name "APPLE" then a.mutationsLoop P fuel dcim rest w
    else
      match a.mutationsDir P fuel (Join dcim name) w with
      | none => none
      | some (w, some err) => some (w, some err)
      | some (w, none) => a.mutationsLoop P fuel dcim rest w

/-- Method `mutations`. -/
def app.mutations (P : Proc) (fuel : Nat) (a : app) (w : World) : Option (World × Option GoError) :=
  let dcim := Join a.Mount "PhotoData/Mutations/DCIM"
  match osReaddir dcim w with
  | (.fail e, w) => some (w, some (GoError.withStack (GoError.os e)))
  | (.names names, w) => a.mutationsLoop P fuel dcim names w

/-- Method `run`: the configuration as `run` leaves it, the world and the
error. -/
def app.run (P : Proc) (fuel : Nat) (a : app) (tree : Node) (w : World) :
    Option (app × World × Option GoError) :=
  if a.Mount = "" ∨ a.Target = "" then
    some (a, w, some (GoError.new "mount and target must be specified"))
  else
    let a := if !HasSuffix a.Target "/" then { a with Target := a.Target ++ "/" } else a
    match a.dcim P tree w with
    | (w, some err) => some (a, w, some err)
    | (w, none) =>
      match a.mutations P fuel w with
      | none => none
      | some (w, err) => some (a, w, err)


/-! ## Notions used in the statements and proofs -/

/-- The stacks `filepath.Clean` builds: proper elements, `..` only in front
and never in a rooted path. -/
structure CleanStack (r : Bool) (st : List (List Char)) : Prop where
  elems : ∀ e ∈ st, e ≠ [] ∧ e ≠ ['.'] ∧ '/' ∉ e
  noDots : r = true → ['.', '.'] ∉ st
  dotsFirst : ∀ pre suf, st = pre ++ ['.', '.'] :: suf → ∀ x ∈ pre, x = ['.', '.']

/-- Whether the text starts with a slash. -/
def isRooted (x : List Char) : Bool := x.head? = some '/'

/-- The elements `filepath.Clean` keeps of a path. -/
def cleanElems (x : List Char) : List (List Char) :=
  (splitSlash x).foldl (cleanStep (isRooted x)) []

/-- Go `filepath.Clean` on the characters of a path. -/
def cleanList (x : List Char) : List Char :=
  if renderPath (isRooted x) (cleanElems x) = [] then ['.']
  else renderPath (isRooted x) (cleanElems x)

/-- A relative path all of whose elements are proper names. -/
def RelPath (b : List Char) : Prop :=
  ∀ e ∈ splitSlash b, e ≠ [] ∧ e ≠ ['.'] ∧ e ≠ ['.', '.']

/-- What `Join a _` puts in front of a relative path. -/
def dirPrefix (a : List Char) : List Char :=
  if a = [] then []
  else if cleanList a = ['/'] then ['/']
  else if cleanList a = ['.'] then []
  else cleanList a ++ ['/']

/-- A cleaned path other than `/` and `.`: joining a name to it appends the
name after a slash. -/
def DirPath (p : String) : Prop := cleanList p.data = p.data ∧ p.data ≠ ['/'] ∧ p.data ≠ ['.']


/-- The names `mutSrcTarget` tries for a folder named `name`, in order:
`name.EXT`, `name-v1.EXT`, `name-v2.EXT`, ... -/
def candName (name ext : String) : Nat → String
  | 0 => name ++ "." ++ ToUpper ext
  | i + 1 => (name ++ "-v" ++ toString (i + 1)) ++ "." ++ ToUpper ext

/-- The paths `mutSrcTarget` tries in the target directory. -/
def app.cand (a : app) (name ext : String) (i : Nat) : String :=
  Join a.Target (candName name ext i)

/-- The entries of the directory `target` that `os.Stat` finds: the paths made
of `target` and a plain name on which `Stat` succeeds, each once. -/
def FS.destEntries (fs : FS) (target : String) : List String :=
  (fs.statTable.map Prod.fst).dedup.filter
    (fun p => fs.stat p = none ∧ isPlain (Base p) = true ∧ Join target (Base p) = p)

/-- The number a string of decimal digits denotes. -/
def digitsVal (ds : List Char) : Nat :=
  ds.foldl (fun acc c => 10 * acc + (c.toNat - 48)) 0

/-- The world after `os.Stat` has been called on the given paths in turn. -/
def World.probed (w : World) (paths : List String) : World :=
  { w with stats := w.stats ++ paths.map (fun p => (p, w.fs.stat p)) }

/-- The render that `mutSrcTarget` looks for in an asset folder. -/
def renderOf (dir ext : String) : String :=
  Join dir ("Adjustments/FullSizeRender." ++ ext)

/-! ## Example data -/

/-- A configuration: device at `/mnt`, photos to `/out/`, copying, live. -/
def exApp : app := { Mount := "/mnt", Target := "/out/", Delete := false, DryRun := false }

/-- The asset folder `Foo` of the mutations tree. -/
def exFoo : String := "/mnt/PhotoData/Mutations/DCIM/100APPLE/Foo"

/-- A world in which just the given `os.Stat` outcomes are on record. -/
def worldOf (stats : List (String × Option OsError)) : World :=
  { fs := { statTable := stats, dirTable := [] }, stdout := "", stderr := "", procs := [],
    stats := [], listed := [], walked := [], requested := [] }

/-- Folder `Foo` has a rendered photo and the target holds `Foo.JPG`. -/
def exWorldOne : World :=
  worldOf [(renderOf exFoo "jpg", none), ("/out/Foo.JPG", none)]

/-- Folder `Foo` has a rendered photo and the target holds `Foo.JPG` and
`Foo-v1.JPG`. -/
def exWorldTwo : World :=
  worldOf [(renderOf exFoo "jpg", none), ("/out/Foo.JPG", none), ("/out/Foo-v1.JPG", none)]

/-- The render of `Foo` cannot be examined: permission denied. -/
def exWorldDenied : World :=
  worldOf [(renderOf exFoo "jpg", some OsError.permission)]

/-- The render of `Foo` is there, the target cannot be examined. -/
def exWorldTargetDenied : World :=
  worldOf [(renderOf exFoo "jpg", none), ("/out/Foo.JPG", some OsError.permission)]

/-- Whether an error was built by `errors.Wrapf` or `errors.WithStack`. -/
def GoError.wrapped : GoError → Bool
  | .wrapf _ _ _ => true
  | .withStack _ => true
  | _ => false

/-- The error of `run` for a missing mount or target. -/
def configError : GoError := GoError.new "mount and target must be specified"

/-- The command of a transfer: `mv` in delete mode, `cp` otherwise. -/
def app.verb (a : app) : String := if a.Delete then "mv" else "cp"

/-- The operation `cpOrMv` requests for a source and a destination. -/
def app.transfer (a : app) (src target : String) : String × List String :=
  (a.verb, ["--no-clobber", src, target])

/-- The source of a requested operation, its second argument. -/
def sourceOf (r : String × List String) : Option String := r.2.get? 1

/-- A tree in which nothing is walked but the device root. -/
def exEmptyTree : Node := Node.dir []

/-- A configuration without a target. -/
def exAppNoTarget : app := { Mount := "/mnt", Target := "", Delete := false, DryRun := false }

/-- The directory of the mutations tree that holds the folder `Foo`. -/
def exAssets : String := "/mnt/PhotoData/Mutations/DCIM/100APPLE"

/-! ## The primary scan, described by names -/

mutual
/-- A tree as a real filesystem shows it: in every directory the names are
plain and pairwise distinct. -/
def Node.wf : Node → Bool
  | .dir es => wfEntries es
  | _ => true
/-- The entries of a directory of such a tree. -/
def wfEntries : List (String × Node) → Bool
  | [] => true
  | (name, node) :: rest =>
    isPlain name && !(rest.map Prod.fst).contains name && node.wf && wfEntries rest
end

mutual
/-- The files to transfer at and below the entry `name` found at `path`: the
entry itself when it is a file, the files of its subtree when it is a readable
directory whose name ends in `APPLE`, nothing otherwise. -/
def visited (path name : String) : Node → List String
  | .file => [path]
  | .dir es => if HasSuffix name "APPLE" then visitedIn path es else []
  | _ => []
/-- The files to transfer below a directory that the scan has entered, in the
order of the walk. -/
def visitedIn (path : String) : List (String × Node) → List String
  | [] => []
  | (name, node) :: rest => visited (Join path name) name node ++ visitedIn path rest
end

/-- The files to transfer in a scan of the tree found at `root`: the root is
entered whatever its name. -/
def visitedFrom (root : String) : Node → List String
  | .file => [root]
  | .dir es => visitedIn root es
  | _ => []

/-- The transfer the primary scan requests for a file: into the target
directory under the base name of the file. -/
def app.primaryTransfer (a : app) (src : String) : String × List String :=
  a.transfer src (Join a.Target (Base src))

/-- The entry `name`, found at path `q`, is `node` and lies at some depth below
the directory at `p` whose entries are `es`. -/
inductive Under : String → List (String × Node) → String → String → Node → Prop
  | direct {p : String} {es : List (String × Node)} {name : String} {node : Node} :
      (name, node) ∈ es → Under p es (Join p name) name node
  | deeper {p : String} {es es' : List (String × Node)} {name q n : String} {node : Node} :
      (name, Node.dir es') ∈ es → Under (Join p name) es' q n node → Under p es q n node

/-- The directory at `q` with entries `es'` is the directory at `p` with
entries `es` or is reached from it through directories whose names all end in
`APPLE`. -/
inductive Descends : String → List (String × Node) → String → List (String × Node) → Prop
  | refl {p : String} {es : List (String × Node)} : Descends p es p es
  | step {p q : String} {es es' es'' : List (String × Node)} {name : String} :
      (name, Node.dir es') ∈ es → HasSuffix name "APPLE" = true →
      Descends (Join p name) es' q es'' → Descends p es q es''

/-- The text `q` continues the text `p` after a slash. -/
def Below (p q : String) : Prop := ∃ s, q.data = p.data ++ '/' :: s

/-- The entries of `DCIM` in the scenario of the specification: `100APPLE` with
`IMG_1.JPG`, and `Spotlight` with `cache.db`. -/
def exEntries : List (String × Node) :=
  [("100APPLE", Node.dir [("IMG_1.JPG", Node.file)]),
   ("Spotlight", Node.dir [("cache.db", Node.file)])]

/-- The entries of a `DCIM` whose only directory named `*APPLE` lies inside
`Spotlight`. -/
def exNested : List (String × Node) :=
  [("Spotlight", Node.dir [("100APPLE", Node.dir [("IMG_1.JPG", Node.file)])])]

/-! ## Dry runs and live runs -/

/-- A world with the given filesystem in which the program has not done
anything yet. -/
def World.start (fs : FS) : World :=
  { fs := fs, stdout := "", stderr := "", procs := [], stats := [], listed := [], walked := [],
    requested := [] }

/-- The configuration with dry-run mode switched on. -/
def app.dry (a : app) : app := { a with DryRun := true }

/-- The configuration with dry-run mode switched off. -/
def app.live (a : app) : app := { a with DryRun := false }

/-- The text a dry run prints for a list of operations, one line each. -/
def report : List (String × List String) → String
  | [] => ""
  | r :: rest => reportLine r.1 r.2 ++ report rest

/-- Whether an error is the one `exec` builds for a failed command (the
`TransferFailed` of the specification): `Wrapf` with the format `%s`. -/
def GoError.transferFailed : GoError → Bool
  | .wrapf _ format _ => format = "%s"
  | _ => false

/-- Every `os.Stat` and every directory read on record got the answer that the
filesystem `fs` gives. -/
def World.answersOf (w : World) (fs : FS) : Prop :=
  (∀ x ∈ w.stats, x.2 = fs.stat x.1) ∧ (∀ x ∈ w.listed, x.2 = fs.readdir x.1)

/-- A relation between worlds that holds across every step the program can
take in the given mode. -/
structure Closed (T : World → World → Prop) (P : Proc) (dry : Bool) : Prop where
  refl : ∀ w, T w w
  trans : ∀ {w1 w2 w3}, T w1 w2 → T w2 w3 → T w1 w3
  exec : ∀ (a : app) cmd args w, a.DryRun = dry → T w (a.exec P cmd args w).1
  stat : ∀ p w, T w (osStat p w).2
  readdir : ∀ p w, T w (osReaddir p w).2
  reading : ∀ p (w : World), T w (w.reading p)
  stderr : ∀ (w : World) (text : String), T w { w with stderr := w.stderr ++ text }

/-- What a step of a dry run does to the world: the filesystem and the list of
commands run stay, and the text printed grows by the report of the operations
requested. -/
def DryStep (w w' : World) : Prop :=
  w'.fs = w.fs ∧ w'.procs = w.procs ∧
    ∃ new, w'.requested = w.requested ++ new ∧ w'.stdout = w.stdout ++ report new

/-- What a step of a live run does to the world: the records of probes and
directory reads grow, every operation requested is run, nothing is printed. -/
def LiveStep (w w' : World) : Prop :=
  w.stats ⊆ w'.stats ∧ w.listed ⊆ w'.listed ∧ w'.stdout = w.stdout ∧
    ∃ new, w'.requested = w.requested ++ new ∧ w'.procs = w.procs ++ new

/-- The dry world `wd` and the live world `wl` are at the same point of the
run: the dry world still has the initial filesystem `fs`, and both have
requested, probed, read and reported as skipped the same. -/
def Mirror (fs : FS) (wd wl : World) : Prop :=
  wd.fs = fs ∧ wd.requested = wl.requested ∧ wd.stats = wl.stats ∧ wd.listed = wl.listed ∧
    wd.walked = wl.walked ∧ wd.stderr = wl.stderr

/-- A filesystem in which the mutations tree holds the one asset folder `name`
with a rendered photo, and the target is empty. -/
def exFsWith (name : String) : FS :=
  { statTable := [(renderOf (Join exAssets name) "jpg", none)],
    dirTable := [("/mnt/PhotoData/Mutations/DCIM", Listing.names ["100APPLE"]),
                 (exAssets, Listing.names [name])] }

/-- The world a run leaves, or the world it started in when it does not
return. -/
def worldAfter (run : Option (app × World × Option GoError)) (w : World) : World :=
  match run with
  | some r => r.2.1
  | none => w

/-- The world after the live run of the scenario of the specification with
the edited asset `Foo`. -/
def exLiveWorld : World :=
  worldAfter (exApp.live.run coreutils 3 (Node.dir exEntries) (World.start (exFsWith "Foo")))
    (World.start (exFsWith "Foo"))

/-- The configuration as `run` uses it: the target ends in a slash. -/
def app.normalized (a : app) : app :=
  if !HasSuffix a.Target "/" then { a with Target := a.Target ++ "/" } else a

/-- The render of `Foo` is there and the target directory lists `Foo.JPG`, but
the entries of the target cannot be examined: `os.Stat` on `Foo.JPG` fails
with permission denied. -/
def exWorldOccupiedDenied : World :=
  World.start
    { statTable := [(renderOf exFoo "jpg", none), ("/out/Foo.JPG", some OsError.permission)],
      dirTable := [("/out", Listing.names ["Foo.JPG"])] }

/-- The folder `Adjustments` of `Foo` lists a rendered photo, but its entries
cannot be examined: `os.Stat` fails with permission denied on every path
below it. -/
def exWorldRenderDenied : World :=
  World.start
    { statTable := [(renderOf exFoo "jpg", some OsError.permission),
                    (renderOf exFoo "mov", some OsError.permission)],
      dirTable := [(Join exFoo "Adjustments", Listing.names ["FullSizeRender.jpg"])] }

/-- The folder `Adjustments` of `Foo` lists a rendered photo and a rendered
video; `os.Stat` fails on the photo with an input/output error and succeeds on
the video. -/
def exWorldRenderIo : World :=
  World.start
    { statTable := [(renderOf exFoo "jpg", some OsError.io), (renderOf exFoo "mov", none)],
      dirTable := [(Join exFoo "Adjustments",
                    Listing.names ["FullSizeRender.jpg", "FullSizeRender.mov"])] }

/-! ## Facts about paths -/

theorem splitSlash_ne_nil (l : List Char) : splitSlash l ≠ [] := by
  cases l with
  | nil => simp [splitSlash]
  | cons c cs =>
    simp only [splitSlash]
    split
    · simp
    · split <;> simp

theorem splitSlash_append_slash (x y : List Char) :
    splitSlash (x ++ '/' :: y) = splitSlash x ++ splitSlash y := by
  induction x with
  | nil => simp [splitSlash]
  | cons c cs ih =>
    by_cases hc : c = '/'
    · simp [splitSlash, hc, ih]
    · have e1 : (c :: cs) ++ '/' :: y = c :: (cs ++ '/' :: y) := rfl
      rw [e1]
      simp only [splitSlash, hc, if_false]
      rw [ih]
      cases h : splitSlash cs with
      | nil => exact absurd h (splitSlash_ne_nil cs)
      | cons e es => simp

theorem splitSlash_noslash {x : List Char} (h : '/' ∉ x) : splitSlash x = [x] := by
  induction x with
  | nil => rfl
  | cons c cs ih =>
    simp only [List.mem_cons, not_or] at h
    have hc : c ≠ '/' := fun e => h.1 e.symm
    simp [splitSlash, hc, ih h.2]

theorem mem_splitSlash_noslash {x e : List Char} (h : e ∈ splitSlash x) : '/' ∉ e := by
  induction x generalizing e with
  | nil => simp [splitSlash] at h; simp [h]
  | cons c cs ih =>
    by_cases hc : c = '/'
    · simp only [splitSlash, hc, if_true, List.mem_cons] at h
      rcases h with h | h
      · simp [h]
      · exact ih h
    · simp only [splitSlash, hc, if_false] at h
      cases hs : splitSlash cs with
      | nil => exact absurd hs (splitSlash_ne_nil cs)
      | cons e' es =>
        rw [hs] at h
        simp only [List.mem_cons] at h
        rcases h with h | h
        · subst h
          have := ih (e := e') (by simp [hs])
          simp only [List.mem_cons, not_or]
          exact ⟨fun e => hc e.symm, this⟩
        · exact ih (by simp [hs, h])

theorem joinSlash_splitSlash (x : List Char) : joinSlash (splitSlash x) = x := by
  induction x with
  | nil => rfl
  | cons c cs ih =>
    by_cases hc : c = '/'
    · simp only [splitSlash, hc, if_true]
      cases hs : splitSlash cs with
      | nil => exact absurd hs (splitSlash_ne_nil cs)
      | cons e es =>
        rw [hs] at ih
        simp [joinSlash, ih]
    · simp only [splitSlash, hc, if_false]
      cases hs : splitSlash cs with
      | nil => exact absurd hs (splitSlash_ne_nil cs)
      | cons e es =>
        rw [hs] at ih
        cases es with
        | nil => simp [joinSlash] at ih ⊢; exact ih
        | cons e2 es2 => simp [joinSlash] at ih ⊢; exact ih

theorem joinSlash_append {s t : List (List Char)} (hs : s ≠ []) (ht : t ≠ []) :
    joinSlash (s ++ t) = joinSlash s ++ '/' :: joinSlash t := by
  induction s with
  | nil => exact absurd rfl hs
  | cons e es ih =>
    cases es with
    | nil =>
      cases t with
      | nil => exact absurd rfl ht
      | cons u us => simp [joinSlash]
    | cons e2 es2 =>
      have := ih (by simp)
      simp only [List.cons_append] at this ⊢
      simp [joinSlash, this]

theorem splitSlash_joinSlash {l : List (List Char)} (hl : l ≠ []) (h : ∀ e ∈ l, '/' ∉ e) :
    splitSlash (joinSlash l) = l := by
  induction l with
  | nil => exact absurd rfl hl
  | cons e es ih =>
    cases es with
    | nil => simpa [joinSlash] using splitSlash_noslash (h e (by simp))
    | cons e2 es2 =>
      have h1 := ih (by simp) (fun x hx => h x (List.mem_cons_of_mem _ hx))
      simp only [joinSlash] at h1 ⊢
      rw [splitSlash_append_slash, splitSlash_noslash (h e (by simp))]
      simp [joinSlash, h1]


theorem cleanStack_nil (r : Bool) : CleanStack r [] :=
  ⟨by simp, by simp, by intro pre suf h; simp at h⟩

theorem CleanStack.init_of {r : Bool} {s t : List (List Char)} (h : CleanStack r (s ++ t)) :
    CleanStack r s := by
  refine ⟨fun e he => h.elems e (by simp [he]), fun hr hm => h.noDots hr (by simp [hm]), ?_⟩
  intro pre suf hs x hx
  exact h.dotsFirst pre (suf ++ t) (by simp [hs]) x hx

theorem cleanStep_push {r : Bool} {st : List (List Char)} {e : List Char}
    (h1 : e ≠ []) (h2 : e ≠ ['.']) (h3 : e ≠ ['.', '.']) : cleanStep r st e = st ++ [e] := by
  simp [cleanStep, h1, h2, h3]

theorem foldl_cleanStep_push (r : Bool) (es st : List (List Char))
    (h : ∀ e ∈ es, e ≠ [] ∧ e ≠ ['.'] ∧ e ≠ ['.', '.']) :
    es.foldl (cleanStep r) st = st ++ es := by
  induction es generalizing st with
  | nil => simp
  | cons e es ih =>
    obtain ⟨h1, h2, h3⟩ := h e (by simp)
    simp only [List.foldl_cons, cleanStep_push h1 h2 h3]
    rw [ih _ (fun x hx => h x (List.mem_cons_of_mem _ hx))]
    simp

theorem CleanStack.push {r : Bool} {st : List (List Char)} {e : List Char} (h : CleanStack r st)
    (h1 : e ≠ []) (h2 : e ≠ ['.']) (h3 : e ≠ ['.', '.']) (h4 : '/' ∉ e) :
    CleanStack r (st ++ [e]) := by
  refine ⟨?_, ?_, ?_⟩
  · intro x hx
    rcases List.mem_append.1 hx with hx | hx
    · exact h.elems x hx
    · simp only [List.mem_singleton] at hx
      subst hx
      exact ⟨h1, h2, h4⟩
  · intro hr hm
    rcases List.mem_append.1 hm with hm | hm
    · exact h.noDots hr hm
    · simp only [List.mem_singleton] at hm
      exact h3 hm.symm
  · intro pre suf hs x hx
    rcases List.eq_nil_or_concat suf with hsuf | ⟨suf', y, hsuf⟩
    · subst hsuf
      have := List.append_inj' hs (by simp)
      simp only [List.cons.injEq, and_true] at this
      exact absurd this.2 h3
    · subst hsuf
      have e1 : st ++ [e] = (pre ++ ['.', '.'] :: suf') ++ [y] := by simp [hs]
      have := List.append_inj' e1 (by simp)
      exact h.dotsFirst pre suf' this.1 x hx

theorem CleanStack.step {r : Bool} {st : List (List Char)} (h : CleanStack r st) {e : List Char}
    (he : '/' ∉ e) : CleanStack r (cleanStep r st e) := by
  unfold cleanStep
  split
  · exact h
  · rename_i h12
    simp only [not_or] at h12
    split
    · rename_i hdd
      split
      · rename_i hnone
        have hst : st = [] := by simpa using hnone
        subst hst
        cases r with
        | true => simpa using h
        | false =>
          simp only [Bool.false_eq_true, if_false, List.nil_append]
          refine ⟨?_, by simp, ?_⟩
          · intro x hx
            simp only [List.mem_singleton] at hx
            subst hx
            exact ⟨h12.1, h12.2, he⟩
          · intro pre suf hs x hx
            cases pre with
            | nil => simp at hx
            | cons p ps =>
              simp only [List.cons_append, List.cons.injEq] at hs
              have := hs.2
              simp at this
      · rename_i top htop
        have hsplit : st.dropLast ++ [top] = st := List.dropLast_append_getLast? top htop
        split
        · rename_i htd
          refine ⟨?_, ?_, ?_⟩
          · intro x hx
            rcases List.mem_append.1 hx with hx | hx
            · exact h.elems x hx
            · simp only [List.mem_singleton] at hx
              subst hx
              exact ⟨h12.1, h12.2, he⟩
          · intro hr
            have : ['.', '.'] ∈ st := by
              rw [← hsplit, htd]
              simp
            exact absurd this (h.noDots hr)
          · intro pre suf hs x hx
            have hall : ∀ y ∈ st.dropLast, y = ['.', '.'] :=
              h.dotsFirst st.dropLast [] (by rw [← htd]; exact hsplit.symm)
            have hall2 : ∀ y ∈ st, y = ['.', '.'] := by
              intro y hy
              rw [← hsplit] at hy
              rcases List.mem_append.1 hy with hy | hy
              · exact hall y hy
              · simp only [List.mem_singleton] at hy
                rw [hy, htd]
            have hx2 : x ∈ st ++ [e] := by
              rw [hs]
              simp [hx]
            rcases List.mem_append.1 hx2 with hx2 | hx2
            · exact hall2 x hx2
            · simp only [List.mem_singleton] at hx2
              rw [hx2, hdd]
        · apply CleanStack.init_of (t := [top])
          rw [hsplit]
          exact h
    · rename_i hdd
      exact h.push h12.1 h12.2 hdd he

theorem CleanStack.foldl {r : Bool} (es : List (List Char)) {st : List (List Char)}
    (h : CleanStack r st) (he : ∀ e ∈ es, '/' ∉ e) : CleanStack r (es.foldl (cleanStep r) st) := by
  induction es generalizing st with
  | nil => exact h
  | cons e es ih =>
    exact ih (h.step (he e (by simp))) (fun x hx => he x (List.mem_cons_of_mem _ hx))

theorem CleanStack.refold {r : Bool} (st acc : List (List Char)) (h : CleanStack r (acc ++ st)) :
    st.foldl (cleanStep r) acc = acc ++ st := by
  induction st generalizing acc with
  | nil => simp
  | cons e es ih =>
    have hstep : cleanStep r acc e = acc ++ [e] := by
      obtain ⟨h1, h2, _⟩ := h.elems e (by simp)
      by_cases hdd : e = ['.', '.']
      · subst hdd
        have hall := h.dotsFirst acc es rfl
        unfold cleanStep
        simp only [List.cons_ne_nil, false_or, if_true]
        rw [if_neg (by simp)]
        split
        · rename_i hnone
          cases r with
          | true => exact absurd (by simp) (h.noDots rfl)
          | false => simp
        · rename_i top htop
          have : top ∈ acc := List.mem_of_mem_getLast? htop
          simp [hall top this]
      · exact cleanStep_push h1 h2 hdd
    simp only [List.foldl_cons, hstep]
    rw [ih (acc ++ [e]) (by simpa using h)]
    simp


theorem Clean_eq (p : String) : Clean p = String.mk (cleanList p.data) := by
  unfold Clean cleanList cleanElems isRooted
  simp only
  split <;> rfl

theorem cleanElems_stack (x : List Char) : CleanStack (isRooted x) (cleanElems x) :=
  CleanStack.foldl _ (cleanStack_nil _) (fun _ he => mem_splitSlash_noslash he)

theorem joinSlash_ne_nil {st : List (List Char)} (hst : st ≠ []) (h : ∀ e ∈ st, e ≠ []) :
    joinSlash st ≠ [] := by
  cases st with
  | nil => exact absurd rfl hst
  | cons e es =>
    cases es with
    | nil => simpa [joinSlash] using h e (by simp)
    | cons e2 es2 => simp [joinSlash]

theorem joinSlash_head {st : List (List Char)} (hst : st ≠ [])
    (h : ∀ e ∈ st, e ≠ [] ∧ '/' ∉ e) : (joinSlash st).head? ≠ some '/' := by
  cases st with
  | nil => exact absurd rfl hst
  | cons e es =>
    obtain ⟨h1, h2⟩ := h e (by simp)
    cases e with
    | nil => exact absurd rfl h1
    | cons c cs =>
      have hc : c ≠ '/' := fun hc => h2 (by simp [hc])
      cases es with
      | nil => simpa [joinSlash] using hc
      | cons e2 es2 => simpa [joinSlash] using hc

theorem renderPath_proper {r : Bool} {st : List (List Char)} (h : CleanStack r st) (hst : st ≠ []) :
    renderPath r st ≠ [] ∧ renderPath r st ≠ ['/'] ∧ renderPath r st ≠ ['.'] := by
  have hj : joinSlash st ≠ [] := joinSlash_ne_nil hst (fun e he => (h.elems e he).1)
  cases r with
  | true =>
    simp only [renderPath, if_true, List.singleton_append]
    refine ⟨by simp, ?_, by simp⟩
    simpa using hj
  | false =>
    simp only [renderPath, Bool.false_eq_true, if_false, List.nil_append]
    refine ⟨hj, ?_, ?_⟩
    · intro hh
      have := joinSlash_head hst (fun e he => ⟨(h.elems e he).1, (h.elems e he).2.2⟩)
      rw [hh] at this
      simp at this
    · cases st with
      | nil => exact absurd rfl hst
      | cons e es =>
        obtain ⟨h1, h2, _⟩ := h.elems e (by simp)
        cases es with
        | nil => simpa [joinSlash] using h2
        | cons e2 es2 =>
          simp only [joinSlash]
          intro hh
          have hl := congrArg List.length hh
          simp only [List.length_append, List.length_cons, List.length_nil] at hl
          have : e.length ≠ 0 := by simpa using h1
          omega

theorem isRooted_render {r : Bool} {st : List (List Char)} (h : CleanStack r st)
    (hne : renderPath r st ≠ []) : isRooted (renderPath r st) = r := by
  cases r with
  | true => simp [renderPath, isRooted]
  | false =>
    simp only [renderPath, Bool.false_eq_true, if_false, List.nil_append] at hne ⊢
    have hst : st ≠ [] := by
      intro hh
      subst hh
      exact hne rfl
    have := joinSlash_head hst (fun e he => ⟨(h.elems e he).1, (h.elems e he).2.2⟩)
    simpa [isRooted] using this

theorem cleanElems_render {r : Bool} {st : List (List Char)} (h : CleanStack r st)
    (hne : renderPath r st ≠ []) : cleanElems (renderPath r st) = st := by
  unfold cleanElems
  rw [isRooted_render h hne]
  have hre := CleanStack.refold st [] (by simpa using h)
  simp only [List.nil_append] at hre
  have hsl : ∀ e ∈ st, '/' ∉ e := fun e he => (h.elems e he).2.2
  cases r with
  | true =>
    have e0 : renderPath true st = '/' :: joinSlash st := rfl
    rw [e0]
    simp only [splitSlash, if_true, List.foldl_cons]
    by_cases hst : st = []
    · subst hst
      simp [joinSlash, splitSlash, cleanStep]
    · rw [splitSlash_joinSlash hst hsl]
      simpa [cleanStep] using hre
  | false =>
    simp only [renderPath, Bool.false_eq_true, if_false, List.nil_append] at hne ⊢
    have hst : st ≠ [] := by
      intro hh
      subst hh
      exact hne rfl
    rw [splitSlash_joinSlash hst hsl]
    exact hre

theorem cleanList_idem (x : List Char) : cleanList (cleanList x) = cleanList x := by
  have h := cleanElems_stack x
  by_cases hb : renderPath (isRooted x) (cleanElems x) = []
  · have : cleanList x = ['.'] := by simp [cleanList, hb]
    rw [this]
    decide
  · have e1 : cleanList x = renderPath (isRooted x) (cleanElems x) := by simp [cleanList, hb]
    rw [e1]
    unfold cleanList
    rw [cleanElems_render h hb, isRooted_render h hb, if_neg hb]

theorem cleanList_ne_nil (x : List Char) : cleanList x ≠ [] := by
  unfold cleanList
  split
  · simp
  · assumption

theorem RelPath.ne_nil {b : List Char} (h : RelPath b) : b ≠ [] := by
  intro hb
  subst hb
  exact (h [] (by simp [splitSlash])).1 rfl

theorem RelPath.not_rooted {b : List Char} (h : RelPath b) : isRooted b = false := by
  cases b with
  | nil => rfl
  | cons c cs =>
    by_cases hc : c = '/'
    · subst hc
      exact absurd rfl (h [] (by simp [splitSlash])).1
    · simp [isRooted, hc]

theorem cleanList_rel {b : List Char} (h : RelPath b) : cleanList b = b := by
  have e1 : cleanElems b = splitSlash b := by
    unfold cleanElems
    rw [foldl_cleanStep_push _ _ _ h]
    simp
  unfold cleanList
  rw [e1, h.not_rooted]
  simp [renderPath, joinSlash_splitSlash, h.ne_nil]

theorem isRooted_append {x : List Char} (hx : x ≠ []) (y : List Char) :
    isRooted (x ++ y) = isRooted x := by
  cases x with
  | nil => exact absurd rfl hx
  | cons c cs => simp [isRooted]

theorem cleanList_append_rel {x b : List Char} (hx : x ≠ []) (h : RelPath b) :
    cleanList (x ++ '/' :: b) = dirPrefix x ++ b := by
  have hst := cleanElems_stack x
  have e1 : cleanElems (x ++ '/' :: b) = cleanElems x ++ splitSlash b := by
    unfold cleanElems
    rw [isRooted_append hx, splitSlash_append_slash, List.foldl_append,
      foldl_cleanStep_push _ _ _ h]
  have hsb : splitSlash b ≠ [] := splitSlash_ne_nil b
  have hL : cleanList (x ++ '/' :: b) =
      if renderPath (isRooted x) (cleanElems x ++ splitSlash b) = [] then ['.']
      else renderPath (isRooted x) (cleanElems x ++ splitSlash b) := by
    unfold cleanList
    rw [e1, isRooted_append hx]
  rw [hL]
  unfold dirPrefix
  rw [if_neg hx]
  by_cases hs : cleanElems x = []
  · cases hr : isRooted x with
    | true =>
      have hc : cleanList x = ['/'] := by simp [cleanList, hs, hr, renderPath, joinSlash]
      rw [hc, hs]
      simp [renderPath, joinSlash_splitSlash]
    | false =>
      have hc : cleanList x = ['.'] := by simp [cleanList, hs, hr, renderPath, joinSlash]
      rw [hc, hs]
      simp [renderPath, joinSlash_splitSlash, h.ne_nil]
  · obtain ⟨p1, p2, p3⟩ := renderPath_proper hst hs
    have hc : cleanList x = renderPath (isRooted x) (cleanElems x) := by
      simp [cleanList, p1]
    have e2 : renderPath (isRooted x) (cleanElems x ++ splitSlash b) =
        renderPath (isRooted x) (cleanElems x) ++ '/' :: b := by
      simp [renderPath, joinSlash_append hs hsb, joinSlash_splitSlash]
    rw [e2, hc]
    simp [p2, p3]

theorem cleanList_append_slash {x : List Char} (hx : x ≠ []) :
    cleanList (x ++ ['/']) = cleanList x := by
  have e1 : cleanElems (x ++ ['/']) = cleanElems x := by
    unfold cleanElems
    rw [isRooted_append hx, splitSlash_append_slash, List.foldl_append]
    simp [splitSlash, cleanStep]
  unfold cleanList
  rw [e1, isRooted_append hx]

theorem dirPrefix_cases (a : List Char) : dirPrefix a = [] ∨ ∃ q, dirPrefix a = q ++ ['/'] := by
  unfold dirPrefix
  split
  · exact Or.inl rfl
  · split
    · exact Or.inr ⟨[], rfl⟩
    · split
      · exact Or.inl rfl
      · exact Or.inr ⟨_, rfl⟩

theorem cleanList_dirPrefix (a : List Char) : cleanList (dirPrefix a) = cleanList a := by
  unfold dirPrefix
  split
  · rename_i h
    rw [h]
  · split
    · rename_i h
      rw [h]
      decide
    · split
      · rename_i h
        rw [h]
        decide
      · rw [cleanList_append_slash (cleanList_ne_nil a), cleanList_idem]


/-! ### The same facts on strings -/

theorem isPlain_iff (n : String) :
    isPlain n = true ↔
      n.data ≠ [] ∧ '/' ∉ n.data ∧ n.data ≠ ['.'] ∧ n.data ≠ ['.', '.'] := by
  have e0 : n = "" ↔ n.data = [] := String.ext_iff
  have e1 : n = "." ↔ n.data = ['.'] := String.ext_iff
  have e2 : n = ".." ↔ n.data = ['.', '.'] := String.ext_iff
  simp only [isPlain, Bool.and_eq_true, decide_eq_true_eq, Bool.not_eq_true', ne_eq, e0, e1, e2]
  constructor
  · rintro ⟨⟨⟨h1, h2⟩, h3⟩, h4⟩
    refine ⟨h1, ?_, h3, h4⟩
    intro hm
    have : n.data.contains '/' = true := List.elem_eq_true_of_mem hm
    rw [this] at h2
    exact Bool.noConfusion h2
  · rintro ⟨h1, h2, h3, h4⟩
    refine ⟨⟨⟨h1, ?_⟩, h3⟩, h4⟩
    cases hc : n.data.contains '/' with
    | false => rfl
    | true => exact absurd (List.mem_of_elem_eq_true hc) h2

theorem relPath_of_noslash {b : List Char} (h1 : b ≠ []) (h2 : '/' ∉ b) (h3 : b ≠ ['.'])
    (h4 : b ≠ ['.', '.']) : RelPath b := by
  intro e he
  rw [splitSlash_noslash h2] at he
  simp only [List.mem_singleton] at he
  subst he
  exact ⟨h1, h3, h4⟩

theorem relPath_of_plain {n : String} (h : isPlain n = true) : RelPath n.data := by
  obtain ⟨h1, h2, h3, h4⟩ := (isPlain_iff n).1 h
  exact relPath_of_noslash h1 h2 h3 h4

theorem Join_eq (a : String) {b : String} (h : RelPath b.data) :
    Join a b = String.mk (dirPrefix a.data ++ b.data) := by
  have hb : b ≠ "" := fun hh => h.ne_nil (by rw [hh])
  unfold Join
  by_cases ha : a = ""
  · subst ha
    rw [if_neg (by simp), if_pos hb, Clean_eq, cleanList_rel h]
    simp [dirPrefix]
  · have ha2 : a.data ≠ [] := fun hh => ha (String.ext hh)
    rw [if_pos ha, Clean_eq]
    have : (a ++ "/" ++ b).data = a.data ++ '/' :: b.data := by
      simp [String.data_append]
    rw [this, cleanList_append_rel ha2 h]

theorem DirPath.data_ne_nil {p : String} (h : DirPath p) : p.data ≠ [] := by
  intro hh
  have := h.1
  rw [hh] at this
  exact cleanList_ne_nil [] this

theorem DirPath.dirPrefix {p : String} (h : DirPath p) :
    IosPhotoBackup.dirPrefix p.data = p.data ++ ['/'] := by
  unfold IosPhotoBackup.dirPrefix
  rw [if_neg h.data_ne_nil, h.1, if_neg h.2.1, if_neg h.2.2]

theorem Join_dirPath {p b : String} (hp : DirPath p) (h : RelPath b.data) :
    (Join p b).data = p.data ++ '/' :: b.data := by
  rw [Join_eq p h, hp.dirPrefix]
  simp

theorem dirPath_Join (a : String) {b : String} (h : RelPath b.data) : DirPath (Join a b) := by
  have hb := h.ne_nil
  by_cases ha : a = ""
  · subst ha
    have e1 : Join "" b = b := by
      rw [Join_eq "" h]
      simp [dirPrefix]
    rw [e1]
    refine ⟨cleanList_rel h, ?_, ?_⟩
    · intro hh
      exact (h [] (by rw [hh]; decide)).1 rfl
    · intro hh
      exact (h ['.'] (by rw [hh]; decide)).2.1 rfl
  · have ha2 : a.data ≠ [] := fun hh => ha (String.ext hh)
    have e1 : (Join a b).data = cleanList (a.data ++ '/' :: b.data) := by
      unfold Join
      rw [if_pos ha, Clean_eq]
      simp [String.data_append]
    have e2 := cleanList_append_rel ha2 h
    refine ⟨by rw [e1, cleanList_idem], ?_, ?_⟩
    · rw [e1, e2]
      intro hh
      rcases dirPrefix_cases a.data with hd | ⟨q, hd⟩
      · rw [hd] at hh
        simp only [List.nil_append] at hh
        exact (h [] (by rw [hh]; decide)).1 rfl
      · rw [hd] at hh
        have hl := congrArg List.length hh
        simp only [List.length_append, List.length_cons, List.length_nil] at hl
        have : 0 < b.data.length := List.length_pos.2 hb
        omega
    · rw [e1, e2]
      intro hh
      rcases dirPrefix_cases a.data with hd | ⟨q, hd⟩
      · rw [hd] at hh
        simp only [List.nil_append] at hh
        exact (h ['.'] (by rw [hh]; decide)).2.1 rfl
      · rw [hd] at hh
        have hl := congrArg List.length hh
        simp only [List.length_append, List.length_cons, List.length_nil] at hl
        have : 0 < b.data.length := List.length_pos.2 hb
        omega

theorem Base_prefixed {pre n : List Char} (hpre : pre = [] ∨ ∃ q, pre = q ++ ['/'])
    (h1 : n ≠ []) (h2 : '/' ∉ n) : Base (String.mk (pre ++ n)) = String.mk n := by
  have hne : String.mk (pre ++ n) ≠ "" := by
    intro hh
    have := congrArg String.data hh
    simp at this
    exact h1 this.2
  have hrev : ∀ c ∈ n.reverse, c ≠ '/' := by
    intro c hc hh
    subst hh
    exact h2 (List.mem_reverse.1 hc)
  have hd : (n.reverse ++ pre.reverse).dropWhile (· = '/') = n.reverse ++ pre.reverse := by
    cases hr : n.reverse with
    | nil => exact absurd (List.reverse_eq_nil_iff.1 hr) h1
    | cons c cs =>
      have : c ≠ '/' := hrev c (by rw [hr]; simp)
      simp [List.dropWhile, this]
  have ht : (n.reverse ++ pre.reverse).takeWhile (· ≠ '/') = n.reverse := by
    rw [List.takeWhile_append_of_pos (by simpa using hrev)]
    rcases hpre with hp | ⟨q, hp⟩
    · subst hp
      simp
    · subst hp
      simp
  unfold Base
  rw [if_neg hne]
  simp only [List.reverse_append, hd, ht, List.reverse_reverse]
  rw [if_neg h1]

theorem Base_Join (a : String) {n : String} (h : isPlain n = true) : Base (Join a n) = n := by
  obtain ⟨h1, h2, _, _⟩ := (isPlain_iff n).1 h
  rw [Join_eq a (relPath_of_plain h), Base_prefixed (dirPrefix_cases _) h1 h2]

theorem Dir_prefixed {pre n : List Char} (hpre : pre = [] ∨ ∃ q, pre = q ++ ['/'])
    (h2 : '/' ∉ n) : Dir (String.mk (pre ++ n)) = Clean (String.mk pre) := by
  have hrev : ∀ c ∈ n.reverse, c ≠ '/' := by
    intro c hc hh
    subst hh
    exact h2 (List.mem_reverse.1 hc)
  have hd : (n.reverse ++ pre.reverse).dropWhile (· ≠ '/') = pre.reverse := by
    rw [List.dropWhile_append_of_pos (by simpa using hrev)]
    rcases hpre with hp | ⟨q, hp⟩
    · subst hp
      simp
    · subst hp
      simp
  unfold Dir
  simp only [List.reverse_append, hd, List.reverse_reverse]

theorem Dir_Join (a : String) {n : String} (h : isPlain n = true) : Dir (Join a n) = Clean a := by
  obtain ⟨_, h2, _, _⟩ := (isPlain_iff n).1 h
  rw [Join_eq a (relPath_of_plain h), Dir_prefixed (dirPrefix_cases _) h2, Clean_eq, Clean_eq]
  simp only [cleanList_dirPrefix]

theorem hasSuffix_slash (p n : List Char) (suffix : String) (hs : '/' ∉ suffix.data) :
    HasSuffix (String.mk (p ++ '/' :: n)) suffix = HasSuffix (String.mk n) suffix := by
  unfold HasSuffix
  rw [Bool.eq_iff_iff]
  simp only [List.isSuffixOf_iff_suffix]
  constructor
  · intro h
    by_cases hl : suffix.data.length ≤ n.length
    · exact List.suffix_of_suffix_length_le h ⟨p ++ ['/'], by simp⟩ hl
    · have h2 : ('/' :: n) <:+ suffix.data :=
        List.suffix_of_suffix_length_le ⟨p, rfl⟩ h (by simp only [List.length_cons]; omega)
      exact absurd (h2.subset (by simp)) hs
  · intro h
    exact h.trans ⟨p ++ ['/'], by simp⟩

theorem hasSuffix_Join {p n : String} (hp : DirPath p) (h : isPlain n = true) (suffix : String)
    (hs : '/' ∉ suffix.data) : HasSuffix (Join p n) suffix = HasSuffix n suffix := by
  have e1 : Join p n = String.mk (p.data ++ '/' :: n.data) :=
    String.ext (Join_dirPath hp (relPath_of_plain h))
  rw [e1, hasSuffix_slash _ _ _ hs]

/-! ### Decimal numbers, upper case, candidate names -/

theorem digitChar_val {d : Nat} (h : d < 10) : (Nat.digitChar d).toNat - 48 = d := by
  interval_cases d <;> rfl

theorem digitChar_ne_slash {d : Nat} (h : d < 10) : Nat.digitChar d ≠ '/' := by
  interval_cases d <;> decide

theorem toDigitsCore_append (fuel n : Nat) (ds : List Char) :
    Nat.toDigitsCore 10 fuel n ds = Nat.toDigitsCore 10 fuel n [] ++ ds := by
  induction fuel generalizing n ds with
  | zero => simp [Nat.toDigitsCore]
  | succ f ih =>
    simp only [Nat.toDigitsCore]
    split
    · simp
    · rw [ih (n / 10) (Nat.digitChar (n % 10) :: ds), ih (n / 10) [Nat.digitChar (n % 10)]]
      simp

theorem digitsVal_append (xs : List Char) (c : Char) :
    digitsVal (xs ++ [c]) = 10 * digitsVal xs + (c.toNat - 48) := by
  simp [digitsVal, List.foldl_append]

theorem digitsVal_toDigitsCore (fuel n : Nat) (h : n < fuel) :
    digitsVal (Nat.toDigitsCore 10 fuel n []) = n := by
  induction fuel generalizing n with
  | zero => omega
  | succ f ih =>
    simp only [Nat.toDigitsCore]
    split
    · rename_i h0
      have hn : n < 10 := by
        by_contra hh
        have : 1 ≤ n / 10 := Nat.div_pos (by omega) (by omega)
        omega
      have e1 : n % 10 = n := Nat.mod_eq_of_lt hn
      rw [e1]
      simpa [digitsVal] using digitChar_val hn
    · rename_i h0
      have hlt : n / 10 < f := by
        have : n / 10 < n := Nat.div_lt_self (by
          rcases Nat.eq_zero_or_pos n with hz | hp
          · subst hz
            simp at h0
          · exact hp) (by omega)
        omega
      rw [toDigitsCore_append, digitsVal_append, ih _ hlt, digitChar_val (Nat.mod_lt _ (by omega))]
      omega

theorem toString_data (n : Nat) : (toString n).data = Nat.toDigits 10 n := rfl

theorem digitsVal_toString (n : Nat) : digitsVal (toString n).data = n := by
  rw [toString_data]
  exact digitsVal_toDigitsCore (n + 1) n (by omega)

theorem toString_nat_injective {n m : Nat} (h : (toString n).data = (toString m).data) : n = m := by
  have := congrArg digitsVal h
  simpa [digitsVal_toString] using this

theorem mem_toDigitsCore (fuel n : Nat) (ds : List Char) (c : Char)
    (h : c ∈ Nat.toDigitsCore 10 fuel n ds) : c ∈ ds ∨ ∃ d, d < 10 ∧ c = Nat.digitChar d := by
  induction fuel generalizing n ds with
  | zero => exact Or.inl (by simpa [Nat.toDigitsCore] using h)
  | succ f ih =>
    simp only [Nat.toDigitsCore] at h
    split at h
    · rcases List.mem_cons.1 h with h | h
      · exact Or.inr ⟨n % 10, Nat.mod_lt _ (by omega), h⟩
      · exact Or.inl h
    · rcases ih _ _ h with h | h
      · rcases List.mem_cons.1 h with h | h
        · exact Or.inr ⟨n % 10, Nat.mod_lt _ (by omega), h⟩
        · exact Or.inl h
      · exact Or.inr h

theorem toString_noslash (n : Nat) : '/' ∉ (toString n).data := by
  intro h
  rw [toString_data] at h
  rcases mem_toDigitsCore _ _ _ _ h with h | ⟨d, hd, h⟩
  · simp at h
  · exact digitChar_ne_slash hd h.symm

theorem toUpper_ne_slash {c : Char} (h : c.isAlphanum = true) : c.toUpper ≠ '/' := by
  intro hc
  unfold Char.toUpper at hc
  simp only at hc
  split at hc
  · rename_i hr
    obtain ⟨h1, h2⟩ := hr
    generalize c.toNat = n at h1 h2 hc
    interval_cases n <;> exact absurd hc (by decide)
  · subst hc
    exact absurd h (by decide)

theorem ToUpper_noslash {ext : String} (h : validExt ext = true) : '/' ∉ (ToUpper ext).data := by
  simp only [validExt, Bool.and_eq_true, List.all_eq_true] at h
  intro hm
  simp only [ToUpper, List.mem_map] at hm
  obtain ⟨c, hc, hcu⟩ := hm
  exact toUpper_ne_slash (h.2 c hc) hcu

theorem candName_data_zero (name ext : String) :
    (candName name ext 0).data = name.data ++ '.' :: (ToUpper ext).data := by
  simp [candName, String.data_append]

theorem candName_data_succ (name ext : String) (i : Nat) :
    (candName name ext (i + 1)).data =
      name.data ++ '-' :: 'v' :: ((toString (i + 1)).data ++ '.' :: (ToUpper ext).data) := by
  simp [candName, String.data_append]

theorem candName_injective (name ext : String) {i j : Nat}
    (h : candName name ext i = candName name ext j) : i = j := by
  have hd := congrArg String.data h
  cases i with
  | zero =>
    cases j with
    | zero => rfl
    | succ j =>
      rw [candName_data_zero, candName_data_succ] at hd
      have := List.append_cancel_left hd
      simp at this
  | succ i =>
    cases j with
    | zero =>
      rw [candName_data_zero, candName_data_succ] at hd
      have := List.append_cancel_left hd
      simp at this
    | succ j =>
      rw [candName_data_succ, candName_data_succ] at hd
      have h1 := List.append_cancel_left hd
      simp only [List.cons.injEq, true_and] at h1
      have h2 := List.append_cancel_right h1
      have := toString_nat_injective h2
      omega

theorem candName_plain {name ext : String} (hn : isPlain name = true)
    (he : '/' ∉ (ToUpper ext).data) (i : Nat) : isPlain (candName name ext i) = true := by
  obtain ⟨h1, h2, h3, h4⟩ := (isPlain_iff name).1 hn
  have hl : 0 < name.data.length := List.length_pos.2 h1
  rw [isPlain_iff]
  cases i with
  | zero =>
    rw [candName_data_zero]
    refine ⟨by simp, ?_, ?_, ?_⟩
    · simp only [List.mem_append, List.mem_cons, not_or]
      exact ⟨h2, by decide, he⟩
    · intro hh
      have := congrArg List.length hh
      simp only [List.length_append, List.length_cons, List.length_nil] at this
      omega
    · intro hh
      have hlen := congrArg List.length hh
      simp only [List.length_append, List.length_cons, List.length_nil] at hlen
      have hE : (ToUpper ext).data = [] := List.length_eq_zero.1 (by omega)
      rw [hE] at hh
      have hn1 : name.data.length = 1 := by omega
      obtain ⟨c, hc⟩ := List.length_eq_one.1 hn1
      rw [hc] at hh
      simp only [List.singleton_append, List.cons.injEq, and_true] at hh
      exact h3 (by rw [hc, hh])
  | succ i =>
    rw [candName_data_succ]
    refine ⟨by simp, ?_, ?_, ?_⟩
    · simp only [List.mem_append, List.mem_cons, not_or]
      exact ⟨h2, by decide, by decide, toString_noslash _, by decide, he⟩
    · intro hh
      have := congrArg List.length hh
      simp only [List.length_append, List.length_cons, List.length_nil] at this
      omega
    · intro hh
      have := congrArg List.length hh
      simp only [List.length_append, List.length_cons, List.length_nil] at this
      omega

theorem cand_injective (a : app) {name ext : String} (hn : isPlain name = true)
    (he : '/' ∉ (ToUpper ext).data) {i j : Nat} (h : a.cand name ext i = a.cand name ext j) :
    i = j := by
  unfold app.cand at h
  rw [Join_eq _ (relPath_of_plain (candName_plain hn he i)),
    Join_eq _ (relPath_of_plain (candName_plain hn he j))] at h
  have hd := congrArg String.data h
  simp only at hd
  exact candName_injective name ext (String.ext (List.append_cancel_left hd))


/-! ### The collision probe -/

theorem World.probed_probed (w : World) (xs ys : List String) :
    (w.probed xs).probed ys = w.probed (xs ++ ys) := by
  simp [World.probed]

theorem probe_succ (a : app) (name ext : String) (fuel i : Nat) (target : String) (w : World) :
    a.probe name ext (fuel + 1) i target w =
      match w.fs.stat target with
      | none => a.probe name ext fuel (i + 1) (a.cand name ext (i + 1)) (w.probed [target])
      | some _ => some (target, w.probed [target]) := by
  cases hs : w.fs.stat target with
  | none => simp [app.probe, osStat, app.cand, candName, World.probed, hs]
  | some e => simp [app.probe, osStat, World.probed, hs]

theorem probe_run (a : app) (name ext : String) (n : Nat) :
    ∀ (fuel i : Nat) (w : World),
      (∀ m, m < n → w.fs.stat (a.cand name ext (i + m)) = none) →
      w.fs.stat (a.cand name ext (i + n)) ≠ none → n < fuel →
      a.probe name ext fuel i (a.cand name ext i) w =
        some (a.cand name ext (i + n),
          w.probed ((List.range (n + 1)).map (fun m => a.cand name ext (i + m)))) := by
  induction n with
  | zero =>
    intro fuel i w _ hfree hfuel
    obtain ⟨f, rfl⟩ : ∃ f, fuel = f + 1 := ⟨fuel - 1, by omega⟩
    rw [probe_succ]
    simp only [Nat.add_zero] at hfree
    cases hs : w.fs.stat (a.cand name ext i) with
    | none => exact absurd hs hfree
    | some e => simp [List.range_succ]
  | succ n ih =>
    intro fuel i w hocc hfree hfuel
    obtain ⟨f, rfl⟩ : ∃ f, fuel = f + 1 := ⟨fuel - 1, by omega⟩
    rw [probe_succ]
    have h0 : w.fs.stat (a.cand name ext i) = none := by simpa using hocc 0 (by omega)
    rw [h0]
    simp only
    have e1 : ∀ m, i + 1 + m = i + (m + 1) := fun m => by omega
    rw [ih f (i + 1) (w.probed [a.cand name ext i])
      (fun m hm => by rw [e1]; exact hocc (m + 1) (by omega))
      (by rw [e1]; exact hfree) (by omega)]
    rw [World.probed_probed, e1]
    congr 2
    rw [List.range_succ_eq_map (n + 1)]
    simp only [List.map_cons, List.map_map, Nat.add_zero, List.singleton_append]
    congr 2
    apply List.map_congr_left
    intro m _
    simp only [Function.comp, e1, Nat.succ_eq_add_one]

theorem stat_none_mem {fs : FS} {p : String} (h : fs.stat p = none) :
    p ∈ fs.statTable.map Prod.fst := by
  unfold FS.stat at h
  split at h
  · rename_i r hr
    have := List.lookup_eq_some_iff.1 hr
    obtain ⟨l1, l2, hl, _⟩ := this
    rw [hl]
    simp
  · exact absurd h (by simp)

theorem cand_mem_destEntries (a : app) {fs : FS} {name ext : String} (hn : isPlain name = true)
    (he : '/' ∉ (ToUpper ext).data) {i : Nat} (h : fs.stat (a.cand name ext i) = none) :
    a.cand name ext i ∈ fs.destEntries a.Target := by
  have hp := candName_plain hn he i
  have hb : Base (a.cand name ext i) = candName name ext i := Base_Join _ hp
  unfold FS.destEntries
  rw [List.mem_filter]
  refine ⟨List.mem_dedup.2 (stat_none_mem h), ?_⟩
  rw [decide_eq_true_eq, hb]
  exact ⟨h, hp, rfl⟩

theorem exists_first_free (a : app) (fs : FS) {name ext : String} (hn : isPlain name = true)
    (he : '/' ∉ (ToUpper ext).data) :
    ∃ n, n ≤ (fs.destEntries a.Target).length ∧ fs.stat (a.cand name ext n) ≠ none ∧
      ∀ m, m < n → fs.stat (a.cand name ext m) = none := by
  classical
  have hex : ∃ n, n ≤ (fs.destEntries a.Target).length ∧ fs.stat (a.cand name ext n) ≠ none := by
    by_contra hcon
    have hall : ∀ n, n ≤ (fs.destEntries a.Target).length → fs.stat (a.cand name ext n) = none := by
      intro n hle
      by_contra hne
      exact hcon ⟨n, hle, hne⟩
    let l := (List.range ((fs.destEntries a.Target).length + 1)).map (a.cand name ext)
    have hnd : l.Nodup :=
      List.Nodup.map (fun i j hij => cand_injective a hn he hij) (List.nodup_range _)
    have hsub : l ⊆ fs.destEntries a.Target := by
      intro p hp
      obtain ⟨i, hi, rfl⟩ := List.mem_map.1 hp
      exact cand_mem_destEntries a hn he (hall i (by have := List.mem_range.1 hi; omega))
    have hlen := (List.subperm_of_subset hnd hsub).length_le
    simp [l] at hlen
  have hfind : ∃ n, fs.stat (a.cand name ext n) ≠ none := by
    obtain ⟨n, _, h⟩ := hex
    exact ⟨n, h⟩
  refine ⟨Nat.find hfind, ?_, Nat.find_spec hfind, ?_⟩
  · obtain ⟨n, hle, h⟩ := hex
    exact le_trans (Nat.find_min' hfind h) hle
  · intro m hm
    by_contra hne
    exact Nat.find_min hfind hm hne

theorem mutSrcTarget_absent (fuel : Nat) (a : app) (dir ext : String) (w : World) (e : OsError)
    (h : w.fs.stat (renderOf dir ext) = some e) :
    a.mutSrcTarget fuel dir ext w = some (w.probed [renderOf dir ext], none, none) := by
  unfold renderOf at h
  simp [app.mutSrcTarget, osStat, h, renderOf, World.probed]

theorem mutSrcTarget_present (fuel : Nat) (a : app) (dir ext : String) (w : World)
    (hN : isPlain (Base dir) = true) (he : '/' ∉ (ToUpper ext).data)
    (hsrc : w.fs.stat (renderOf dir ext) = none)
    (hfuel : (w.fs.destEntries a.Target).length < fuel) :
    ∃ n, n ≤ (w.fs.destEntries a.Target).length ∧
      w.fs.stat (a.cand (Base dir) ext n) ≠ none ∧
      (∀ m, m < n → w.fs.stat (a.cand (Base dir) ext m) = none) ∧
      a.mutSrcTarget fuel dir ext w =
        some (w.probed (renderOf dir ext :: (List.range (n + 1)).map (a.cand (Base dir) ext)),
          some { src := renderOf dir ext, target := a.cand (Base dir) ext n }, none) := by
  obtain ⟨n, hle, hfree, hocc⟩ := exists_first_free a w.fs hN he
  refine ⟨n, hle, hfree, hocc, ?_⟩
  have hrun := probe_run a (Base dir) ext n fuel 0 (w.probed [renderOf dir ext])
    (fun m hm => by simpa using hocc m hm) (by simpa using hfree) (by omega)
  unfold renderOf at hsrc
  have e0 : Join a.Target (Base dir ++ "." ++ ToUpper ext) = a.cand (Base dir) ext 0 := rfl
  simp only [app.mutSrcTarget, osStat, hsrc, e0]
  simp only [World.probed, renderOf, Nat.zero_add, List.map_cons, List.map_nil, hsrc] at hrun ⊢
  rw [hrun]
  simp


/-! ### What the steps of the program leave unchanged, and the errors they return -/

theorem exec_requested (P : Proc) (a : app) (cmd : String) (args : List String) (w : World) :
    (a.exec P cmd args w).1.requested = w.requested ++ [(cmd, args)] := by
  unfold app.exec
  simp only
  split
  · rfl
  · split <;> rfl

theorem exec_stats (P : Proc) (a : app) (cmd : String) (args : List String) (w : World) :
    (a.exec P cmd args w).1.stats = w.stats ∧ (a.exec P cmd args w).1.listed = w.listed ∧
      (a.exec P cmd args w).1.stderr = w.stderr ∧ (a.exec P cmd args w).1.walked = w.walked := by
  unfold app.exec
  simp only
  split
  · exact ⟨rfl, rfl, rfl, rfl⟩
  · split <;> exact ⟨rfl, rfl, rfl, rfl⟩

theorem exec_wrapped (P : Proc) (a : app) (cmd : String) (args : List String) (w : World)
    (e : GoError) (h : (a.exec P cmd args w).2 = some e) : e.wrapped = true := by
  unfold app.exec at h
  simp only at h
  split at h
  · exact absurd h (by simp)
  · split at h
    · simp only [Option.some.injEq] at h
      subst h
      rfl
    · exact absurd h (by simp)

theorem cpOrMv_eq_exec (P : Proc) (a : app) (src target : String) (w : World) :
    a.cpOrMv P src target w = a.exec P a.verb ["--no-clobber", src, target] w := by
  cases hd : a.Delete <;> simp [app.cpOrMv, app.verb, hd]

theorem cpOrMv_requested (P : Proc) (a : app) (src target : String) (w : World) :
    (a.cpOrMv P src target w).1.requested = w.requested ++ [a.transfer src target] := by
  rw [cpOrMv_eq_exec, exec_requested]
  rfl

theorem cpOrMv_stats (P : Proc) (a : app) (src target : String) (w : World) :
    (a.cpOrMv P src target w).1.stats = w.stats ∧
      (a.cpOrMv P src target w).1.listed = w.listed ∧
      (a.cpOrMv P src target w).1.stderr = w.stderr ∧
      (a.cpOrMv P src target w).1.walked = w.walked := by
  rw [cpOrMv_eq_exec]
  exact exec_stats P a _ _ w

theorem cpOrMv_wrapped (P : Proc) (a : app) (src target : String) (w : World)
    (e : GoError) (h : (a.cpOrMv P src target w).2 = some e) : e.wrapped = true := by
  rw [cpOrMv_eq_exec] at h
  exact exec_wrapped P a _ _ w e h

theorem probe_fs (a : app) (name ext : String) (fuel : Nat) :
    ∀ (i : Nat) (target : String) (w : World) (t : String) (w' : World),
      a.probe name ext fuel i target w = some (t, w') →
      w'.fs = w.fs ∧ w'.requested = w.requested ∧ w'.listed = w.listed ∧
        w'.procs = w.procs ∧ w'.stdout = w.stdout ∧ w'.stderr = w.stderr := by
  induction fuel with
  | zero =>
    intro i target w t w' h
    simp [app.probe] at h
  | succ f ih =>
    intro i target w t w' h
    rw [probe_succ] at h
    split at h
    · simpa [World.probed] using ih _ _ _ _ _ h
    · simp only [Option.some.injEq, Prod.mk.injEq] at h
      obtain ⟨_, h2⟩ := h
      subst h2
      exact ⟨rfl, rfl, rfl, rfl, rfl, rfl⟩

theorem mutSrcTarget_err_none (fuel : Nat) (a : app) (dir ext : String) (w w' : World)
    (r : Option mutSrcTarget) (err : Option GoError)
    (h : a.mutSrcTarget fuel dir ext w = some (w', r, err)) : err = none := by
  unfold app.mutSrcTarget at h
  simp only at h
  split at h
  · simp only [Option.some.injEq, Prod.mk.injEq] at h
    exact h.2.2.symm
  · split at h
    · exact absurd h (by simp)
    · simp only [Option.some.injEq, Prod.mk.injEq] at h
      exact h.2.2.symm

theorem mutationsDirEntry_wrapped (P : Proc) (fuel : Nat) (a : app) (dcim name : String)
    (w w' : World) (e : GoError)
    (h : a.mutationsDirEntry P fuel dcim name w = some (w', some e)) : e.wrapped = true := by
  unfold app.mutationsDirEntry at h
  simp only at h
  split at h
  · exact absurd h (by simp)
  · rename_i w1 r1 err1 h1
    exact absurd (mutSrcTarget_err_none _ _ _ _ _ _ _ _ h1) (by simp)
  · simp only [Option.some.injEq] at h
    exact cpOrMv_wrapped P a _ _ _ e (by rw [h])
  · split at h
    · exact absurd h (by simp)
    · rename_i w2 r2 err2 h2
      exact absurd (mutSrcTarget_err_none _ _ _ _ _ _ _ _ h2) (by simp)
    · simp only [Option.some.injEq] at h
      exact cpOrMv_wrapped P a _ _ _ e (by rw [h])
    · simp at h

theorem mutationsDirLoop_wrapped (P : Proc) (fuel : Nat) (a : app) (dcim : String)
    (names : List String) :
    ∀ (w w' : World) (e : GoError),
      a.mutationsDirLoop P fuel dcim names w = some (w', some e) → e.wrapped = true := by
  induction names with
  | nil =>
    intro w w' e h
    simp [app.mutationsDirLoop] at h
  | cons name rest ih =>
    intro w w' e h
    simp only [app.mutationsDirLoop] at h
    split at h
    · exact absurd h (by simp)
    · rename_i w1 err1 h1
      simp only [Option.some.injEq, Prod.mk.injEq] at h
      obtain ⟨h2, h3⟩ := h
      subst h2 h3
      exact mutationsDirEntry_wrapped P fuel a dcim name w _ _ h1
    · exact ih _ _ _ h

theorem mutationsDir_wrapped (P : Proc) (fuel : Nat) (a : app) (dcim : String)
    (w w' : World) (e : GoError)
    (h : a.mutationsDir P fuel dcim w = some (w', some e)) : e.wrapped = true := by
  unfold app.mutationsDir at h
  split at h
  · simp only [Option.some.injEq, Prod.mk.injEq] at h
    obtain ⟨_, h2⟩ := h
    subst h2
    rfl
  · exact mutationsDirLoop_wrapped P fuel a dcim _ _ _ _ h

theorem mutationsLoop_wrapped (P : Proc) (fuel : Nat) (a : app) (dcim : String)
    (names : List String) :
    ∀ (w w' : World) (e : GoError),
      a.mutationsLoop P fuel dcim names w = some (w', some e) → e.wrapped = true := by
  induction names with
  | nil =>
    intro w w' e h
    simp [app.mutationsLoop] at h
  | cons name rest ih =>
    intro w w' e h
    simp only [app.mutationsLoop] at h
    split at h
    · exact ih _ _ _ h
    · split at h
      · exact absurd h (by simp)
      · rename_i w1 err1 h1
        simp only [Option.some.injEq, Prod.mk.injEq] at h
        obtain ⟨h2, h3⟩ := h
        subst h2 h3
        exact mutationsDir_wrapped P fuel a _ w _ _ h1
      · exact ih _ _ _ h

theorem mutations_wrapped (P : Proc) (fuel : Nat) (a : app) (w w' : World) (e : GoError)
    (h : a.mutations P fuel w = some (w', some e)) : e.wrapped = true := by
  unfold app.mutations at h
  simp only at h
  split at h
  · simp only [Option.some.injEq, Prod.mk.injEq] at h
    obtain ⟨_, h2⟩ := h
    subst h2
    rfl
  · exact mutationsLoop_wrapped P fuel a _ _ _ _ _ h

theorem dcimFn_fail_wrapped (P : Proc) (a : app) (root path : String) (isDir : Bool)
    (err : Option OsError) (w w' : World) (e : GoError)
    (h : a.dcimFn P root path isDir err w = (w', WalkSignal.fail e)) : e.wrapped = true := by
  unfold app.dcimFn at h
  split at h
  · simp only [Prod.mk.injEq, WalkSignal.fail.injEq] at h
    rw [← h.2]
    rfl
  · split at h
    · split at h <;> simp at h
    · simp only at h
      split at h
      · simp at h
      · rename_i w1 e1 h1
        simp only [Prod.mk.injEq, WalkSignal.fail.injEq] at h
        rw [← h.2]
        exact cpOrMv_wrapped P a _ _ _ e1 (by rw [h1])

theorem walk_fail_of_fn (fn : WalkFunc) (Q : GoError → Prop)
    (hfn : ∀ p d e w w' err, fn p d e w = (w', WalkSignal.fail err) → Q err) :
    (∀ path node w w' err, walk fn path node w = (w', WalkSignal.fail err) → Q err) ∧
    (∀ path es w w' err, walkEntries fn path es w = (w', WalkSignal.fail err) → Q err) := by
  have key := walk.mutual_induct fn
    (fun path node w => ∀ w' err, walk fn path node w = (w', WalkSignal.fail err) → Q err)
    (fun path es w => ∀ w' err, walkEntries fn path es w = (w', WalkSignal.fail err) → Q err)
  refine (fun h => ⟨fun path node w => h.1 path node w, fun path es w => h.2 path es w⟩)
    (key ?_ ?_ ?_ ?_ ?_ ?_ ?_ ?_ ?_ ?_)
  · intro path w w' err h
    exact hfn _ _ _ _ _ _ (by simpa [walk] using h)
  · intro path e w w' err h
    exact hfn _ _ _ _ _ _ (by simpa [walk] using h)
  · intro path e w w' err h
    exact hfn _ _ _ _ _ _ (by simpa [walk] using h)
  · intro path entries w w1 hfnok ih w' err h
    simp only [walk, hfnok] at h
    exact ih _ _ h
  · intro path entries w hno w' err h
    simp only [walk] at h
    rcases hr : fn path true none (w.reading path) with ⟨w1, sig⟩
    rw [hr] at h
    cases sig with
    | ok => exact absurd hr (hno w1)
    | skipDir => simp at h
    | fail e =>
      simp only [Prod.mk.injEq, WalkSignal.fail.injEq] at h
      rw [← h.2]
      exact hfn _ _ _ _ _ _ hr
  · intro path w w' err h
    simp [walkEntries] at h
  · intro path name node rest w w1 hw ih1 ih2 w' err h
    simp only [walkEntries, hw] at h
    exact ih2 _ _ h
  · intro path name node rest w w1 hw hsk ih1 ih2 w' err h
    simp only [walkEntries, hw, hsk, if_true] at h
    exact ih2 _ _ h
  · intro path name node rest w w1 hw hsk ih1 w' err h
    simp only [walkEntries, hw, hsk] at h
    simp at h
  · intro path name node rest w w1 e hw ih1 w' err h
    simp only [walkEntries, hw, Prod.mk.injEq, WalkSignal.fail.injEq] at h
    rw [← h.2]
    exact ih1 _ _ hw

theorem dcim_wrapped (P : Proc) (a : app) (tree : Node) (w w' : World) (e : GoError)
    (h : a.dcim P tree w = (w', some e)) : e.wrapped = true := by
  unfold app.dcim Walk at h
  simp only at h
  split at h
  · rename_i w1 e1 h1
    simp only [Prod.mk.injEq, Option.some.injEq] at h
    rw [← h.2]
    exact (walk_fail_of_fn _ (fun e => e.wrapped = true)
      (fun p d e w w' err hh => dcimFn_fail_wrapped P a _ p d e w w' err hh)).1 _ _ _ _ _ h1
  · simp at h


/-! ### One asset folder -/

theorem renderOf_data (dir ext : String) (h : RelPath ("Adjustments/FullSizeRender." ++ ext).data) :
    (renderOf dir ext).data =
      dirPrefix dir.data ++ ("Adjustments/FullSizeRender." ++ ext).data := by
  unfold renderOf
  rw [Join_eq dir h]

theorem relPath_jpg : RelPath ("Adjustments/FullSizeRender." ++ "jpg").data := by
  unfold RelPath
  decide

theorem relPath_mov : RelPath ("Adjustments/FullSizeRender." ++ "mov").data := by
  unfold RelPath
  decide

theorem render_mov_ne_jpg (dir : String) : renderOf dir "mov" ≠ renderOf dir "jpg" := by
  intro h
  have hd := congrArg String.data h
  rw [renderOf_data dir "mov" relPath_mov, renderOf_data dir "jpg" relPath_jpg] at hd
  exact absurd (List.append_cancel_left hd) (by decide)

theorem cand_jpg_data (a : app) {name : String} (hn : isPlain name = true) (i : Nat) :
    ∃ x, (a.cand name "jpg" i).data = x ++ ['.', 'J', 'P', 'G'] := by
  have he : '/' ∉ (ToUpper "jpg").data := by decide
  unfold app.cand
  rw [Join_eq _ (relPath_of_plain (candName_plain hn he i))]
  have hE : (ToUpper "jpg").data = ['J', 'P', 'G'] := by decide
  cases i with
  | zero =>
    refine ⟨dirPrefix a.Target.data ++ name.data, ?_⟩
    simp only [candName_data_zero, hE]
    simp
  | succ i =>
    refine ⟨dirPrefix a.Target.data ++ (name.data ++ '-' :: 'v' :: (toString (i + 1)).data), ?_⟩
    simp only [candName_data_succ, hE]
    simp

theorem render_mov_ne_cand (a : app) (dir : String) {name : String} (hn : isPlain name = true)
    (i : Nat) : renderOf dir "mov" ≠ a.cand name "jpg" i := by
  intro h
  have hd := congrArg String.data h
  obtain ⟨x, hx⟩ := cand_jpg_data a hn i
  rw [renderOf_data dir "mov" relPath_mov, hx] at hd
  have e1 : ("Adjustments/FullSizeRender." ++ "mov").data =
      "Adjustments/FullSizeRender".data ++ ['.', 'm', 'o', 'v'] := by decide
  rw [e1, ← List.append_assoc] at hd
  have := (List.append_inj' hd rfl).2
  exact absurd this (by decide)

theorem cand_jpg_suffix (a : app) {name : String} (hn : isPlain name = true) (i : Nat) :
    HasSuffix (a.cand name "jpg" i) ".JPG" = true := by
  obtain ⟨x, hx⟩ := cand_jpg_data a hn i
  unfold HasSuffix
  rw [List.isSuffixOf_iff_suffix, hx]
  exact ⟨x, rfl⟩


/-! ### The primary scan -/

theorem dcimFn_file (P : Proc) (a : app) (root path : String) (w : World) :
    ∃ w' sig, a.dcimFn P root path false none w = (w', sig) ∧ sig ≠ WalkSignal.skipDir ∧
      w'.requested = w.requested ++ [a.primaryTransfer path] := by
  unfold app.dcimFn
  simp only [Bool.false_eq_true, if_false]
  have hr := cpOrMv_requested P a path (Join a.Target (Base path)) w
  rcases hc : a.cpOrMv P path (Join a.Target (Base path)) w with ⟨w1, err⟩
  rw [hc] at hr
  cases err with
  | none => exact ⟨w1, _, rfl, by simp, hr⟩
  | some e => exact ⟨w1, _, rfl, by simp, hr⟩

theorem dcimFn_err (P : Proc) (a : app) (root path : String) (d : Bool) (e : OsError) (w : World) :
    a.dcimFn P root path d (some e) w =
      (w, WalkSignal.fail (GoError.wrapf (GoError.os e) "for file %q" [path])) := rfl

theorem dcimFn_dir (P : Proc) (a : app) (root path : String) (w : World) :
    a.dcimFn P root path true none w =
      if path = root ∨ HasSuffix path "APPLE" = true then (w, WalkSignal.ok)
      else ({ w with stderr := w.stderr ++ "Skipping: " ++ path ++ "\n" }, WalkSignal.skipDir) := by
  unfold app.dcimFn
  simp

theorem Join_longer {p name : String} (hp : DirPath p) (hn : isPlain name = true) :
    p.data.length < (Join p name).data.length := by
  rw [Join_dirPath hp (relPath_of_plain hn)]
  simp only [List.length_append, List.length_cons]
  omega

theorem apple_noslash : '/' ∉ "APPLE".data := by decide

theorem dcim_walk_requested (P : Proc) (a : app) (root : String) :
    (∀ path node w, ∀ p name, path = Join p name → DirPath p →
        root.data.length ≤ p.data.length → isPlain name = true → node.wf = true →
        ∃ L, L <+: visited path name node ∧
          (walk (a.dcimFn P root) path node w).1.requested =
            w.requested ++ L.map a.primaryTransfer ∧
          ((∀ e, (walk (a.dcimFn P root) path node w).2 ≠ WalkSignal.fail e) →
            L = visited path name node) ∧
          ((walk (a.dcimFn P root) path node w).2 = WalkSignal.skipDir → node.skips = true)) ∧
    (∀ path es w, DirPath path → root.data.length ≤ path.data.length → wfEntries es = true →
        ∃ L, L <+: visitedIn path es ∧
          (walkEntries (a.dcimFn P root) path es w).1.requested =
            w.requested ++ L.map a.primaryTransfer ∧
          ((∀ e, (walkEntries (a.dcimFn P root) path es w).2 ≠ WalkSignal.fail e) →
            L = visitedIn path es) ∧
          (walkEntries (a.dcimFn P root) path es w).2 ≠ WalkSignal.skipDir) := by
  have key := walk.mutual_induct (a.dcimFn P root)
    (fun path node w => ∀ p name, path = Join p name → DirPath p →
        root.data.length ≤ p.data.length → isPlain name = true → node.wf = true →
        ∃ L, L <+: visited path name node ∧
          (walk (a.dcimFn P root) path node w).1.requested =
            w.requested ++ L.map a.primaryTransfer ∧
          ((∀ e, (walk (a.dcimFn P root) path node w).2 ≠ WalkSignal.fail e) →
            L = visited path name node) ∧
          ((walk (a.dcimFn P root) path node w).2 = WalkSignal.skipDir → node.skips = true))
    (fun path es w => DirPath path → root.data.length ≤ path.data.length → wfEntries es = true →
        ∃ L, L <+: visitedIn path es ∧
          (walkEntries (a.dcimFn P root) path es w).1.requested =
            w.requested ++ L.map a.primaryTransfer ∧
          ((∀ e, (walkEntries (a.dcimFn P root) path es w).2 ≠ WalkSignal.fail e) →
            L = visitedIn path es) ∧
          (walkEntries (a.dcimFn P root) path es w).2 ≠ WalkSignal.skipDir)
  refine (fun h => ⟨fun path node w => h.1 path node w, fun path es w => h.2 path es w⟩)
    (key ?_ ?_ ?_ ?_ ?_ ?_ ?_ ?_ ?_ ?_)
  · -- a file
    intro path w p name _ _ _ _ _
    obtain ⟨w', sig, h1, h2, h3⟩ := dcimFn_file P a root path w
    refine ⟨[path], by simp [visited], ?_, fun _ => by simp [visited], ?_⟩
    · simp only [walk, h1, h3, List.map_cons, List.map_nil]
    · intro h
      simp only [walk, h1] at h
      exact absurd h h2
  · -- Lstat failed
    intro path e w p name _ _ _ _ _
    refine ⟨[], by simp [visited], ?_, fun _ => by simp [visited], ?_⟩
    · simp [walk, dcimFn_err]
    · intro _
      rfl
  · -- an unreadable directory
    intro path e w p name _ _ _ _ _
    refine ⟨[], by simp [visited], ?_, fun _ => by simp [visited], ?_⟩
    · simp [walk, dcimFn_err, World.reading]
    · intro _
      rfl
  · -- a directory that is entered
    intro path entries w w1 hfn ih p name hpath hp hlen hn hwf
    have hdp : DirPath path := by rw [hpath]; exact dirPath_Join p (relPath_of_plain hn)
    have hlong : root.data.length ≤ path.data.length := by
      have := Join_longer hp hn
      rw [← hpath] at this
      omega
    have hne : path ≠ root := by
      intro hh
      have := Join_longer hp hn
      rw [← hpath, hh] at this
      omega
    have hsuf : HasSuffix path "APPLE" = HasSuffix name "APPLE" := by
      rw [hpath]
      exact hasSuffix_Join hp hn _ apple_noslash
    rw [dcimFn_dir] at hfn
    have happle : HasSuffix name "APPLE" = true := by
      by_contra hh
      rw [if_neg (by simp [hne, hsuf, hh])] at hfn
      simp at hfn
    rw [if_pos (by simp [hsuf, happle])] at hfn
    simp only [Prod.mk.injEq, and_true] at hfn
    subst hfn
    obtain ⟨L, h1, h2, h3, h4⟩ := ih hdp hlong (by simpa [Node.wf] using hwf)
    have hw : walk (a.dcimFn P root) path (Node.dir entries) w =
        walkEntries (a.dcimFn P root) path entries (w.reading path) := by
      simp only [walk, dcimFn_dir]
      rw [if_pos (by simp [hsuf, happle])]
    rw [hw]
    refine ⟨L, by simpa [visited, happle] using h1, by simpa [World.reading] using h2, ?_, ?_⟩
    · intro hh
      simpa [visited, happle] using h3 hh
    · intro hh
      exact absurd hh h4
  · -- a directory that is not entered
    intro path entries w hno p name hpath hp hlen hn hwf
    have hne : path ≠ root := by
      intro hh
      have := Join_longer hp hn
      rw [← hpath, hh] at this
      omega
    have hsuf : HasSuffix path "APPLE" = HasSuffix name "APPLE" := by
      rw [hpath]
      exact hasSuffix_Join hp hn _ apple_noslash
    have happle : HasSuffix name "APPLE" = false := by
      cases hh : HasSuffix name "APPLE" with
      | false => rfl
      | true =>
        exfalso
        apply hno (w.reading path)
        rw [dcimFn_dir, if_pos (by simp [hsuf, hh])]
    have hw : walk (a.dcimFn P root) path (Node.dir entries) w =
        ({ (w.reading path) with
            stderr := (w.reading path).stderr ++ "Skipping: " ++ path ++ "\n" },
          WalkSignal.skipDir) := by
      simp only [walk, dcimFn_dir]
      rw [if_neg (by simp [hne, hsuf, happle])]
    rw [hw]
    refine ⟨[], by simp, by simp [World.reading], fun _ => by simp [visited, happle], fun _ => rfl⟩
  · -- no entries
    intro path w _ _ _
    exact ⟨[], by simp [visitedIn], by simp [walkEntries], fun _ => by simp [visitedIn],
      by simp [walkEntries]⟩
  · -- an entry that returns nil
    intro path name node rest w w1 hw ih1 ih2 hp hlen hwf
    simp only [wfEntries, Bool.and_eq_true] at hwf
    obtain ⟨⟨⟨hn, _⟩, hnode⟩, hrest⟩ := hwf
    obtain ⟨L1, a1, a2, a3, _⟩ := ih1 path name rfl hp hlen hn hnode
    obtain ⟨L2, b1, b2, b3, b4⟩ := ih2 hp hlen hrest
    rw [hw] at a2 a3
    have hL1 : L1 = visited (Join path name) name node := a3 (by simp)
    have hwe : walkEntries (a.dcimFn P root) path ((name, node) :: rest) w =
        walkEntries (a.dcimFn P root) path rest w1 := by
      simp only [walkEntries, hw]
    rw [hwe]
    refine ⟨L1 ++ L2, ?_, ?_, ?_, b4⟩
    · simp only [visitedIn, hL1]
      exact (List.prefix_append_right_inj _).2 b1
    · rw [b2, a2]
      simp
    · intro hh
      simp only [visitedIn, hL1, b3 hh]
  · -- an entry that returns SkipDir and lets the loop go on
    intro path name node rest w w1 hw hsk ih1 ih2 hp hlen hwf
    simp only [wfEntries, Bool.and_eq_true] at hwf
    obtain ⟨⟨⟨hn, _⟩, hnode⟩, hrest⟩ := hwf
    obtain ⟨L1, a1, a2, a3, _⟩ := ih1 path name rfl hp hlen hn hnode
    obtain ⟨L2, b1, b2, b3, b4⟩ := ih2 hp hlen hrest
    rw [hw] at a2 a3
    have hL1 : L1 = visited (Join path name) name node := a3 (by simp)
    have hwe : walkEntries (a.dcimFn P root) path ((name, node) :: rest) w =
        walkEntries (a.dcimFn P root) path rest w1 := by
      simp only [walkEntries, hw, hsk, if_true]
    rw [hwe]
    refine ⟨L1 ++ L2, ?_, ?_, ?_, b4⟩
    · simp only [visitedIn, hL1]
      exact (List.prefix_append_right_inj _).2 b1
    · rw [b2, a2]
      simp
    · intro hh
      simp only [visitedIn, hL1, b3 hh]
  · -- an entry that returns SkipDir and ends the directory: never a file here
    intro path name node rest w w1 hw hsk ih1 hp hlen hwf
    simp only [wfEntries, Bool.and_eq_true] at hwf
    obtain ⟨⟨⟨hn, _⟩, hnode⟩, hrest⟩ := hwf
    obtain ⟨L1, a1, a2, a3, a4⟩ := ih1 path name rfl hp hlen hn hnode
    rw [hw] at a4
    exact absurd (a4 rfl) hsk
  · -- an entry that fails
    intro path name node rest w w1 err hw ih1 hp hlen hwf
    simp only [wfEntries, Bool.and_eq_true] at hwf
    obtain ⟨⟨⟨hn, _⟩, hnode⟩, hrest⟩ := hwf
    obtain ⟨L1, a1, a2, a3, _⟩ := ih1 path name rfl hp hlen hn hnode
    rw [hw] at a2
    have hwe : walkEntries (a.dcimFn P root) path ((name, node) :: rest) w =
        (w1, WalkSignal.fail err) := by
      simp only [walkEntries, hw]
    rw [hwe]
    refine ⟨L1, ?_, a2, ?_, by simp⟩
    · simp only [visitedIn]
      exact a1.trans (List.prefix_append _ _)
    · intro hh
      exact absurd rfl (hh err)


/-! ### Where the visited files lie -/

theorem below_trans {p q r : String} (h1 : Below p q) (h2 : Below q r) : Below p r := by
  obtain ⟨s, hs⟩ := h1
  obtain ⟨t, ht⟩ := h2
  exact ⟨s ++ '/' :: t, by rw [ht, hs]; simp⟩

theorem below_Join {p name : String} (hp : DirPath p) (hn : isPlain name = true) :
    Below p (Join p name) :=
  ⟨name.data, Join_dirPath hp (relPath_of_plain hn)⟩

theorem below_of_Join {p name q : String} (hp : DirPath p) (hn : isPlain name = true)
    (h : q = Join p name ∨ Below (Join p name) q) : Below p q := by
  rcases h with h | h
  · rw [h]
    exact below_Join hp hn
  · exact below_trans (below_Join hp hn) h

theorem noslash_head_unique {n1 n2 t1 t2 : List Char} (h1 : '/' ∉ n1) (h2 : '/' ∉ n2)
    (ht1 : t1 = [] ∨ ∃ s, t1 = '/' :: s) (ht2 : t2 = [] ∨ ∃ s, t2 = '/' :: s)
    (h : n1 ++ t1 = n2 ++ t2) : n1 = n2 := by
  have key : ∀ (n t : List Char), '/' ∉ n → (t = [] ∨ ∃ s, t = '/' :: s) →
      (n ++ t).takeWhile (· ≠ '/') = n := by
    intro n t hn ht
    rw [List.takeWhile_append_of_pos (by
      intro c hc
      simp only [ne_eq, decide_not, Bool.not_eq_true', decide_eq_false_iff_not]
      intro hh
      subst hh
      exact hn hc)]
    rcases ht with ht | ⟨s, ht⟩
    · subst ht
      simp
    · subst ht
      simp
  have e1 := key n1 t1 h1 ht1
  have e2 := key n2 t2 h2 ht2
  rw [h] at e1
  rw [← e1, e2]

theorem first_name_unique {p n1 n2 q : String} (hp : DirPath p) (h1 : isPlain n1 = true)
    (h2 : isPlain n2 = true) (hq1 : q = Join p n1 ∨ Below (Join p n1) q)
    (hq2 : q = Join p n2 ∨ Below (Join p n2) q) : n1 = n2 := by
  obtain ⟨_, s1, _, _⟩ := (isPlain_iff n1).1 h1
  obtain ⟨_, s2, _, _⟩ := (isPlain_iff n2).1 h2
  have j1 := Join_dirPath hp (relPath_of_plain h1)
  have j2 := Join_dirPath hp (relPath_of_plain h2)
  have d1 : ∃ t, (t = [] ∨ ∃ s, t = '/' :: s) ∧ q.data = p.data ++ '/' :: (n1.data ++ t) := by
    rcases hq1 with h | ⟨s, h⟩
    · exact ⟨[], Or.inl rfl, by rw [h, j1]; simp⟩
    · exact ⟨'/' :: s, Or.inr ⟨s, rfl⟩, by rw [h, j1]; simp⟩
  have d2 : ∃ t, (t = [] ∨ ∃ s, t = '/' :: s) ∧ q.data = p.data ++ '/' :: (n2.data ++ t) := by
    rcases hq2 with h | ⟨s, h⟩
    · exact ⟨[], Or.inl rfl, by rw [h, j2]; simp⟩
    · exact ⟨'/' :: s, Or.inr ⟨s, rfl⟩, by rw [h, j2]; simp⟩
  obtain ⟨t1, ht1, e1⟩ := d1
  obtain ⟨t2, ht2, e2⟩ := d2
  rw [e1] at e2
  have := List.append_cancel_left e2
  simp only [List.cons.injEq, true_and] at this
  exact String.ext (noslash_head_unique s1 s2 ht1 ht2 this)

theorem wf_mem {es : List (String × Node)} (hwf : wfEntries es = true) {name : String}
    {node : Node} (h : (name, node) ∈ es) : isPlain name = true ∧ node.wf = true := by
  induction es with
  | nil => simp at h
  | cons e rest ih =>
    obtain ⟨n0, node0⟩ := e
    simp only [wfEntries, Bool.and_eq_true] at hwf
    obtain ⟨⟨⟨hn, _⟩, hnode⟩, hrest⟩ := hwf
    rcases List.mem_cons.1 h with h | h
    · simp only [Prod.mk.injEq] at h
      rw [h.1, h.2]
      exact ⟨hn, hnode⟩
    · exact ih hrest h

theorem wf_unique {es : List (String × Node)} (hwf : wfEntries es = true) {name : String}
    {n1 n2 : Node} (h1 : (name, n1) ∈ es) (h2 : (name, n2) ∈ es) : n1 = n2 := by
  induction es with
  | nil => simp at h1
  | cons e rest ih =>
    obtain ⟨n0, node0⟩ := e
    simp only [wfEntries, Bool.and_eq_true, Bool.not_eq_true'] at hwf
    obtain ⟨⟨⟨_, hnot⟩, _⟩, hrest⟩ := hwf
    have hfresh : ∀ nd, (n0, nd) ∉ rest := by
      intro nd hm
      have : n0 ∈ rest.map Prod.fst := List.mem_map.2 ⟨(n0, nd), hm, rfl⟩
      have := List.elem_eq_true_of_mem this
      simp only [List.contains] at hnot
      rw [this] at hnot
      exact Bool.noConfusion hnot
    rcases List.mem_cons.1 h1 with h1 | h1 <;> rcases List.mem_cons.1 h2 with h2 | h2
    · simp only [Prod.mk.injEq] at h1 h2
      rw [h1.2, h2.2]
    · simp only [Prod.mk.injEq] at h1
      rw [h1.1] at h2
      exact absurd h2 (hfresh _)
    · simp only [Prod.mk.injEq] at h2
      rw [h2.1] at h1
      exact absurd h1 (hfresh _)
    · exact ih hrest h1 h2

theorem mem_visitedIn {p : String} {es : List (String × Node)} {name : String} {node : Node}
    (h : (name, node) ∈ es) {x : String} (hx : x ∈ visited (Join p name) name node) :
    x ∈ visitedIn p es := by
  induction es with
  | nil => simp at h
  | cons e rest ih =>
    obtain ⟨n0, node0⟩ := e
    simp only [visitedIn, List.mem_append]
    rcases List.mem_cons.1 h with h | h
    · simp only [Prod.mk.injEq] at h
      rw [← h.1, ← h.2]
      exact Or.inl hx
    · exact Or.inr (ih h)

theorem visitedIn_mem {p : String} {es : List (String × Node)} {x : String}
    (hx : x ∈ visitedIn p es) :
    ∃ name node, (name, node) ∈ es ∧ x ∈ visited (Join p name) name node := by
  induction es with
  | nil => simp [visitedIn] at hx
  | cons e rest ih =>
    obtain ⟨n0, node0⟩ := e
    simp only [visitedIn, List.mem_append] at hx
    rcases hx with hx | hx
    · exact ⟨n0, node0, by simp, hx⟩
    · obtain ⟨name, node, h1, h2⟩ := ih hx
      exact ⟨name, node, List.mem_cons_of_mem _ h1, h2⟩

theorem visited_below :
    (∀ path name node, node.wf = true → DirPath path →
        ∀ q, q ∈ visited path name node → q = path ∨ Below path q) ∧
    (∀ path es, wfEntries es = true → DirPath path →
        ∀ q, q ∈ visitedIn path es → Below path q) := by
  have key := visited.mutual_induct
    (fun path name node => node.wf = true → DirPath path →
        ∀ q, q ∈ visited path name node → q = path ∨ Below path q)
    (fun path es => wfEntries es = true → DirPath path →
        ∀ q, q ∈ visitedIn path es → Below path q)
  refine (fun h => ⟨fun path name node => h.1 path name node, fun path es => h.2 path es⟩)
    (key ?_ ?_ ?_ ?_ ?_ ?_)
  · intro path name _ _ q hq
    simp only [visited, List.mem_singleton] at hq
    exact Or.inl hq
  · intro path name es happle ih hwf hp q hq
    simp only [visited, happle, if_true] at hq
    exact Or.inr (ih (by simpa [Node.wf] using hwf) hp q hq)
  · intro path name es happle _ _ q hq
    simp [visited, happle] at hq
  · intro node path name h1 h2 hwf hp q hq
    cases node with
    | file => exact absurd rfl h1
    | dir es => exact absurd rfl (h2 es)
    | unreadable e => simp [visited] at hq
    | lstatFail e => simp [visited] at hq
  · intro path _ _ q hq
    simp [visitedIn] at hq
  · intro path name node rest ih1 ih2 hwf hp q hq
    simp only [wfEntries, Bool.and_eq_true] at hwf
    obtain ⟨⟨⟨hn, _⟩, hnode⟩, hrest⟩ := hwf
    simp only [visitedIn, List.mem_append] at hq
    rcases hq with hq | hq
    · exact below_of_Join hp hn (ih1 hnode (dirPath_Join path (relPath_of_plain hn)) q hq)
    · exact ih2 hrest hp q hq

theorem visitedIn_first {p : String} {es : List (String × Node)} (hwf : wfEntries es = true)
    (_ : DirPath p) {q : String} (hq : q ∈ visitedIn p es) :
    ∃ name node, (name, node) ∈ es ∧ q ∈ visited (Join p name) name node ∧
      (q = Join p name ∨ Below (Join p name) q) := by
  obtain ⟨name, node, hm, hv⟩ := visitedIn_mem hq
  obtain ⟨hn, hnode⟩ := wf_mem hwf hm
  exact ⟨name, node, hm, hv,
    visited_below.1 _ name node hnode (dirPath_Join p (relPath_of_plain hn)) q hv⟩

theorem visited_nodup :
    (∀ path name node, node.wf = true → DirPath path → (visited path name node).Nodup) ∧
    (∀ path es, wfEntries es = true → DirPath path → (visitedIn path es).Nodup) := by
  have key := visited.mutual_induct
    (fun path name node => node.wf = true → DirPath path → (visited path name node).Nodup)
    (fun path es => wfEntries es = true → DirPath path → (visitedIn path es).Nodup)
  refine (fun h => ⟨fun path name node => h.1 path name node, fun path es => h.2 path es⟩)
    (key ?_ ?_ ?_ ?_ ?_ ?_)
  · intro path name _ _
    simp [visited]
  · intro path name es happle ih hwf hp
    simp only [visited, happle, if_true]
    exact ih (by simpa [Node.wf] using hwf) hp
  · intro path name es happle _ _
    simp [visited, happle]
  · intro node path name h1 h2 _ _
    cases node with
    | file => exact absurd rfl h1
    | dir es => exact absurd rfl (h2 es)
    | unreadable e => simp [visited]
    | lstatFail e => simp [visited]
  · intro path _ _
    simp [visitedIn]
  · intro path name node rest ih1 ih2 hwf hp
    have hwf0 := hwf
    simp only [wfEntries, Bool.and_eq_true, Bool.not_eq_true'] at hwf
    obtain ⟨⟨⟨hn, hnot⟩, hnode⟩, hrest⟩ := hwf
    have hq := dirPath_Join path (relPath_of_plain hn)
    simp only [visitedIn]
    rw [List.nodup_append]
    refine ⟨ih1 hnode hq, ih2 hrest hp, ?_⟩
    intro x hx1 hx2
    have b1 := visited_below.1 _ name node hnode hq x hx1
    obtain ⟨name2, node2, hm2, _, b2⟩ := visitedIn_first hrest hp hx2
    have hn2 := (wf_mem hrest hm2).1
    have heq := first_name_unique hp hn hn2 b1 b2
    have : name ∈ rest.map Prod.fst := List.mem_map.2 ⟨(name2, node2), hm2, heq.symm⟩
    have := List.elem_eq_true_of_mem this
    simp only [List.contains] at hnot
    rw [this] at hnot
    exact Bool.noConfusion hnot

theorem under_props {p : String} {es : List (String × Node)} {q n : String} {node : Node}
    (h : Under p es q n node) :
    wfEntries es = true → DirPath p →
      isPlain n = true ∧ node.wf = true ∧ DirPath q ∧ Below p q := by
  induction h with
  | direct hm =>
    intro hwf hp
    obtain ⟨hn, hnode⟩ := wf_mem hwf hm
    exact ⟨hn, hnode, dirPath_Join _ (relPath_of_plain hn), below_Join hp hn⟩
  | deeper hm _ ih =>
    intro hwf hp
    obtain ⟨hn, hnode⟩ := wf_mem hwf hm
    obtain ⟨a1, a2, a3, a4⟩ :=
      ih (by simpa [Node.wf] using hnode) (dirPath_Join _ (relPath_of_plain hn))
    exact ⟨a1, a2, a3, below_trans (below_Join hp hn) a4⟩

theorem pruned_not_visited {p : String} {es : List (String × Node)} {pD nD : String}
    {esD : List (String × Node)} (hD : Under p es pD nD (Node.dir esD))
    (hnD : HasSuffix nD "APPLE" = false) :
    wfEntries es = true → DirPath p →
      ∀ q, (q = pD ∨ Below pD q) → q ∉ visitedIn p es := by
  generalize hnode : Node.dir esD = nodeD at hD
  induction hD with
  | @direct p es name node hm =>
    intro hwf hp q hq hv
    subst hnode
    obtain ⟨name2, node2, hm2, hv2, b2⟩ := visitedIn_first hwf hp hv
    have heq := first_name_unique hp (wf_mem hwf hm).1 (wf_mem hwf hm2).1 hq b2
    subst heq
    have := wf_unique hwf hm hm2
    subst this
    simp [visited, hnD] at hv2
  | @deeper p es es1 name1 pD nD nodeD hm hU ih =>
    intro hwf hp q hq hv
    obtain ⟨hn1, hnode1⟩ := wf_mem hwf hm
    have hp1 := dirPath_Join p (relPath_of_plain hn1)
    have hwf1 : wfEntries es1 = true := by simpa [Node.wf] using hnode1
    obtain ⟨_, _, _, hbD⟩ := under_props hU hwf1 hp1
    have hq1 : Below (Join p name1) q := by
      rcases hq with hq | hq
      · rw [hq]
        exact hbD
      · exact below_trans hbD hq
    obtain ⟨name2, node2, hm2, hv2, b2⟩ := visitedIn_first hwf hp hv
    have heq := first_name_unique hp hn1 (wf_mem hwf hm2).1 (Or.inr hq1) b2
    subst heq
    have := wf_unique hwf hm hm2
    subst this
    by_cases happle : HasSuffix name1 "APPLE" = true
    · simp only [visited, happle, if_true] at hv2
      exact ih hnD hnode hwf1 hp1 q hq hv2
    · simp [visited, happle] at hv2

theorem descends_props {p : String} {es : List (String × Node)} {q : String}
    {esq : List (String × Node)} (h : Descends p es q esq) :
    wfEntries es = true → DirPath p → wfEntries esq = true ∧ DirPath q := by
  induction h with
  | refl =>
    intro hwf hp
    exact ⟨hwf, hp⟩
  | step hm _ _ ih =>
    intro hwf hp
    obtain ⟨hn, hnode⟩ := wf_mem hwf hm
    exact ih (by simpa [Node.wf] using hnode) (dirPath_Join _ (relPath_of_plain hn))

theorem descends_visited {p : String} {es : List (String × Node)} {q : String}
    {esq : List (String × Node)} (h : Descends p es q esq) {n : String}
    (hf : (n, Node.file) ∈ esq) : Join q n ∈ visitedIn p es := by
  induction h with
  | refl => exact mem_visitedIn hf (by simp [visited])
  | step hm happle _ ih =>
    exact mem_visitedIn hm (by simpa [visited, happle] using ih hf)


theorem relPath_dcim : RelPath "DCIM".data := by
  unfold RelPath
  decide

theorem rootPath_dirPath (a : app) : DirPath (Join a.Mount "DCIM") :=
  dirPath_Join _ relPath_dcim

theorem sourceOf_primaryTransfer (a : app) (src : String) :
    sourceOf (a.primaryTransfer src) = some src := rfl

theorem walk_root_requested (P : Proc) (a : app) (tree : Node) (w : World)
    (hwf : tree.wf = true) :
    ∃ L, L <+: visitedFrom (Join a.Mount "DCIM") tree ∧
      (walk (a.dcimFn P (Join a.Mount "DCIM")) (Join a.Mount "DCIM") tree w).1.requested =
        w.requested ++ L.map a.primaryTransfer ∧
      ((∀ e, (walk (a.dcimFn P (Join a.Mount "DCIM")) (Join a.Mount "DCIM") tree w).2 ≠
          WalkSignal.fail e) → L = visitedFrom (Join a.Mount "DCIM") tree) := by
  cases tree with
  | file =>
    obtain ⟨w', sig, h1, _, h3⟩ := dcimFn_file P a (Join a.Mount "DCIM") (Join a.Mount "DCIM") w
    refine ⟨[Join a.Mount "DCIM"], by simp [visitedFrom], ?_, fun _ => by simp [visitedFrom]⟩
    simp only [walk, h1, h3, List.map_cons, List.map_nil]
  | lstatFail e =>
    exact ⟨[], by simp, by simp [walk, dcimFn_err], fun _ => by simp [visitedFrom]⟩
  | unreadable e =>
    exact ⟨[], by simp, by simp [walk, dcimFn_err, World.reading],
      fun _ => by simp [visitedFrom]⟩
  | dir es =>
    have hw : walk (a.dcimFn P (Join a.Mount "DCIM")) (Join a.Mount "DCIM") (Node.dir es) w =
        walkEntries (a.dcimFn P (Join a.Mount "DCIM")) (Join a.Mount "DCIM") es
          (w.reading (Join a.Mount "DCIM")) := by
      simp [walk, dcimFn_dir]
    obtain ⟨L, h1, h2, h3, _⟩ :=
      (dcim_walk_requested P a (Join a.Mount "DCIM")).2 (Join a.Mount "DCIM") es
        (w.reading (Join a.Mount "DCIM")) (rootPath_dirPath a) (le_refl _)
        (by simpa [Node.wf] using hwf)
    rw [hw]
    exact ⟨L, by simpa [visitedFrom] using h1, by simpa [World.reading] using h2,
      fun hh => by simpa [visitedFrom] using h3 hh⟩

theorem dcim_requested (P : Proc) (a : app) (tree : Node) (w : World) (hwf : tree.wf = true) :
    ∃ L, L <+: visitedFrom (Join a.Mount "DCIM") tree ∧
      (a.dcim P tree w).1.requested = w.requested ++ L.map a.primaryTransfer ∧
      ((a.dcim P tree w).2 = none → L = visitedFrom (Join a.Mount "DCIM") tree) := by
  obtain ⟨L, h1, h2, h3⟩ := walk_root_requested P a tree w hwf
  refine ⟨L, h1, ?_, ?_⟩
  · unfold app.dcim Walk
    simp only
    split <;> rename_i hs <;> rw [hs] at h2 <;> exact h2
  · intro hnone
    apply h3
    intro e he
    unfold app.dcim Walk at hnone
    simp only at hnone
    rcases hwk : walk (a.dcimFn P (Join a.Mount "DCIM")) (Join a.Mount "DCIM") tree w with
      ⟨w1, sig⟩
    rw [hwk] at he hnone
    simp only at he
    subst he
    simp at hnone

theorem dcim_new_requests (P : Proc) (a : app) (tree : Node) (w : World) (hwf : tree.wf = true) :
    ∃ L, L <+: visitedFrom (Join a.Mount "DCIM") tree ∧
      (a.dcim P tree w).1.requested.drop w.requested.length = L.map a.primaryTransfer ∧
      ((a.dcim P tree w).2 = none → L = visitedFrom (Join a.Mount "DCIM") tree) := by
  obtain ⟨L, h1, h2, h3⟩ := dcim_requested P a tree w hwf
  exact ⟨L, h1, by rw [h2, List.drop_left], h3⟩

theorem filter_source_of_nodup (a : app) {L : List String} (hnd : L.Nodup) {x : String}
    (hx : x ∈ L) :
    (L.map a.primaryTransfer).filter (fun r => sourceOf r = some x) = [a.primaryTransfer x] := by
  rw [List.filter_map]
  have e1 : ((fun r => decide (sourceOf r = some x)) ∘ a.primaryTransfer) =
      (fun s => decide (s = x)) := by
    funext s
    simp [Function.comp, sourceOf_primaryTransfer]
  rw [e1, List.filter_eq, List.count_eq_one_of_mem hnd hx]
  rfl


/-! ### Relations kept by every step -/

section closed

variable {T : World → World → Prop} {P : Proc} {dry : Bool}

theorem cpOrMv_closed (hc : Closed T P dry) (a : app) (ha : a.DryRun = dry) (src target : String)
    (w : World) : T w (a.cpOrMv P src target w).1 := by
  rw [cpOrMv_eq_exec]
  exact hc.exec a _ _ w ha

theorem dcimFn_closed (hc : Closed T P dry) (a : app) (ha : a.DryRun = dry) (root path : String)
    (d : Bool) (e : Option OsError) (w : World) : T w (a.dcimFn P root path d e w).1 := by
  cases e with
  | some e => exact hc.refl w
  | none =>
    cases d with
    | true =>
      rw [dcimFn_dir]
      split
      · exact hc.refl w
      · have := hc.stderr w ("Skipping: " ++ path ++ "\n")
        simpa [String.append_assoc] using this
    | false =>
      have h := cpOrMv_closed hc a ha path (Join a.Target (Base path)) w
      unfold app.dcimFn
      simp only [Bool.false_eq_true, if_false]
      split <;> rename_i heq <;> rw [heq] at h <;> exact h

theorem walk_closed (hc : Closed T P dry) (fn : WalkFunc)
    (hfn : ∀ p d e w, T w (fn p d e w).1) :
    (∀ path node w, T w (walk fn path node w).1) ∧
    (∀ path es w, T w (walkEntries fn path es w).1) := by
  have key := walk.mutual_induct fn
    (fun path node w => T w (walk fn path node w).1)
    (fun path es w => T w (walkEntries fn path es w).1)
  refine (fun h => ⟨fun path node w => h.1 path node w, fun path es w => h.2 path es w⟩)
    (key ?_ ?_ ?_ ?_ ?_ ?_ ?_ ?_ ?_ ?_)
  · intro path w
    simpa [walk] using hfn path false none w
  · intro path e w
    simpa [walk] using hfn path false (some e) w
  · intro path e w
    simp only [walk]
    exact hc.trans (hc.reading path w) (hfn path true (some e) _)
  · intro path entries w w1 hok ih
    simp only [walk, hok]
    have h1 := hfn path true none (w.reading path)
    rw [hok] at h1
    exact hc.trans (hc.trans (hc.reading path w) h1) ih
  · intro path entries w hno
    simp only [walk]
    have h1 := hfn path true none (w.reading path)
    rcases hr : fn path true none (w.reading path) with ⟨w1, sig⟩
    rw [hr] at h1
    cases sig with
    | ok => exact absurd hr (hno w1)
    | skipDir => exact hc.trans (hc.reading path w) h1
    | fail e => exact hc.trans (hc.reading path w) h1
  · intro path w
    simpa [walkEntries] using hc.refl w
  · intro path name node rest w w1 hw ih1 ih2
    simp only [walkEntries, hw]
    rw [hw] at ih1
    exact hc.trans ih1 ih2
  · intro path name node rest w w1 hw hsk ih1 ih2
    simp only [walkEntries, hw, hsk, if_true]
    rw [hw] at ih1
    exact hc.trans ih1 ih2
  · intro path name node rest w w1 hw hsk ih1
    simp only [walkEntries, hw, hsk]
    rw [hw] at ih1
    simpa using ih1
  · intro path name node rest w w1 err hw ih1
    simp only [walkEntries, hw]
    rw [hw] at ih1
    exact ih1

theorem dcim_closed (hc : Closed T P dry) (a : app) (ha : a.DryRun = dry) (tree : Node)
    (w : World) : T w (a.dcim P tree w).1 := by
  have h := (walk_closed hc (a.dcimFn P (Join a.Mount "DCIM"))
    (fun p d e w => dcimFn_closed hc a ha _ p d e w)).1 (Join a.Mount "DCIM") tree w
  unfold app.dcim Walk
  simp only
  split <;> rename_i heq <;> rw [heq] at h <;> exact h

theorem probe_closed (hc : Closed T P dry) (a : app) (name ext : String) (fuel : Nat) :
    ∀ (i : Nat) (target : String) (w : World) (t : String) (w' : World),
      a.probe name ext fuel i target w = some (t, w') → T w w' := by
  induction fuel with
  | zero =>
    intro i target w t w' h
    simp [app.probe] at h
  | succ f ih =>
    intro i target w t w' h
    have hs := hc.stat target w
    simp only [app.probe] at h
    rcases hst : osStat target w with ⟨o, w1⟩
    rw [hst] at h hs
    cases o with
    | none => exact hc.trans hs (ih _ _ _ _ _ h)
    | some e =>
      simp only [Option.some.injEq, Prod.mk.injEq] at h
      rw [← h.2]
      exact hs

theorem mutSrcTarget_closed (hc : Closed T P dry) (fuel : Nat) (a : app) (dir ext : String)
    (w w' : World) (r : Option mutSrcTarget) (err : Option GoError)
    (h : a.mutSrcTarget fuel dir ext w = some (w', r, err)) : T w w' := by
  have hs := hc.stat (Join dir ("Adjustments/FullSizeRender." ++ ext)) w
  simp only [app.mutSrcTarget] at h
  rcases hst : osStat (Join dir ("Adjustments/FullSizeRender." ++ ext)) w with ⟨o, w1⟩
  rw [hst] at h hs
  cases o with
  | some e =>
    simp only [Option.some.injEq, Prod.mk.injEq] at h
    rw [← h.1]
    exact hs
  | none =>
    simp only at h
    split at h
    · exact absurd h (by simp)
    · rename_i t w2 hp
      simp only [Option.some.injEq, Prod.mk.injEq] at h
      rw [← h.1]
      exact hc.trans hs (probe_closed hc a _ _ _ _ _ _ _ _ hp)

theorem mutationsDirEntry_closed (hc : Closed T P dry) (fuel : Nat) (a : app)
    (ha : a.DryRun = dry) (dcim name : String) (w w' : World) (err : Option GoError)
    (h : a.mutationsDirEntry P fuel dcim name w = some (w', err)) : T w w' := by
  unfold app.mutationsDirEntry at h
  simp only at h
  split at h
  · exact absurd h (by simp)
  · rename_i w1 r1 err1 h1
    simp only [Option.some.injEq, Prod.mk.injEq] at h
    rw [← h.1]
    exact mutSrcTarget_closed hc _ _ _ _ _ _ _ _ h1
  · rename_i w1 st h1
    simp only [Option.some.injEq] at h
    have := cpOrMv_closed hc a ha st.src st.target w1
    rw [h] at this
    exact hc.trans (mutSrcTarget_closed hc _ _ _ _ _ _ _ _ h1) this
  · rename_i w1 h1
    have t1 := mutSrcTarget_closed hc _ _ _ _ _ _ _ _ h1
    split at h
    · exact absurd h (by simp)
    · rename_i w2 r2 err2 h2
      simp only [Option.some.injEq, Prod.mk.injEq] at h
      rw [← h.1]
      exact hc.trans t1 (mutSrcTarget_closed hc _ _ _ _ _ _ _ _ h2)
    · rename_i w2 st h2
      simp only [Option.some.injEq] at h
      have := cpOrMv_closed hc a ha st.src st.target w2
      rw [h] at this
      exact hc.trans t1 (hc.trans (mutSrcTarget_closed hc _ _ _ _ _ _ _ _ h2) this)
    · rename_i w2 h2
      simp only [Option.some.injEq, Prod.mk.injEq] at h
      rw [← h.1]
      exact hc.trans t1 (mutSrcTarget_closed hc _ _ _ _ _ _ _ _ h2)

theorem mutationsDirLoop_closed (hc : Closed T P dry) (fuel : Nat) (a : app)
    (ha : a.DryRun = dry) (dcim : String) (names : List String) :
    ∀ (w w' : World) (err : Option GoError),
      a.mutationsDirLoop P fuel dcim names w = some (w', err) → T w w' := by
  induction names with
  | nil =>
    intro w w' err h
    simp only [app.mutationsDirLoop, Option.some.injEq, Prod.mk.injEq] at h
    rw [← h.1]
    exact hc.refl w
  | cons name rest ih =>
    intro w w' err h
    simp only [app.mutationsDirLoop] at h
    split at h
    · exact absurd h (by simp)
    · rename_i w1 err1 h1
      simp only [Option.some.injEq, Prod.mk.injEq] at h
      rw [← h.1]
      exact mutationsDirEntry_closed hc fuel a ha dcim name _ _ _ h1
    · rename_i w1 h1
      exact hc.trans (mutationsDirEntry_closed hc fuel a ha dcim name _ _ _ h1) (ih _ _ _ h)

theorem mutationsDir_closed (hc : Closed T P dry) (fuel : Nat) (a : app) (ha : a.DryRun = dry)
    (dcim : String) (w w' : World) (err : Option GoError)
    (h : a.mutationsDir P fuel dcim w = some (w', err)) : T w w' := by
  have hr := hc.readdir dcim w
  unfold app.mutationsDir at h
  rcases hrd : osReaddir dcim w with ⟨l, w1⟩
  rw [hrd] at h hr
  cases l with
  | fail e =>
    simp only [Option.some.injEq, Prod.mk.injEq] at h
    rw [← h.1]
    exact hr
  | names ns =>
    simp only at h
    exact hc.trans hr (mutationsDirLoop_closed hc fuel a ha dcim ns _ _ _ h)

theorem mutationsLoop_closed (hc : Closed T P dry) (fuel : Nat) (a : app) (ha : a.DryRun = dry)
    (dcim : String) (names : List String) :
    ∀ (w w' : World) (err : Option GoError),
      a.mutationsLoop P fuel dcim names w = some (w', err) → T w w' := by
  induction names with
  | nil =>
    intro w w' err h
    simp only [app.mutationsLoop, Option.some.injEq, Prod.mk.injEq] at h
    rw [← h.1]
    exact hc.refl w
  | cons name rest ih =>
    intro w w' err h
    simp only [app.mutationsLoop] at h
    split at h
    · exact ih _ _ _ h
    · split at h
      · exact absurd h (by simp)
      · rename_i w1 err1 h1
        simp only [Option.some.injEq, Prod.mk.injEq] at h
        rw [← h.1]
        exact mutationsDir_closed hc fuel a ha _ _ _ _ h1
      · rename_i w1 h1
        exact hc.trans (mutationsDir_closed hc fuel a ha _ _ _ _ h1) (ih _ _ _ h)

theorem mutations_closed (hc : Closed T P dry) (fuel : Nat) (a : app) (ha : a.DryRun = dry)
    (w w' : World) (err : Option GoError)
    (h : a.mutations P fuel w = some (w', err)) : T w w' := by
  have hr := hc.readdir (Join a.Mount "PhotoData/Mutations/DCIM") w
  unfold app.mutations at h
  simp only at h
  rcases hrd : osReaddir (Join a.Mount "PhotoData/Mutations/DCIM") w with ⟨l, w1⟩
  rw [hrd] at h hr
  cases l with
  | fail e =>
    simp only [Option.some.injEq, Prod.mk.injEq] at h
    rw [← h.1]
    exact hr
  | names ns =>
    simp only at h
    exact hc.trans hr (mutationsLoop_closed hc fuel a ha _ ns _ _ _ h)

end closed


/-! ### Dry steps, live steps -/

theorem report_append (xs ys : List (String × List String)) :
    report (xs ++ ys) = report xs ++ report ys := by
  induction xs with
  | nil => simp [report]
  | cons x xs ih => simp [report, ih, String.append_assoc]

theorem dryStep_refl (w : World) : DryStep w w :=
  ⟨rfl, rfl, [], by simp, by simp [report]⟩

theorem dryStep_closed (P : Proc) : Closed DryStep P true where
  refl := dryStep_refl
  trans := by
    rintro w1 w2 w3 ⟨a1, a2, n1, a3, a4⟩ ⟨b1, b2, n2, b3, b4⟩
    exact ⟨by rw [b1, a1], by rw [b2, a2], n1 ++ n2, by rw [b3, a3]; simp,
      by rw [b4, a4, report_append, String.append_assoc]⟩
  exec := by
    intro a cmd args w ha
    unfold app.exec
    simp only [ha, if_true]
    exact ⟨rfl, rfl, [(cmd, args)], rfl, by simp [report]⟩
  stat := fun p w => ⟨rfl, rfl, [], by simp [osStat], by simp [osStat, report]⟩
  readdir := fun p w => ⟨rfl, rfl, [], by simp [osReaddir], by simp [osReaddir, report]⟩
  reading := fun p w => ⟨rfl, rfl, [], by simp [World.reading], by simp [World.reading, report]⟩
  stderr := fun w text => ⟨rfl, rfl, [], by simp, by simp [report]⟩

theorem liveStep_refl (w : World) : LiveStep w w :=
  ⟨List.Subset.refl _, List.Subset.refl _, rfl, [], by simp, by simp⟩

theorem liveStep_closed (P : Proc) : Closed LiveStep P false where
  refl := liveStep_refl
  trans := by
    rintro w1 w2 w3 ⟨a1, a2, a3, n1, a4, a5⟩ ⟨b1, b2, b3, n2, b4, b5⟩
    exact ⟨a1.trans b1, a2.trans b2, by rw [b3, a3], n1 ++ n2, by rw [b4, a4]; simp,
      by rw [b5, a5]; simp⟩
  exec := by
    intro a cmd args w ha
    unfold app.exec
    simp only [ha, Bool.false_eq_true, if_false]
    split
    · exact ⟨List.Subset.refl _, List.Subset.refl _, rfl, [(cmd, args)], rfl, rfl⟩
    · exact ⟨List.Subset.refl _, List.Subset.refl _, rfl, [(cmd, args)], rfl, rfl⟩
  stat := fun p w => ⟨by simp [osStat], List.Subset.refl _, rfl, [], by simp [osStat],
    by simp [osStat]⟩
  readdir := fun p w => ⟨List.Subset.refl _, by simp [osReaddir], rfl, [], by simp [osReaddir],
    by simp [osReaddir]⟩
  reading := fun p w => ⟨List.Subset.refl _, List.Subset.refl _, rfl, [],
    by simp [World.reading], by simp [World.reading]⟩
  stderr := fun w text => ⟨List.Subset.refl _, List.Subset.refl _, rfl, [], by simp, by simp⟩

theorem answersOf_of_liveStep {w w' : World} {fs : FS} (h : LiveStep w w')
    (ha : w'.answersOf fs) : w.answersOf fs :=
  ⟨fun x hx => ha.1 x (h.1 hx), fun x hx => ha.2 x (h.2.1 hx)⟩

/-! ### The dry run follows the live run -/

theorem exec_mirror (P : Proc) (a : app) (ha : a.DryRun = false) (fs : FS)
    (cmd : String) (args : List String) (wd wl : World) (hm : Mirror fs wd wl)
    (hok : ∀ e, (a.exec P cmd args wl).2 = some e → e.transferFailed = false) :
    (a.dry.exec P cmd args wd).2 = (a.exec P cmd args wl).2 ∧
      Mirror fs (a.dry.exec P cmd args wd).1 (a.exec P cmd args wl).1 := by
  obtain ⟨m1, m2, m3, m4, m5, m6⟩ := hm
  unfold app.exec at hok ⊢
  simp only [ha, app.dry, Bool.false_eq_true, if_false, if_true] at hok ⊢
  rcases hp : P wl.fs cmd args with ⟨fs', out, err⟩
  rw [hp] at hok
  cases err with
  | some e => exact absurd (hok _ rfl) (by simp [GoError.transferFailed])
  | none => exact ⟨rfl, m1, by simp [m2], m3, m4, m5, m6⟩

theorem cpOrMv_mirror (P : Proc) (a : app) (ha : a.DryRun = false) (fs : FS)
    (src target : String) (wd wl : World) (hm : Mirror fs wd wl)
    (hok : ∀ e, (a.cpOrMv P src target wl).2 = some e → e.transferFailed = false) :
    (a.dry.cpOrMv P src target wd).2 = (a.cpOrMv P src target wl).2 ∧
      Mirror fs (a.dry.cpOrMv P src target wd).1 (a.cpOrMv P src target wl).1 := by
  rw [cpOrMv_eq_exec] at hok ⊢
  rw [cpOrMv_eq_exec]
  exact exec_mirror P a ha fs _ _ wd wl hm hok

theorem dcimFn_mirror (P : Proc) (a : app) (ha : a.DryRun = false) (fs : FS)
    (root path : String) (d : Bool) (e : Option OsError) (wd wl : World) (hm : Mirror fs wd wl)
    (hok : ∀ err, (a.dcimFn P root path d e wl).2 = WalkSignal.fail err →
      err.transferFailed = false) :
    (a.dry.dcimFn P root path d e wd).2 = (a.dcimFn P root path d e wl).2 ∧
      Mirror fs (a.dry.dcimFn P root path d e wd).1 (a.dcimFn P root path d e wl).1 := by
  cases e with
  | some e => exact ⟨rfl, hm⟩
  | none =>
    cases d with
    | true =>
      rw [dcimFn_dir, dcimFn_dir]
      split
      · exact ⟨rfl, hm⟩
      · obtain ⟨m1, m2, m3, m4, m5, m6⟩ := hm
        exact ⟨rfl, m1, m2, m3, m4, m5, by simp [m6]⟩
    | false =>
      have hc := cpOrMv_mirror P a ha fs path (Join a.Target (Base path)) wd wl hm
      unfold app.dcimFn at hok ⊢
      simp only [Bool.false_eq_true, if_false] at hok ⊢
      have ht : a.dry.Target = a.Target := rfl
      rw [ht]
      rcases hl : a.cpOrMv P path (Join a.Target (Base path)) wl with ⟨wl1, el⟩
      rcases hd : a.dry.cpOrMv P path (Join a.Target (Base path)) wd with ⟨wd1, ed⟩
      rw [hl] at hok hc
      rw [hd] at hc
      simp only at hc
      have hc2 := hc (by
        intro e he
        subst he
        exact hok e rfl)
      obtain ⟨e1, e2⟩ := hc2
      subst e1
      cases ed with
      | none => exact ⟨rfl, e2⟩
      | some e => exact ⟨rfl, e2⟩


theorem walk_mirror (P : Proc) (a : app) (ha : a.DryRun = false) (fs : FS) (root : String) :
    (∀ path node wl, ∀ wd, Mirror fs wd wl →
        (∀ err, (walk (a.dcimFn P root) path node wl).2 = WalkSignal.fail err →
          err.transferFailed = false) →
        (walk (a.dry.dcimFn P root) path node wd).2 = (walk (a.dcimFn P root) path node wl).2 ∧
          Mirror fs (walk (a.dry.dcimFn P root) path node wd).1
            (walk (a.dcimFn P root) path node wl).1) ∧
    (∀ path es wl, ∀ wd, Mirror fs wd wl →
        (∀ err, (walkEntries (a.dcimFn P root) path es wl).2 = WalkSignal.fail err →
          err.transferFailed = false) →
        (walkEntries (a.dry.dcimFn P root) path es wd).2 =
            (walkEntries (a.dcimFn P root) path es wl).2 ∧
          Mirror fs (walkEntries (a.dry.dcimFn P root) path es wd).1
            (walkEntries (a.dcimFn P root) path es wl).1) := by
  have hread : ∀ (wd wl : World) (p : String), Mirror fs wd wl →
      Mirror fs (wd.reading p) (wl.reading p) := by
    rintro wd wl p ⟨m1, m2, m3, m4, m5, m6⟩
    exact ⟨m1, m2, m3, m4, by simp [World.reading, m5], m6⟩
  have key := walk.mutual_induct (a.dcimFn P root)
    (fun path node wl => ∀ wd, Mirror fs wd wl →
        (∀ err, (walk (a.dcimFn P root) path node wl).2 = WalkSignal.fail err →
          err.transferFailed = false) →
        (walk (a.dry.dcimFn P root) path node wd).2 = (walk (a.dcimFn P root) path node wl).2 ∧
          Mirror fs (walk (a.dry.dcimFn P root) path node wd).1
            (walk (a.dcimFn P root) path node wl).1)
    (fun path es wl => ∀ wd, Mirror fs wd wl →
        (∀ err, (walkEntries (a.dcimFn P root) path es wl).2 = WalkSignal.fail err →
          err.transferFailed = false) →
        (walkEntries (a.dry.dcimFn P root) path es wd).2 =
            (walkEntries (a.dcimFn P root) path es wl).2 ∧
          Mirror fs (walkEntries (a.dry.dcimFn P root) path es wd).1
            (walkEntries (a.dcimFn P root) path es wl).1)
  refine (fun h => ⟨fun path node w => h.1 path node w, fun path es w => h.2 path es w⟩)
    (key ?_ ?_ ?_ ?_ ?_ ?_ ?_ ?_ ?_ ?_)
  · intro path wl wd hm hok
    simp only [walk] at hok ⊢
    exact dcimFn_mirror P a ha fs root path false none wd wl hm hok
  · intro path e wl wd hm hok
    simp only [walk] at hok ⊢
    exact dcimFn_mirror P a ha fs root path false (some e) wd wl hm hok
  · intro path e wl wd hm hok
    simp only [walk] at hok ⊢
    exact dcimFn_mirror P a ha fs root path true (some e) _ _ (hread wd wl path hm) hok
  · intro path entries wl wl1 hfn ih wd hm hok
    have h1 := dcimFn_mirror P a ha fs root path true none _ _ (hread wd wl path hm)
      (by rw [hfn]; simp)
    rw [hfn] at h1
    rcases hd : a.dry.dcimFn P root path true none (wd.reading path) with ⟨wd1, sd⟩
    rw [hd] at h1
    simp only at h1
    obtain ⟨e1, e2⟩ := h1
    subst e1
    simp only [walk, hfn, hd] at hok ⊢
    exact ih wd1 e2 hok
  · intro path entries wl hno wd hm hok
    rcases hl : a.dcimFn P root path true none (wl.reading path) with ⟨wl1, sl⟩
    have hsl : sl ≠ WalkSignal.ok := by
      intro hh
      subst hh
      exact hno wl1 hl
    have hwl : walk (a.dcimFn P root) path (Node.dir entries) wl = (wl1, sl) := by
      simp only [walk, hl]
      cases sl with
      | ok => exact absurd rfl hsl
      | skipDir => rfl
      | fail e => rfl
    rw [hwl] at hok ⊢
    have h1 := dcimFn_mirror P a ha fs root path true none _ _ (hread wd wl path hm)
      (by rw [hl]; exact hok)
    rw [hl] at h1
    rcases hd : a.dry.dcimFn P root path true none (wd.reading path) with ⟨wd1, sd⟩
    rw [hd] at h1
    simp only at h1
    obtain ⟨e1, e2⟩ := h1
    subst e1
    have hwd : walk (a.dry.dcimFn P root) path (Node.dir entries) wd = (wd1, sd) := by
      simp only [walk, hd]
      cases sd with
      | ok => exact absurd rfl hsl
      | skipDir => rfl
      | fail e => rfl
    rw [hwd]
    exact ⟨rfl, e2⟩
  · intro path wl wd hm _
    simp only [walkEntries]
    exact ⟨trivial, hm⟩
  · intro path name node rest wl wl1 hw ih1 ih2 wd hm hok
    have h1 := ih1 wd hm (by rw [hw]; simp)
    rw [hw] at h1
    rcases hd : walk (a.dry.dcimFn P root) (Join path name) node wd with ⟨wd1, sd⟩
    rw [hd] at h1
    simp only at h1
    obtain ⟨e1, e2⟩ := h1
    subst e1
    simp only [walkEntries, hw, hd] at hok ⊢
    exact ih2 wd1 e2 hok
  · intro path name node rest wl wl1 hw hsk ih1 ih2 wd hm hok
    have h1 := ih1 wd hm (by rw [hw]; simp)
    rw [hw] at h1
    rcases hd : walk (a.dry.dcimFn P root) (Join path name) node wd with ⟨wd1, sd⟩
    rw [hd] at h1
    simp only at h1
    obtain ⟨e1, e2⟩ := h1
    subst e1
    simp only [walkEntries, hw, hd, hsk, if_true] at hok ⊢
    exact ih2 wd1 e2 hok
  · intro path name node rest wl wl1 hw hsk ih1 wd hm hok
    have h1 := ih1 wd hm (by rw [hw]; simp)
    rw [hw] at h1
    rcases hd : walk (a.dry.dcimFn P root) (Join path name) node wd with ⟨wd1, sd⟩
    rw [hd] at h1
    simp only at h1
    obtain ⟨e1, e2⟩ := h1
    subst e1
    simp only [walkEntries, hw, hd]
    rw [if_neg hsk, if_neg hsk]
    exact ⟨rfl, e2⟩
  · intro path name node rest wl wl1 err hw ih1 wd hm hok
    have hok1 : ∀ e, (walk (a.dcimFn P root) (Join path name) node wl).2 = WalkSignal.fail e →
        e.transferFailed = false := by
      intro e he
      apply hok e
      simp only [walkEntries, hw]
      rw [hw] at he
      exact he
    have h1 := ih1 wd hm hok1
    rw [hw] at h1
    rcases hd : walk (a.dry.dcimFn P root) (Join path name) node wd with ⟨wd1, sd⟩
    rw [hd] at h1
    simp only at h1
    obtain ⟨e1, e2⟩ := h1
    subst e1
    simp only [walkEntries, hw, hd]
    exact ⟨trivial, e2⟩

theorem dcim_mirror (P : Proc) (a : app) (ha : a.DryRun = false) (fs : FS) (tree : Node)
    (wd wl : World) (hm : Mirror fs wd wl)
    (hok : ∀ e, (a.dcim P tree wl).2 = some e → e.transferFailed = false) :
    (a.dry.dcim P tree wd).2 = (a.dcim P tree wl).2 ∧
      Mirror fs (a.dry.dcim P tree wd).1 (a.dcim P tree wl).1 := by
  have hmount : a.dry.Mount = a.Mount := rfl
  unfold app.dcim Walk at hok ⊢
  simp only [hmount] at hok ⊢
  rcases hl : walk (a.dcimFn P (Join a.Mount "DCIM")) (Join a.Mount "DCIM") tree wl with ⟨wl1, sl⟩
  have h1 := (walk_mirror P a ha fs (Join a.Mount "DCIM")).1 (Join a.Mount "DCIM") tree wl wd hm
    (by
      intro e he
      apply hok e
      rw [hl] at he ⊢
      simp only at he
      subst he
      rfl)
  rw [hl] at h1
  rcases hd : walk (a.dry.dcimFn P (Join a.Mount "DCIM")) (Join a.Mount "DCIM") tree wd with
    ⟨wd1, sd⟩
  rw [hd] at h1
  simp only at h1
  obtain ⟨e1, e2⟩ := h1
  subst e1
  cases sd with
  | ok => exact ⟨rfl, e2⟩
  | skipDir => exact ⟨rfl, e2⟩
  | fail e => exact ⟨rfl, e2⟩

theorem osStat_mirror {fs : FS} {wd wl : World} (hm : Mirror fs wd wl) (p : String)
    (hans : (osStat p wl).2.answersOf fs) :
    (osStat p wd).1 = (osStat p wl).1 ∧ Mirror fs (osStat p wd).2 (osStat p wl).2 := by
  obtain ⟨m1, m2, m3, m4, m5, m6⟩ := hm
  have h := hans.1 (p, wl.fs.stat p) (by simp [osStat])
  simp only at h
  refine ⟨by simp [osStat, m1, h], m1, m2, ?_, m4, m5, m6⟩
  simp [osStat, m1, m3, h]

theorem osReaddir_mirror {fs : FS} {wd wl : World} (hm : Mirror fs wd wl) (p : String)
    (hans : (osReaddir p wl).2.answersOf fs) :
    (osReaddir p wd).1 = (osReaddir p wl).1 ∧
      Mirror fs (osReaddir p wd).2 (osReaddir p wl).2 := by
  obtain ⟨m1, m2, m3, m4, m5, m6⟩ := hm
  have h := hans.2 (p, wl.fs.readdir p) (by simp [osReaddir])
  simp only at h
  refine ⟨by simp [osReaddir, m1, h], m1, m2, m3, ?_, m5, m6⟩
  simp [osReaddir, m1, m4, h]

theorem probe_mirror (P : Proc) (ad al : app) (ht : ad.Target = al.Target) (fs : FS)
    (name ext : String) (fuel : Nat) :
    ∀ (i : Nat) (target : String) (wl : World) (t : String) (wl' : World),
      al.probe name ext fuel i target wl = some (t, wl') → wl'.answersOf fs →
      ∀ wd, Mirror fs wd wl →
        ∃ wd', ad.probe name ext fuel i target wd = some (t, wd') ∧ Mirror fs wd' wl' := by
  induction fuel with
  | zero =>
    intro i target wl t wl' h
    simp [app.probe] at h
  | succ f ih =>
    intro i target wl t wl' h hans wd hm
    simp only [app.probe] at h ⊢
    rcases hl : osStat target wl with ⟨ol, wl1⟩
    rw [hl] at h
    have hans1 : (osStat target wl).2.answersOf fs := by
      rw [hl]
      cases ol with
      | none =>
        exact answersOf_of_liveStep (probe_closed (liveStep_closed P) al _ _ _ _ _ _ _ _ h) hans
      | some e =>
        simp only [Option.some.injEq, Prod.mk.injEq] at h
        rw [h.2]
        exact hans
    have hs := osStat_mirror hm target hans1
    rw [hl] at hs
    rcases hd : osStat target wd with ⟨od, wd1⟩
    rw [hd] at hs
    simp only at hs
    obtain ⟨e1, e2⟩ := hs
    subst e1
    cases od with
    | none =>
      simp only at h ⊢
      rw [ht]
      exact ih _ _ _ _ _ h hans wd1 e2
    | some e =>
      simp only [Option.some.injEq, Prod.mk.injEq] at h ⊢
      obtain ⟨h1, h2⟩ := h
      subst h1 h2
      exact ⟨wd1, ⟨rfl, rfl⟩, e2⟩

theorem mutSrcTarget_mirror (P : Proc) (ad al : app) (ht : ad.Target = al.Target) (fs : FS)
    (fuel : Nat) (dir ext : String) (wl wl' : World) (r : Option mutSrcTarget)
    (err : Option GoError) (h : al.mutSrcTarget fuel dir ext wl = some (wl', r, err))
    (hans : wl'.answersOf fs) (wd : World) (hm : Mirror fs wd wl) :
    ∃ wd', ad.mutSrcTarget fuel dir ext wd = some (wd', r, err) ∧ Mirror fs wd' wl' := by
  simp only [app.mutSrcTarget] at h ⊢
  rcases hl : osStat (Join dir ("Adjustments/FullSizeRender." ++ ext)) wl with ⟨ol, wl1⟩
  rw [hl] at h
  have hans1 : (osStat (Join dir ("Adjustments/FullSizeRender." ++ ext)) wl).2.answersOf fs := by
    rw [hl]
    cases ol with
    | some e =>
      simp only [Option.some.injEq, Prod.mk.injEq] at h
      rw [h.1]
      exact hans
    | none =>
      simp only at h
      split at h
      · exact absurd h (by simp)
      · rename_i t w2 hp
        simp only [Option.some.injEq, Prod.mk.injEq] at h
        rw [← h.1] at hans
        exact answersOf_of_liveStep (probe_closed (liveStep_closed P) al _ _ _ _ _ _ _ _ hp) hans
  have hs := osStat_mirror hm (Join dir ("Adjustments/FullSizeRender." ++ ext)) hans1
  rw [hl] at hs
  rcases hd : osStat (Join dir ("Adjustments/FullSizeRender." ++ ext)) wd with ⟨od, wd1⟩
  rw [hd] at hs
  simp only at hs
  obtain ⟨e1, e2⟩ := hs
  subst e1
  cases od with
  | some e =>
    simp only [Option.some.injEq, Prod.mk.injEq] at h ⊢
    obtain ⟨h1, h2, h3⟩ := h
    subst h1 h2 h3
    exact ⟨wd1, ⟨rfl, rfl, rfl⟩, e2⟩
  | none =>
    simp only at h ⊢
    split at h
    · exact absurd h (by simp)
    · rename_i t w2 hp
      simp only [Option.some.injEq, Prod.mk.injEq] at h
      obtain ⟨h1, h2, h3⟩ := h
      subst h1 h2 h3
      obtain ⟨wd', hp', hm'⟩ := probe_mirror P ad al ht fs _ _ _ _ _ _ _ _ hp hans wd1 e2
      rw [ht, hp']
      exact ⟨wd', rfl, hm'⟩


theorem mutationsDirEntry_mirror (P : Proc) (a : app) (ha : a.DryRun = false) (fs : FS)
    (fuel : Nat) (dcim name : String) (wl wl' : World) (r : Option GoError)
    (h : a.mutationsDirEntry P fuel dcim name wl = some (wl', r)) (hans : wl'.answersOf fs)
    (hok : ∀ e, r = some e → e.transferFailed = false) (wd : World) (hm : Mirror fs wd wl) :
    ∃ wd', a.dry.mutationsDirEntry P fuel dcim name wd = some (wd', r) ∧ Mirror fs wd' wl' := by
  have hL := liveStep_closed P
  have ht : a.dry.Target = a.Target := rfl
  rcases h1 : a.mutSrcTarget fuel (Join dcim name) "jpg" wl with _ | ⟨wl1, r1, e1⟩
  · simp [app.mutationsDirEntry, h1] at h
  have he1 := mutSrcTarget_err_none _ _ _ _ _ _ _ _ h1
  subst he1
  cases r1 with
  | some st =>
    simp only [app.mutationsDirEntry, h1, Option.some.injEq] at h
    have hstep : LiveStep wl1 wl' := by
      have := cpOrMv_closed hL a ha st.src st.target wl1
      rw [h] at this
      exact this
    obtain ⟨wd1, hd1, hm1⟩ := mutSrcTarget_mirror P a.dry a ht fs fuel _ _ _ _ _ _ h1
      (answersOf_of_liveStep hstep hans) wd hm
    have hc := cpOrMv_mirror P a ha fs st.src st.target wd1 wl1 hm1 (by
      rw [h]
      exact hok)
    rw [h] at hc
    refine ⟨(a.dry.cpOrMv P st.src st.target wd1).1, ?_, hc.2⟩
    simp only [app.mutationsDirEntry, hd1, Option.some.injEq]
    exact Prod.ext rfl hc.1
  | none =>
    simp only [app.mutationsDirEntry, h1] at h
    rcases h2 : a.mutSrcTarget fuel (Join dcim name) "mov" wl1 with _ | ⟨wl2, r2, e2⟩
    · simp [h2] at h
    have he2 := mutSrcTarget_err_none _ _ _ _ _ _ _ _ h2
    subst he2
    have hstep12 : LiveStep wl1 wl2 := mutSrcTarget_closed hL _ _ _ _ _ _ _ _ h2
    cases r2 with
    | some st =>
      simp only [h2, Option.some.injEq] at h
      have hstep : LiveStep wl2 wl' := by
        have := cpOrMv_closed hL a ha st.src st.target wl2
        rw [h] at this
        exact this
      have hans2 := answersOf_of_liveStep hstep hans
      obtain ⟨wd1, hd1, hm1⟩ := mutSrcTarget_mirror P a.dry a ht fs fuel _ _ _ _ _ _ h1
        (answersOf_of_liveStep hstep12 hans2) wd hm
      obtain ⟨wd2, hd2, hm2⟩ := mutSrcTarget_mirror P a.dry a ht fs fuel _ _ _ _ _ _ h2
        hans2 wd1 hm1
      have hc := cpOrMv_mirror P a ha fs st.src st.target wd2 wl2 hm2 (by
        rw [h]
        exact hok)
      rw [h] at hc
      refine ⟨(a.dry.cpOrMv P st.src st.target wd2).1, ?_, hc.2⟩
      simp only [app.mutationsDirEntry, hd1, hd2, Option.some.injEq]
      exact Prod.ext rfl hc.1
    | none =>
      simp only [h2, Option.some.injEq, Prod.mk.injEq] at h
      obtain ⟨h3, h4⟩ := h
      subst h3 h4
      obtain ⟨wd1, hd1, hm1⟩ := mutSrcTarget_mirror P a.dry a ht fs fuel _ _ _ _ _ _ h1
        (answersOf_of_liveStep hstep12 hans) wd hm
      obtain ⟨wd2, hd2, hm2⟩ := mutSrcTarget_mirror P a.dry a ht fs fuel _ _ _ _ _ _ h2
        hans wd1 hm1
      exact ⟨wd2, by simp only [app.mutationsDirEntry, hd1, hd2], hm2⟩

theorem mutationsDirLoop_mirror (P : Proc) (a : app) (ha : a.DryRun = false) (fs : FS)
    (fuel : Nat) (dcim : String) (names : List String) :
    ∀ (wl wl' : World) (r : Option GoError),
      a.mutationsDirLoop P fuel dcim names wl = some (wl', r) → wl'.answersOf fs →
      (∀ e, r = some e → e.transferFailed = false) → ∀ wd, Mirror fs wd wl →
      ∃ wd', a.dry.mutationsDirLoop P fuel dcim names wd = some (wd', r) ∧
        Mirror fs wd' wl' := by
  induction names with
  | nil =>
    intro wl wl' r h _ _ wd hm
    simp only [app.mutationsDirLoop, Option.some.injEq, Prod.mk.injEq] at h ⊢
    obtain ⟨h1, h2⟩ := h
    subst h1 h2
    exact ⟨wd, ⟨rfl, rfl⟩, hm⟩
  | cons name rest ih =>
    intro wl wl' r h hans hok wd hm
    rcases h1 : a.mutationsDirEntry P fuel dcim name wl with _ | ⟨wl1, r1⟩
    · simp [app.mutationsDirLoop, h1] at h
    cases r1 with
    | some e =>
      simp only [app.mutationsDirLoop, h1, Option.some.injEq, Prod.mk.injEq] at h
      obtain ⟨h2, h3⟩ := h
      subst h2 h3
      obtain ⟨wd1, hd1, hm1⟩ := mutationsDirEntry_mirror P a ha fs fuel dcim name _ _ _ h1
        hans hok wd hm
      exact ⟨wd1, by simp only [app.mutationsDirLoop, hd1], hm1⟩
    | none =>
      simp only [app.mutationsDirLoop, h1] at h
      have hstep := mutationsDirLoop_closed (liveStep_closed P) fuel a ha dcim rest _ _ _ h
      obtain ⟨wd1, hd1, hm1⟩ := mutationsDirEntry_mirror P a ha fs fuel dcim name _ _ _ h1
        (answersOf_of_liveStep hstep hans) (by simp) wd hm
      obtain ⟨wd2, hd2, hm2⟩ := ih _ _ _ h hans hok wd1 hm1
      exact ⟨wd2, by simp only [app.mutationsDirLoop, hd1, hd2], hm2⟩

theorem mutationsDir_mirror (P : Proc) (a : app) (ha : a.DryRun = false) (fs : FS)
    (fuel : Nat) (dcim : String) (wl wl' : World) (r : Option GoError)
    (h : a.mutationsDir P fuel dcim wl = some (wl', r)) (hans : wl'.answersOf fs)
    (hok : ∀ e, r = some e → e.transferFailed = false) (wd : World) (hm : Mirror fs wd wl) :
    ∃ wd', a.dry.mutationsDir P fuel dcim wd = some (wd', r) ∧ Mirror fs wd' wl' := by
  unfold app.mutationsDir at h ⊢
  rcases hl : osReaddir dcim wl with ⟨ll, wl1⟩
  rw [hl] at h
  have hans1 : (osReaddir dcim wl).2.answersOf fs := by
    rw [hl]
    cases ll with
    | fail e =>
      simp only [Option.some.injEq, Prod.mk.injEq] at h
      rw [h.1]
      exact hans
    | names ns =>
      simp only at h
      exact answersOf_of_liveStep
        (mutationsDirLoop_closed (liveStep_closed P) fuel a ha dcim ns _ _ _ h) hans
  have hs := osReaddir_mirror hm dcim hans1
  rw [hl] at hs
  rcases hd : osReaddir dcim wd with ⟨ld, wd1⟩
  rw [hd] at hs
  simp only at hs
  obtain ⟨e1, e2⟩ := hs
  subst e1
  cases ld with
  | fail e =>
    simp only [Option.some.injEq, Prod.mk.injEq] at h ⊢
    obtain ⟨h1, h2⟩ := h
    subst h1 h2
    exact ⟨wd1, ⟨rfl, rfl⟩, e2⟩
  | names ns =>
    simp only at h ⊢
    exact mutationsDirLoop_mirror P a ha fs fuel dcim ns _ _ _ h hans hok wd1 e2

theorem mutationsLoop_mirror (P : Proc) (a : app) (ha : a.DryRun = false) (fs : FS)
    (fuel : Nat) (dcim : String) (names : List String) :
    ∀ (wl wl' : World) (r : Option GoError),
      a.mutationsLoop P fuel dcim names wl = some (wl', r) → wl'.answersOf fs →
      (∀ e, r = some e → e.transferFailed = false) → ∀ wd, Mirror fs wd wl →
      ∃ wd', a.dry.mutationsLoop P fuel dcim names wd = some (wd', r) ∧ Mirror fs wd' wl' := by
  induction names with
  | nil =>
    intro wl wl' r h _ _ wd hm
    simp only [app.mutationsLoop, Option.some.injEq, Prod.mk.injEq] at h ⊢
    obtain ⟨h1, h2⟩ := h
    subst h1 h2
    exact ⟨wd, ⟨rfl, rfl⟩, hm⟩
  | cons name rest ih =>
    intro wl wl' r h hans hok wd hm
    by_cases happle : HasSuffix name "APPLE" = true
    · simp only [app.mutationsLoop, happle, Bool.not_true, Bool.false_eq_true, if_false] at h ⊢
      rcases h1 : a.mutationsDir P fuel (Join dcim name) wl with _ | ⟨wl1, r1⟩
      · simp [h1] at h
      cases r1 with
      | some e =>
        simp only [h1, Option.some.injEq, Prod.mk.injEq] at h
        obtain ⟨h2, h3⟩ := h
        subst h2 h3
        obtain ⟨wd1, hd1, hm1⟩ := mutationsDir_mirror P a ha fs fuel _ _ _ _ h1 hans hok wd hm
        exact ⟨wd1, by simp only [hd1], hm1⟩
      | none =>
        simp only [h1] at h
        have hstep := mutationsLoop_closed (liveStep_closed P) fuel a ha dcim rest _ _ _ h
        obtain ⟨wd1, hd1, hm1⟩ := mutationsDir_mirror P a ha fs fuel _ _ _ _ h1
          (answersOf_of_liveStep hstep hans) (by simp) wd hm
        obtain ⟨wd2, hd2, hm2⟩ := ih _ _ _ h hans hok wd1 hm1
        exact ⟨wd2, by simp only [hd1, hd2], hm2⟩
    · have hf : HasSuffix name "APPLE" = false := by simpa using happle
      simp only [app.mutationsLoop, hf, Bool.not_false, if_true] at h ⊢
      exact ih _ _ _ h hans hok wd hm

theorem mutations_mirror (P : Proc) (a : app) (ha : a.DryRun = false) (fs : FS)
    (fuel : Nat) (wl wl' : World) (r : Option GoError)
    (h : a.mutations P fuel wl = some (wl', r)) (hans : wl'.answersOf fs)
    (hok : ∀ e, r = some e → e.transferFailed = false) (wd : World) (hm : Mirror fs wd wl) :
    ∃ wd', a.dry.mutations P fuel wd = some (wd', r) ∧ Mirror fs wd' wl' := by
  have hmount : a.dry.Mount = a.Mount := rfl
  unfold app.mutations at h ⊢
  simp only [hmount] at h ⊢
  rcases hl : osReaddir (Join a.Mount "PhotoData/Mutations/DCIM") wl with ⟨ll, wl1⟩
  rw [hl] at h
  have hans1 : (osReaddir (Join a.Mount "PhotoData/Mutations/DCIM") wl).2.answersOf fs := by
    rw [hl]
    cases ll with
    | fail e =>
      simp only [Option.some.injEq, Prod.mk.injEq] at h
      rw [h.1]
      exact hans
    | names ns =>
      simp only at h
      exact answersOf_of_liveStep
        (mutationsLoop_closed (liveStep_closed P) fuel a ha _ ns _ _ _ h) hans
  have hs := osReaddir_mirror hm (Join a.Mount "PhotoData/Mutations/DCIM") hans1
  rw [hl] at hs
  rcases hd : osReaddir (Join a.Mount "PhotoData/Mutations/DCIM") wd with ⟨ld, wd1⟩
  rw [hd] at hs
  simp only at hs
  obtain ⟨e1, e2⟩ := hs
  subst e1
  cases ld with
  | fail e =>
    simp only [Option.some.injEq, Prod.mk.injEq] at h ⊢
    obtain ⟨h1, h2⟩ := h
    subst h1 h2
    exact ⟨wd1, ⟨rfl, rfl⟩, e2⟩
  | names ns =>
    simp only at h ⊢
    exact mutationsLoop_mirror P a ha fs fuel _ ns _ _ _ h hans hok wd1 e2


theorem run_closed {T : World → World → Prop} {P : Proc} {dry : Bool} (hc : Closed T P dry)
    (fuel : Nat) (a : app) (ha : a.DryRun = dry) (tree : Node) (w : World) (a' : app)
    (w' : World) (err : Option GoError) (h : a.run P fuel tree w = some (a', w', err)) :
    T w w' := by
  unfold app.run at h
  split at h
  · simp only [Option.some.injEq, Prod.mk.injEq] at h
    rw [← h.2.1]
    exact hc.refl w
  · simp only at h
    have ha2 : (if (!HasSuffix a.Target "/") = true then { a with Target := a.Target ++ "/" }
        else a).DryRun = dry := by
      split <;> exact ha
    have hd := dcim_closed hc _ ha2 tree w
    split at h
    · rename_i w1 e1 h1
      simp only [Option.some.injEq, Prod.mk.injEq] at h
      rw [h1] at hd
      rw [← h.2.1]
      exact hd
    · rename_i w1 h1
      rw [h1] at hd
      split at h
      · exact absurd h (by simp)
      · rename_i w2 err2 h2
        simp only [Option.some.injEq, Prod.mk.injEq] at h
        rw [← h.2.1]
        exact hc.trans hd (mutations_closed hc fuel _ ha2 _ _ _ h2)

theorem run_unfold (P : Proc) (fuel : Nat) (a : app) (tree : Node) (w : World) :
    a.run P fuel tree w =
      if a.Mount = "" ∨ a.Target = "" then some (a, w, some configError)
      else
        match a.normalized.dcim P tree w with
        | (w, some err) => some (a.normalized, w, some err)
        | (w, none) =>
          match a.normalized.mutations P fuel w with
          | none => none
          | some (w, err) => some (a.normalized, w, err) := rfl

theorem normalized_dry (a : app) : a.dry.normalized = a.normalized.dry := by
  unfold app.normalized
  have ht : a.dry.Target = a.Target := rfl
  rw [ht]
  split <;> rfl

theorem normalized_mode (a : app) : a.normalized.DryRun = a.DryRun := by
  unfold app.normalized
  split <;> rfl

theorem run_mirror (P : Proc) (a : app) (ha : a.DryRun = false) (fs : FS) (fuel : Nat)
    (tree : Node) (wl wl' : World) (al : app) (r : Option GoError)
    (h : a.run P fuel tree wl = some (al, wl', r)) (hans : wl'.answersOf fs)
    (hok : ∀ e, r = some e → e.transferFailed = false) (wd : World) (hm : Mirror fs wd wl) :
    ∃ wd', a.dry.run P fuel tree wd = some (al.dry, wd', r) ∧ Mirror fs wd' wl' := by
  have hcond : (a.dry.Mount = "" ∨ a.dry.Target = "") = (a.Mount = "" ∨ a.Target = "") := rfl
  rw [run_unfold] at h ⊢
  simp only [hcond]
  split at h
  · rename_i hcfg
    simp only [Option.some.injEq, Prod.mk.injEq] at h
    obtain ⟨h1, h2, h3⟩ := h
    subst h1 h2 h3
    rw [if_pos hcfg]
    exact ⟨wd, rfl, hm⟩
  · rename_i hcfg
    rw [if_neg hcfg, normalized_dry]
    have han : a.normalized.DryRun = false := by rw [normalized_mode, ha]
    generalize a.normalized = an at h han
    rcases h1 : an.dcim P tree wl with ⟨wl1, e1⟩
    rw [h1] at h
    cases e1 with
    | some e =>
      simp only [Option.some.injEq, Prod.mk.injEq] at h
      obtain ⟨h2, h3, h4⟩ := h
      subst h2 h3 h4
      have hd := dcim_mirror P an han fs tree wd wl hm (by rw [h1]; exact hok)
      rw [h1] at hd
      rcases hdd : an.dry.dcim P tree wd with ⟨wd1, ed⟩
      rw [hdd] at hd
      simp only at hd
      obtain ⟨e2, e3⟩ := hd
      subst e2
      exact ⟨wd1, rfl, e3⟩
    | none =>
      simp only at h
      rcases h2 : an.mutations P fuel wl1 with _ | ⟨wl2, r2⟩
      · simp [h2] at h
      simp only [h2, Option.some.injEq, Prod.mk.injEq] at h
      obtain ⟨h3, h4, h5⟩ := h
      subst h3 h4 h5
      have hd := dcim_mirror P an han fs tree wd wl hm (by rw [h1]; simp)
      rw [h1] at hd
      rcases hdd : an.dry.dcim P tree wd with ⟨wd1, ed⟩
      rw [hdd] at hd
      simp only at hd
      obtain ⟨e2, e3⟩ := hd
      subst e2
      obtain ⟨wd2, hm2, hmm⟩ := mutations_mirror P an han fs fuel _ _ _ h2 hans hok wd1 e3
      simp only [hm2]
      exact ⟨wd2, rfl, hmm⟩

theorem mirror_start (fs : FS) : Mirror fs (World.start fs) (World.start fs) :=
  ⟨rfl, rfl, rfl, rfl, rfl, rfl⟩


/-! ## The claims -/

/-- C2: `cpOrMv` makes exactly one call of `exec`; the command is `mv` in delete
mode and `cp` otherwise and the arguments are `--no-clobber`, the source and
the destination, so that one operation is requested, run (live) or printed
(dry run), whatever the flags. -/
theorem cpOrMv_one_no_clobber (P : Proc) (a : app) (src target : String) (w : World) :
    a.cpOrMv P src target w =
        a.exec P (if a.Delete then "mv" else "cp") ["--no-clobber", src, target] w ∧
      (a.cpOrMv P src target w).1.requested =
        w.requested ++ [(if a.Delete then "mv" else "cp", ["--no-clobber", src, target])] ∧
      (a.cpOrMv P src target w).1.procs =
        w.procs ++
          (if a.DryRun then []
           else [(if a.Delete then "mv" else "cp", ["--no-clobber", src, target])]) ∧
      (a.cpOrMv P src target w).1.stdout =
        w.stdout ++
          (if a.DryRun then
            reportLine (if a.Delete then "mv" else "cp") ["--no-clobber", src, target]
           else "") := by
  refine ⟨?_, ?_, ?_, ?_⟩
  · cases hd : a.Delete <;> simp [app.cpOrMv, hd]
  all_goals
    cases hd : a.Delete <;> cases hr : a.DryRun <;>
      simp only [app.cpOrMv, app.exec, hd, hr, if_true, if_false, Bool.false_eq_true] <;>
      (try split) <;> simp

/-- C1, as the code has it: for an asset folder with a plain base name whose
render can be examined (`os.Stat` on it succeeds), `mutSrcTarget` returns
(given fuel beyond the number of entries of the target directory) the first
name of the sequence `N.EXT`, `N-v1.EXT`, `N-v2.EXT`, ... on which `os.Stat`
does not succeed, be the name absent or unexaminable: `os.Stat` fails on the
returned name and succeeds on all earlier names of the sequence. -/
theorem mutSrcTarget_first_failed_check (fuel : Nat) (a : app) (dir ext : String) (w : World)
    (hN : isPlain (Base dir) = true) (hext : validExt ext = true)
    (hsrc : w.fs.stat (renderOf dir ext) = none)
    (hfuel : (w.fs.destEntries a.Target).length < fuel) :
    ∃ n w', a.mutSrcTarget fuel dir ext w =
        some (w', some { src := renderOf dir ext,
                         target := Join a.Target (candName (Base dir) ext n) }, none) ∧
      w.fs.stat (Join a.Target (candName (Base dir) ext n)) ≠ none ∧
      (∀ m, m < n → w.fs.stat (Join a.Target (candName (Base dir) ext m)) = none) ∧
      w'.fs = w.fs := by
  obtain ⟨n, _, hfree, hocc, heq⟩ :=
    mutSrcTarget_present fuel a dir ext w hN (ToUpper_noslash hext) hsrc hfuel
  exact ⟨n, _, heq, hfree, hocc, rfl⟩

/-- C1, witness: with `Foo.JPG` and `Foo-v1.JPG` in the target. -/
theorem mutSrcTarget_first_failed_check_witness :
    isPlain (Base exFoo) = true ∧ validExt "jpg" = true ∧
      exWorldTwo.fs.stat (renderOf exFoo "jpg") = none ∧
      (exWorldTwo.fs.destEntries exApp.Target).length < 3 ∧
      ∃ n w', exApp.mutSrcTarget 3 exFoo "jpg" exWorldTwo =
          some (w', some { src := renderOf exFoo "jpg",
                           target := Join exApp.Target (candName (Base exFoo) "jpg" n) }, none) ∧
        exWorldTwo.fs.stat (Join exApp.Target (candName (Base exFoo) "jpg" n)) ≠ none ∧
        (∀ m, m < n →
          exWorldTwo.fs.stat (Join exApp.Target (candName (Base exFoo) "jpg" m)) = none) ∧
        w'.fs = exWorldTwo.fs :=
  ⟨by decide, by decide, by decide, by decide,
    mutSrcTarget_first_failed_check 3 exApp exFoo "jpg" exWorldTwo (by decide) (by decide)
      (by decide) (by decide)⟩

/-- C1, counterexample: the target directory lists `Foo.JPG` but `os.Stat` on it
fails with permission denied, and `mutSrcTarget` returns the occupied name
`Foo.JPG` as the target, not `Foo-v1.JPG`; and a render that is listed in its
folder but fails `os.Stat` with permission denied gives no target at all. -/
theorem mutSrcTarget_returns_occupied_name :
    exWorldOccupiedDenied.fs.stat (renderOf exFoo "jpg") = none ∧
      exWorldOccupiedDenied.fs.readdir "/out" = Listing.names ["Foo.JPG"] ∧
      exWorldOccupiedDenied.fs.stat "/out/Foo.JPG" = some OsError.permission ∧
      (exApp.mutSrcTarget 3 exFoo "jpg" exWorldOccupiedDenied).map (fun r => r.2) =
        some (some { src := renderOf exFoo "jpg", target := "/out/Foo.JPG" }, none) ∧
      exWorldRenderDenied.fs.readdir (Join exFoo "Adjustments") =
        Listing.names ["FullSizeRender.jpg"] ∧
      renderOf exFoo "jpg" = Join (Join exFoo "Adjustments") "FullSizeRender.jpg" ∧
      exWorldRenderDenied.fs.stat (renderOf exFoo "jpg") = some OsError.permission ∧
      (exApp.mutSrcTarget 3 exFoo "jpg" exWorldRenderDenied).map (fun r => r.2) =
        some (none, none) := by
  decide

/-- The collision sequence of the specification: `Foo.JPG` taken gives
`Foo-v1.JPG`, `Foo.JPG` and `Foo-v1.JPG` taken give `Foo-v2.JPG`. -/
theorem mutSrcTarget_collision_sequence :
    (exApp.mutSrcTarget 3 exFoo "jpg" exWorldOne).map (fun r => r.2.1) =
        some (some { src := renderOf exFoo "jpg", target := "/out/Foo-v1.JPG" }) ∧
      (exApp.mutSrcTarget 3 exFoo "jpg" exWorldTwo).map (fun r => r.2.1) =
        some (some { src := renderOf exFoo "jpg", target := "/out/Foo-v2.JPG" }) := by
  decide

/-- C10: the names the loop of `mutSrcTarget` probes are the first names of the
sequence `N.EXT`, `N-v1.EXT`, ... in order, they are pairwise distinct, and
with `k` entries in the target directory the loop stops after at most `k + 1`
probes (fuel `k + 1` is enough). -/
theorem probe_stops_within_entries (fuel : Nat) (a : app) (dir ext : String) (w : World)
    (hN : isPlain (Base dir) = true) (hext : validExt ext = true)
    (hsrc : w.fs.stat (renderOf dir ext) = none)
    (hfuel : (w.fs.destEntries a.Target).length + 1 ≤ fuel) :
    ∃ n w' r, a.mutSrcTarget fuel dir ext w = some (w', r, none) ∧
      w'.stats.map Prod.fst = w.stats.map Prod.fst ++ renderOf dir ext ::
        (List.range (n + 1)).map (fun i => Join a.Target (candName (Base dir) ext i)) ∧
      ((List.range (n + 1)).map (fun i => Join a.Target (candName (Base dir) ext i))).Nodup ∧
      n + 1 ≤ (w.fs.destEntries a.Target).length + 1 := by
  have he := ToUpper_noslash hext
  obtain ⟨n, hle, _, _, heq⟩ := mutSrcTarget_present fuel a dir ext w hN he hsrc (by omega)
  refine ⟨n, _, _, heq, ?_, ?_, by omega⟩
  · simp [World.probed, app.cand, Function.comp]
  exact List.Nodup.map (fun i j hij => cand_injective a hN he hij) (List.nodup_range _)

/-- C10, witness: two entries in the target, fuel three. -/
theorem probe_stops_within_entries_witness :
    isPlain (Base exFoo) = true ∧ validExt "jpg" = true ∧
      exWorldTwo.fs.stat (renderOf exFoo "jpg") = none ∧
      (exWorldTwo.fs.destEntries exApp.Target).length + 1 ≤ 3 ∧
      ∃ n w' r, exApp.mutSrcTarget 3 exFoo "jpg" exWorldTwo = some (w', r, none) ∧
        w'.stats.map Prod.fst = exWorldTwo.stats.map Prod.fst ++ renderOf exFoo "jpg" ::
          (List.range (n + 1)).map (fun i => Join exApp.Target (candName (Base exFoo) "jpg" i)) ∧
        ((List.range (n + 1)).map
          (fun i => Join exApp.Target (candName (Base exFoo) "jpg" i))).Nodup ∧
        n + 1 ≤ (exWorldTwo.fs.destEntries exApp.Target).length + 1 :=
  ⟨by decide, by decide, by decide, by decide,
    probe_stops_within_entries 3 exApp exFoo "jpg" exWorldTwo (by decide) (by decide)
      (by decide) (by decide)⟩


/-- C8, as the code has it: a failed existence check is never reported.  Whatever
the error of `os.Stat` on the render (file not found or any other), the result
is no candidate and no error; whatever its error on a destination name, that
name is taken as unoccupied and returned; and no call of `mutSrcTarget`
returns an error. -/
theorem mutSrcTarget_reports_no_error (fuel : Nat) (a : app) (dir ext : String) (w : World) :
    (∀ e, w.fs.stat (renderOf dir ext) = some e →
        a.mutSrcTarget fuel dir ext w = some (w.probed [renderOf dir ext], none, none)) ∧
      (∀ e name i target, w.fs.stat target = some e →
        a.probe name ext (fuel + 1) i target w = some (target, w.probed [target])) ∧
      (∀ w' r err, a.mutSrcTarget fuel dir ext w = some (w', r, err) → err = none) := by
  refine ⟨fun e h => mutSrcTarget_absent fuel a dir ext w e h, ?_,
    fun w' r err h => mutSrcTarget_err_none fuel a dir ext w w' r err h⟩
  intro e name i target h
  rw [probe_succ, h]

/-- C8, witness: the render cannot be examined, permission denied. -/
theorem mutSrcTarget_reports_no_error_witness :
    exWorldDenied.fs.stat (renderOf exFoo "jpg") = some OsError.permission ∧
      exApp.mutSrcTarget 3 exFoo "jpg" exWorldDenied =
        some (exWorldDenied.probed [renderOf exFoo "jpg"], none, none) :=
  ⟨by decide,
    (mutSrcTarget_reports_no_error 3 exApp exFoo "jpg" exWorldDenied).1 OsError.permission
      (by decide)⟩

/-- C8, counterexample: `os.Stat` fails with permission denied, first on the
render, then on the destination name, and `mutSrcTarget` returns no error in
either case: no candidate in the first, the unexaminable name as the target in
the second. -/
theorem mutSrcTarget_hides_permission_error :
    exWorldDenied.fs.stat (renderOf exFoo "jpg") = some OsError.permission ∧
      (exApp.mutSrcTarget 3 exFoo "jpg" exWorldDenied).map (fun r => r.2) =
        some (none, none) ∧
      exWorldTargetDenied.fs.stat "/out/Foo.JPG" = some OsError.permission ∧
      (exApp.mutSrcTarget 3 exFoo "jpg" exWorldTargetDenied).map (fun r => r.2) =
        some (some { src := renderOf exFoo "jpg", target := "/out/Foo.JPG" }, none) := by
  decide

/-- C9: with an empty mount or target `run` returns the configuration error and
nothing else happens: the world (commands, probes, directory reads, output)
and the configuration are returned as they were; with both set `run` never
returns that error. -/
theorem run_rejects_missing_paths (P : Proc) (fuel : Nat) (a : app) (tree : Node) (w : World) :
    (a.Mount = "" ∨ a.Target = "" → a.run P fuel tree w = some (a, w, some configError)) ∧
      (a.Mount ≠ "" → a.Target ≠ "" → ∀ a' w' err,
        a.run P fuel tree w = some (a', w', err) → err ≠ some configError) := by
  constructor
  · intro h
    unfold app.run
    rw [if_pos h]
    rfl
  · intro hm ht a' w' err h herr
    subst herr
    unfold app.run at h
    rw [if_neg (by simp [hm, ht])] at h
    simp only at h
    split at h
    · rename_i w1 e1 h1
      simp only [Option.some.injEq, Prod.mk.injEq] at h
      have := dcim_wrapped P _ tree w w1 e1 h1
      rw [h.2.2] at this
      exact absurd this (by decide)
    · split at h
      · exact absurd h (by simp)
      · rename_i w1 h1 w2 err2 h2
        simp only [Option.some.injEq, Prod.mk.injEq] at h
        obtain ⟨_, h3, h4⟩ := h
        subst h4
        have := mutations_wrapped P fuel _ _ _ _ h2
        exact absurd this (by decide)

/-- C9, witness: no target gives the configuration error in an untouched world;
mount and target set give another outcome. -/
theorem run_rejects_missing_paths_witness :
    (exAppNoTarget.Mount = "" ∨ exAppNoTarget.Target = "") ∧
      exAppNoTarget.run coreutils 3 exEmptyTree (worldOf []) =
        some (exAppNoTarget, worldOf [], some configError) ∧
      exApp.Mount ≠ "" ∧ exApp.Target ≠ "" ∧
      exApp.run coreutils 3 exEmptyTree (worldOf []) =
        some (exApp,
          (osReaddir "/mnt/PhotoData/Mutations/DCIM" ((worldOf []).reading "/mnt/DCIM")).2,
          some (GoError.withStack (GoError.os OsError.notExist))) ∧
      some (GoError.withStack (GoError.os OsError.notExist)) ≠ some configError :=
  ⟨Or.inr rfl,
    (run_rejects_missing_paths coreutils 3 exAppNoTarget exEmptyTree (worldOf [])).1 (Or.inr rfl),
    by decide, by decide, by decide,
    (run_rejects_missing_paths coreutils 3 exApp exEmptyTree (worldOf [])).2 (by decide)
      (by decide) exApp
      (osReaddir "/mnt/PhotoData/Mutations/DCIM" ((worldOf []).reading "/mnt/DCIM")).2
      (some (GoError.withStack (GoError.os OsError.notExist))) (by decide)⟩

/-- C6, as the code has it: for an asset folder with a plain name (and fuel
beyond the number of entries of the target directory) the body of the loop of
`mutationsDir` returns, having requested at most one transfer.  If `os.Stat`
succeeds on the jpg render, the one transfer has it as source and a
destination ending in `.JPG`, and the mov render is not even probed; if
`os.Stat` fails on the jpg render, for whatever reason, and succeeds on the mov
render, the one transfer has the mov render as source; if it fails on both,
nothing is requested and no error is returned. -/
theorem mutationsDirEntry_photo_before_video (P : Proc) (fuel : Nat) (a : app)
    (dcim name : String) (w : World) (hname : isPlain name = true)
    (hfuel : (w.fs.destEntries a.Target).length < fuel) :
    ∃ w' err, a.mutationsDirEntry P fuel dcim name w = some (w', err) ∧
      w'.requested.length ≤ w.requested.length + 1 ∧
      (w.fs.stat (renderOf (Join dcim name) "jpg") = none →
        (∃ n, w'.requested = w.requested ++
            [a.transfer (renderOf (Join dcim name) "jpg") (Join a.Target (candName name "jpg" n))] ∧
          HasSuffix (Join a.Target (candName name "jpg" n)) ".JPG" = true) ∧
        renderOf (Join dcim name) "mov" ∉ (w'.stats.drop w.stats.length).map Prod.fst) ∧
      (w.fs.stat (renderOf (Join dcim name) "jpg") ≠ none →
        w.fs.stat (renderOf (Join dcim name) "mov") = none →
        ∃ n, w'.requested = w.requested ++
          [a.transfer (renderOf (Join dcim name) "mov") (Join a.Target (candName name "mov" n))]) ∧
      (w.fs.stat (renderOf (Join dcim name) "jpg") ≠ none →
        w.fs.stat (renderOf (Join dcim name) "mov") ≠ none →
        w'.requested = w.requested ∧ err = none) := by
  have hb : Base (Join dcim name) = name := Base_Join dcim hname
  have hj : '/' ∉ (ToUpper "jpg").data := by decide
  have hm : '/' ∉ (ToUpper "mov").data := by decide
  cases hsj : w.fs.stat (renderOf (Join dcim name) "jpg") with
  | none =>
    obtain ⟨n, _, _, _, heq⟩ :=
      mutSrcTarget_present fuel a (Join dcim name) "jpg" w (by rw [hb]; exact hname) hj hsj hfuel
    rw [hb] at heq
    refine ⟨(a.cpOrMv P (renderOf (Join dcim name) "jpg") (a.cand name "jpg" n)
        (w.probed (renderOf (Join dcim name) "jpg" ::
          (List.range (n + 1)).map (a.cand name "jpg")))).1,
      (a.cpOrMv P (renderOf (Join dcim name) "jpg") (a.cand name "jpg" n)
        (w.probed (renderOf (Join dcim name) "jpg" ::
          (List.range (n + 1)).map (a.cand name "jpg")))).2,
      by simp only [app.mutationsDirEntry, heq], ?_, ?_, ?_, ?_⟩
    · simp [cpOrMv_requested, World.probed]
    · intro _
      refine ⟨⟨n, by simp [cpOrMv_requested, World.probed, app.cand], ?_⟩, ?_⟩
      · exact cand_jpg_suffix a hname n
      · rw [(cpOrMv_stats _ _ _ _ _).1]
        simp only [World.probed, List.drop_left, List.map_map, List.map_cons, List.mem_cons,
          List.mem_map, not_or, not_exists, not_and, Function.comp]
        refine ⟨render_mov_ne_jpg _, ?_⟩
        intro i _ hh
        exact render_mov_ne_cand a _ hname i hh.symm
    · intro h
      exact absurd rfl h
    · intro h
      exact absurd rfl h
  | some e =>
    have h1 := mutSrcTarget_absent fuel a (Join dcim name) "jpg" w e hsj
    cases hsm : w.fs.stat (renderOf (Join dcim name) "mov") with
    | none =>
      obtain ⟨n, _, _, _, heq⟩ :=
        mutSrcTarget_present fuel a (Join dcim name) "mov"
          (w.probed [renderOf (Join dcim name) "jpg"]) (by rw [hb]; exact hname) hm hsm hfuel
      rw [hb] at heq
      refine ⟨(a.cpOrMv P (renderOf (Join dcim name) "mov") (a.cand name "mov" n)
          ((w.probed [renderOf (Join dcim name) "jpg"]).probed (renderOf (Join dcim name) "mov" ::
            (List.range (n + 1)).map (a.cand name "mov")))).1,
        (a.cpOrMv P (renderOf (Join dcim name) "mov") (a.cand name "mov" n)
          ((w.probed [renderOf (Join dcim name) "jpg"]).probed (renderOf (Join dcim name) "mov" ::
            (List.range (n + 1)).map (a.cand name "mov")))).2,
        by simp only [app.mutationsDirEntry, h1, heq], ?_, ?_, ?_, ?_⟩
      · simp [cpOrMv_requested, World.probed]
      · intro h
        exact absurd h (by simp)
      · intro _ _
        exact ⟨n, by simp [cpOrMv_requested, World.probed, app.cand]⟩
      · intro _ h
        exact absurd rfl h
    | some e2 =>
      have h2 := mutSrcTarget_absent fuel a (Join dcim name) "mov"
        (w.probed [renderOf (Join dcim name) "jpg"]) e2 hsm
      refine ⟨(w.probed [renderOf (Join dcim name) "jpg"]).probed
          [renderOf (Join dcim name) "mov"], none,
        by simp only [app.mutationsDirEntry, h1, h2], ?_, ?_, ?_, ?_⟩
      · simp [World.probed]
      · intro h
        exact absurd h (by simp)
      · intro _ h
        exact absurd h (by simp)
      · intro _ _
        exact ⟨rfl, rfl⟩

/-- C6, witness: the folder `Foo` with a jpg render, the target holding
`Foo.JPG` and `Foo-v1.JPG`. -/
theorem mutationsDirEntry_photo_before_video_witness :
    isPlain "Foo" = true ∧ (exWorldTwo.fs.destEntries exApp.Target).length < 3 ∧
      ∃ w' err, exApp.mutationsDirEntry coreutils 3 exAssets "Foo" exWorldTwo = some (w', err) ∧
        w'.requested.length ≤ exWorldTwo.requested.length + 1 ∧
        (exWorldTwo.fs.stat (renderOf (Join exAssets "Foo") "jpg") = none →
          (∃ n, w'.requested = exWorldTwo.requested ++
              [exApp.transfer (renderOf (Join exAssets "Foo") "jpg")
                (Join exApp.Target (candName "Foo" "jpg" n))] ∧
            HasSuffix (Join exApp.Target (candName "Foo" "jpg" n)) ".JPG" = true) ∧
          renderOf (Join exAssets "Foo") "mov" ∉
            (w'.stats.drop exWorldTwo.stats.length).map Prod.fst) ∧
        (exWorldTwo.fs.stat (renderOf (Join exAssets "Foo") "jpg") ≠ none →
          exWorldTwo.fs.stat (renderOf (Join exAssets "Foo") "mov") = none →
          ∃ n, w'.requested = exWorldTwo.requested ++
            [exApp.transfer (renderOf (Join exAssets "Foo") "mov")
              (Join exApp.Target (candName "Foo" "mov" n))]) ∧
        (exWorldTwo.fs.stat (renderOf (Join exAssets "Foo") "jpg") ≠ none →
          exWorldTwo.fs.stat (renderOf (Join exAssets "Foo") "mov") ≠ none →
          w'.requested = exWorldTwo.requested ∧ err = none) :=
  ⟨by decide, by decide,
    mutationsDirEntry_photo_before_video coreutils 3 exApp exAssets "Foo" exWorldTwo (by decide)
      (by decide)⟩

/-- C6, counterexample: a rendered photo that is there but cannot be examined
does not take precedence.  When `os.Stat` fails with permission denied below
`Adjustments`, the listed photo render is passed over, the video render is
probed and nothing is requested; when `os.Stat` fails on the listed photo
render with an input/output error and the video render is there, the video is
probed and is the one transfer. -/
theorem mutationsDirEntry_passes_over_photo :
    Join exAssets "Foo" = exFoo ∧
      exWorldRenderDenied.fs.readdir (Join exFoo "Adjustments") =
        Listing.names ["FullSizeRender.jpg"] ∧
      renderOf exFoo "jpg" = Join (Join exFoo "Adjustments") "FullSizeRender.jpg" ∧
      exWorldRenderDenied.fs.stat (renderOf exFoo "jpg") = some OsError.permission ∧
      (exApp.mutationsDirEntry coreutils 3 exAssets "Foo" exWorldRenderDenied).map
          (fun r => (r.1.requested, r.1.stats.map Prod.fst, r.2)) =
        some ([], [renderOf exFoo "jpg", renderOf exFoo "mov"], none) ∧
      exWorldRenderIo.fs.readdir (Join exFoo "Adjustments") =
        Listing.names ["FullSizeRender.jpg", "FullSizeRender.mov"] ∧
      exWorldRenderIo.fs.stat (renderOf exFoo "jpg") = some OsError.io ∧
      (exApp.mutationsDirEntry coreutils 3 exAssets "Foo" exWorldRenderIo).map
          (fun r => (r.1.requested, r.1.stats.map Prod.fst)) =
        some ([("cp", ["--no-clobber", renderOf exFoo "mov", "/out/Foo.MOV"])],
          [renderOf exFoo "jpg", renderOf exFoo "mov", "/out/Foo.MOV"]) := by
  decide

/-- C3: in a tree with plain, distinct names, let `D` be a directory below the
root `{mount}/DCIM` (at any depth) whose name does not end in `APPLE`.  Then no
entry below `D`, at any depth, is the source of a transfer that the primary
scan requests, whether the scan completes or stops on an error. -/
theorem dcim_prunes_other_directories (P : Proc) (a : app) (es : List (String × Node))
    (w : World) (hwf : wfEntries es = true) {pD nD : String} {esD : List (String × Node)}
    {q n : String} {node : Node}
    (hD : Under (Join a.Mount "DCIM") es pD nD (Node.dir esD))
    (hnD : HasSuffix nD "APPLE" = false) (hq : Under pD esD q n node) :
    ∀ r ∈ (a.dcim P (Node.dir es) w).1.requested.drop w.requested.length,
      sourceOf r ≠ some q := by
  intro r hr hsrc
  obtain ⟨L, hpre, hreq, _⟩ := dcim_new_requests P a (Node.dir es) w (by simpa [Node.wf] using hwf)
  rw [hreq] at hr
  obtain ⟨s, hs, rfl⟩ := List.mem_map.1 hr
  rw [sourceOf_primaryTransfer] at hsrc
  simp only [Option.some.injEq] at hsrc
  subst hsrc
  have hroot := rootPath_dirPath a
  obtain ⟨_, hwfD, hpD, _⟩ := under_props hD hwf hroot
  obtain ⟨_, _, _, hbelow⟩ := under_props hq (by simpa [Node.wf] using hwfD) hpD
  have hv : s ∈ visitedIn (Join a.Mount "DCIM") es := by
    have := hpre.subset hs
    simpa [visitedFrom] using this
  exact pruned_not_visited hD hnD hwf hroot s (Or.inr hbelow) hv

/-- C3, witness: the scenario of the specification.  `IMG_1.JPG` of `100APPLE`
is the one transfer, `Spotlight` is reported as skipped and `cache.db` is never
a source. -/
theorem dcim_prunes_other_directories_witness :
    wfEntries exEntries = true ∧ HasSuffix "Spotlight" "APPLE" = false ∧
      (exApp.dcim coreutils (Node.dir exEntries) (worldOf [])).1.requested =
        [("cp", ["--no-clobber", "/mnt/DCIM/100APPLE/IMG_1.JPG", "/out/IMG_1.JPG"])] ∧
      (exApp.dcim coreutils (Node.dir exEntries) (worldOf [])).1.stderr =
        "Skipping: /mnt/DCIM/Spotlight\n" ∧
      ∀ r ∈ (exApp.dcim coreutils (Node.dir exEntries) (worldOf [])).1.requested.drop
          (worldOf []).requested.length,
        sourceOf r ≠ some (Join (Join (Join exApp.Mount "DCIM") "Spotlight") "cache.db") :=
  ⟨by decide, by decide, by decide, by decide,
    dcim_prunes_other_directories coreutils exApp exEntries (worldOf []) (by decide)
      (Under.direct (List.Mem.tail _ (List.Mem.head _))) (by decide)
      (Under.direct (List.Mem.head _))⟩

/-- C4, as the code has it: in a scan without error of a tree with plain,
distinct names, every directory that is the root or is reached from the root
through directories whose names all end in `APPLE` (its own name included) is
entered: for each file directly inside it the transfer into the target is
among the requests of the scan. -/
theorem dcim_enters_apple_chain (P : Proc) (a : app) (es : List (String × Node)) (w : World)
    (hwf : wfEntries es = true) (hok : (a.dcim P (Node.dir es) w).2 = none)
    {q : String} {esq : List (String × Node)} {n : String}
    (hdesc : Descends (Join a.Mount "DCIM") es q esq) (hfile : (n, Node.file) ∈ esq) :
    a.transfer (Join q n) (Join a.Target n) ∈
      (a.dcim P (Node.dir es) w).1.requested.drop w.requested.length := by
  obtain ⟨L, _, hreq, hfull⟩ := dcim_new_requests P a (Node.dir es) w (by simpa [Node.wf] using hwf)
  rw [hreq, hfull hok]
  obtain ⟨hwfq, _⟩ := descends_props hdesc hwf (rootPath_dirPath a)
  have hn := (wf_mem hwfq hfile).1
  have hmem : Join q n ∈ visitedFrom (Join a.Mount "DCIM") (Node.dir es) := by
    simpa [visitedFrom] using descends_visited hdesc hfile
  have := List.mem_map_of_mem a.primaryTransfer hmem
  simpa [app.primaryTransfer, Base_Join q hn] using this

/-- C4, witness: `100APPLE` directly below the root. -/
theorem dcim_enters_apple_chain_witness :
    wfEntries exEntries = true ∧
      (exApp.dcim coreutils (Node.dir exEntries) (worldOf [])).2 = none ∧
      HasSuffix "100APPLE" "APPLE" = true ∧
      exApp.transfer (Join (Join (Join exApp.Mount "DCIM") "100APPLE") "IMG_1.JPG")
          (Join exApp.Target "IMG_1.JPG") ∈
        (exApp.dcim coreutils (Node.dir exEntries) (worldOf [])).1.requested.drop
          (worldOf []).requested.length :=
  ⟨by decide, by decide, by decide,
    dcim_enters_apple_chain coreutils exApp exEntries (worldOf []) (by decide) (by decide)
      (Descends.step (List.Mem.head _) (by decide) Descends.refl) (List.Mem.head _)⟩

/-- C4, counterexample: `Spotlight/100APPLE` is a directory under the root
whose name ends in `APPLE`; the scan ends without error and requests nothing,
so the file `IMG_1.JPG` inside that directory is not transferred. -/
theorem dcim_misses_apple_below_pruned :
    Under (Join exApp.Mount "DCIM") exNested
        (Join (Join (Join exApp.Mount "DCIM") "Spotlight") "100APPLE") "100APPLE"
        (Node.dir [("IMG_1.JPG", Node.file)]) ∧
      HasSuffix "100APPLE" "APPLE" = true ∧
      (exApp.dcim coreutils (Node.dir exNested) (worldOf [])).2 = none ∧
      (exApp.dcim coreutils (Node.dir exNested) (worldOf [])).1.requested = [] ∧
      (exApp.dcim coreutils (Node.dir exNested) (worldOf [])).1.stderr =
        "Skipping: /mnt/DCIM/Spotlight\n" :=
  ⟨Under.deeper (List.Mem.head _) (Under.direct (List.Mem.head _)), by decide, by decide,
    by decide, by decide⟩

/-- C5: in a scan without error of a tree with plain, distinct names, for every
file directly inside a directory that the scan enters, exactly one of the
requested transfers has that file as source; it is the transfer to the target
joined with the file name, a path whose base name is the base name of the
source and whose directory is the (cleaned) target itself. -/
theorem dcim_one_transfer_per_file (P : Proc) (a : app) (es : List (String × Node)) (w : World)
    (hwf : wfEntries es = true) (hok : (a.dcim P (Node.dir es) w).2 = none)
    {q : String} {esq : List (String × Node)} {n : String}
    (hdesc : Descends (Join a.Mount "DCIM") es q esq) (hfile : (n, Node.file) ∈ esq) :
    ((a.dcim P (Node.dir es) w).1.requested.drop w.requested.length).filter
        (fun r => sourceOf r = some (Join q n)) =
        [a.transfer (Join q n) (Join a.Target n)] ∧
      Base (Join q n) = n ∧ Base (Join a.Target n) = n ∧ Dir (Join a.Target n) = Clean a.Target := by
  obtain ⟨L, _, hreq, hfull⟩ := dcim_new_requests P a (Node.dir es) w (by simpa [Node.wf] using hwf)
  obtain ⟨hwfq, _⟩ := descends_props hdesc hwf (rootPath_dirPath a)
  have hn := (wf_mem hwfq hfile).1
  have hmem : Join q n ∈ visitedIn (Join a.Mount "DCIM") es := descends_visited hdesc hfile
  have hnd := visited_nodup.2 (Join a.Mount "DCIM") es hwf (rootPath_dirPath a)
  refine ⟨?_, Base_Join q hn, Base_Join a.Target hn, Dir_Join a.Target hn⟩
  rw [hreq, hfull hok]
  simp only [visitedFrom]
  rw [filter_source_of_nodup a hnd hmem]
  simp [app.primaryTransfer, Base_Join q hn]

/-- C5, witness: `IMG_1.JPG` of `100APPLE` in the scenario of the
specification. -/
theorem dcim_one_transfer_per_file_witness :
    wfEntries exEntries = true ∧
      (exApp.dcim coreutils (Node.dir exEntries) (worldOf [])).2 = none ∧
      ((exApp.dcim coreutils (Node.dir exEntries) (worldOf [])).1.requested.drop
          (worldOf []).requested.length).filter
        (fun r => sourceOf r =
          some (Join (Join (Join exApp.Mount "DCIM") "100APPLE") "IMG_1.JPG")) =
        [exApp.transfer (Join (Join (Join exApp.Mount "DCIM") "100APPLE") "IMG_1.JPG")
          (Join exApp.Target "IMG_1.JPG")] ∧
      Base (Join (Join (Join exApp.Mount "DCIM") "100APPLE") "IMG_1.JPG") = "IMG_1.JPG" ∧
      Base (Join exApp.Target "IMG_1.JPG") = "IMG_1.JPG" ∧
      Dir (Join exApp.Target "IMG_1.JPG") = Clean exApp.Target :=
  ⟨by decide, by decide,
    dcim_one_transfer_per_file coreutils exApp exEntries (worldOf []) (by decide) (by decide)
      (Descends.step (List.Mem.head _) (by decide) Descends.refl) (List.Mem.head _)⟩


/-- C7, as the code has it.  From a world with filesystem `fs` in which nothing
has been done yet: a dry run that returns has left the filesystem as it was,
has run no command, and has printed exactly the report of the operations it
requested, in order.  And whenever a live run with the same configuration
returns without a failed transfer and every `os.Stat` and directory read it
made got the answer of `fs`, it has run exactly the operations it requested,
and the dry run returns with the same error, having requested and reported
exactly the operations the live run ran, in the same order. -/
theorem dry_run_mirrors_undisturbed_live (P : Proc) (fuel : Nat) (a : app) (tree : Node)
    (fs : FS) :
    (∀ ad wd errd, a.dry.run P fuel tree (World.start fs) = some (ad, wd, errd) →
        wd.fs = fs ∧ wd.procs = [] ∧ wd.stdout = report wd.requested) ∧
      (∀ al wl errl, a.live.run P fuel tree (World.start fs) = some (al, wl, errl) →
        (∀ e, errl = some e → e.transferFailed = false) → wl.answersOf fs →
        wl.procs = wl.requested ∧
          ∃ ad wd, a.dry.run P fuel tree (World.start fs) = some (ad, wd, errl) ∧
            wd.requested = wl.procs ∧ wd.stdout = report wl.procs) := by
  have hdry : ∀ ad wd errd, a.dry.run P fuel tree (World.start fs) = some (ad, wd, errd) →
      wd.fs = fs ∧ wd.procs = [] ∧ wd.stdout = report wd.requested := by
    intro ad wd errd h
    obtain ⟨h1, h2, new, h3, h4⟩ := run_closed (dryStep_closed P) fuel a.dry rfl tree _ _ _ _ h
    refine ⟨h1, h2, ?_⟩
    rw [h4, h3]
    simp [World.start]
  refine ⟨hdry, ?_⟩
  intro al wl errl h hok hans
  obtain ⟨_, _, _, new, h3, h4⟩ := run_closed (liveStep_closed P) fuel a.live rfl tree _ _ _ _ h
  have hpr : wl.procs = wl.requested := by
    rw [h3, h4]
    simp [World.start]
  obtain ⟨wd, hd, hm⟩ := run_mirror P a.live rfl fs fuel tree _ _ _ _ h hans hok _
    (mirror_start fs)
  have hd2 : a.dry.run P fuel tree (World.start fs) = some (al.dry, wd, errl) := hd
  obtain ⟨_, _, hout⟩ := hdry _ _ _ hd2
  refine ⟨hpr, al.dry, wd, hd2, ?_, ?_⟩
  · rw [hpr]
    exact hm.2.1
  · rw [hout, hpr, hm.2.1]

/-- C7, witness: the scenario of the specification with the edited asset
`Foo`; the live run creates `/out/IMG_1.JPG` and `/out/Foo.JPG`, and none of
its probes is disturbed by that. -/
theorem dry_run_mirrors_undisturbed_live_witness :
    exApp.live.run coreutils 3 (Node.dir exEntries) (World.start (exFsWith "Foo")) =
        some (exApp, exLiveWorld, none) ∧
      exLiveWorld.procs =
        [("cp", ["--no-clobber", "/mnt/DCIM/100APPLE/IMG_1.JPG", "/out/IMG_1.JPG"]),
         ("cp", ["--no-clobber",
            "/mnt/PhotoData/Mutations/DCIM/100APPLE/Foo/Adjustments/FullSizeRender.jpg",
            "/out/Foo.JPG"])] ∧
      exLiveWorld.procs = exLiveWorld.requested ∧
      ∃ ad wd, exApp.dry.run coreutils 3 (Node.dir exEntries) (World.start (exFsWith "Foo")) =
          some (ad, wd, none) ∧
        wd.requested = exLiveWorld.procs ∧ wd.stdout = report exLiveWorld.procs :=
  ⟨by decide, by decide,
    (dry_run_mirrors_undisturbed_live coreutils 3 exApp (Node.dir exEntries)
      (exFsWith "Foo")).2 exApp exLiveWorld none (by decide) (fun e h => nomatch h)
      (by unfold World.answersOf; decide)⟩

set_option maxRecDepth 100000 in
/-- C7, counterexample: the original `IMG_1.JPG` and the edited asset `IMG_1`.
The dry run reports `/out/IMG_1.JPG` as the destination of both transfers; the
live run, which ends without error, runs the second transfer with the
destination `/out/IMG_1-v1.JPG`, because its first transfer has occupied
`/out/IMG_1.JPG` by then. -/
theorem dry_run_differs_from_live :
    (exApp.dry.run coreutils 3 (Node.dir exEntries) (World.start (exFsWith "IMG_1"))).map
        (fun r => (r.2.1.requested, r.2.1.stdout, r.2.2)) =
        some ([("cp", ["--no-clobber", "/mnt/DCIM/100APPLE/IMG_1.JPG", "/out/IMG_1.JPG"]),
               ("cp", ["--no-clobber",
                  "/mnt/PhotoData/Mutations/DCIM/100APPLE/IMG_1/Adjustments/FullSizeRender.jpg",
                  "/out/IMG_1.JPG"])],
              "cp --no-clobber /mnt/DCIM/100APPLE/IMG_1.JPG /out/IMG_1.JPG\n" ++
              "cp --no-clobber " ++
                "/mnt/PhotoData/Mutations/DCIM/100APPLE/IMG_1/Adjustments/FullSizeRender.jpg" ++
                " /out/IMG_1.JPG\n",
              none) ∧
      (exApp.live.run coreutils 3 (Node.dir exEntries) (World.start (exFsWith "IMG_1"))).map
        (fun r => (r.2.1.procs, r.2.2)) =
        some ([("cp", ["--no-clobber", "/mnt/DCIM/100APPLE/IMG_1.JPG", "/out/IMG_1.JPG"]),
               ("cp", ["--no-clobber",
                  "/mnt/PhotoData/Mutations/DCIM/100APPLE/IMG_1/Adjustments/FullSizeRender.jpg",
                  "/out/IMG_1-v1.JPG"])],
              none) ∧
      (exApp.dry.run coreutils 3 (Node.dir exEntries) (World.start (exFsWith "IMG_1"))).map
          (fun r => r.2.1.requested) ≠
        (exApp.live.run coreutils 3 (Node.dir exEntries) (World.start (exFsWith "IMG_1"))).map
          (fun r => r.2.1.procs) := by
  refine ⟨by decide, by decide, by decide⟩


end IosPhotoBackup
